import Mathlib

/-!
# The multilevel feedback queue scheduler of NachOS-4.0_MP3

A shallow embedding of `code/threads/scheduler.cc`, followed by the stub file
system of NachOS-4.0_MP2 (`code/filesys/filesys.h`) and the multi-level file
header of NachOS-4.0_MP4 (`code/filesys/filehdr.cc`).

* Thread objects live in a heap `threads : ThreadPtr → Thread`; the ready
  lists hold pointers, exactly as the C++ lists hold `Thread *`.  In-place
  changes of a queued thread (status, waiting tick, priority) are therefore
  visible through every list that holds its pointer.
* `kernel->stats->totalTicks` is passed to every operation as `now`.
* `int` values are modelled by `Int`: the only integer arithmetic of the
  scheduler is `totalTicks - threadStartTick`, where both operands are tick
  counts with `0 ≤ threadStartTick ≤ totalTicks`, so no overflow can occur.
* `double` values (the remaining burst time) are modelled by `ℚ`; the implicit
  conversion `double → int` is truncation toward zero, the values being taken
  to lie within the range of `int`.  The concrete values used below (whole
  numbers, 3.5, 2.25) are doubles on which the arithmetic is exact.
* `ASSERT(kernel->interrupt->getLevel() == IntOff)` is outside the model:
  every operation is taken to run with interrupts disabled.
* The list class (`lib/list.h`) is not among the sources.  Its operations
  `Append`, `Insert` and `Remove` are modelled with their fatal assertions:
  putting in an item that is already in the list, and removing an item that is
  not in it, stop the kernel.
-/

namespace NachOS

/-- A `Thread *`: the address of a thread object. -/
abbrev ThreadPtr := Nat

/-- Modelled from the spec: the status of a task record, `READY | RUNNING |
BLOCKED | FINISHED` (the enumeration is declared in `thread.h`, which is not
among the sources). -/
inductive ThreadStatus where
  | READY
  | RUNNING
  | BLOCKED
  | FINISHED
  deriving DecidableEq, Repr

/-- Modelled from the spec: the task record (class `Thread` is declared in
`thread.h`, which is not among the sources).  The fields are the ones the
scheduler reads and writes: `getPriority`, `getRemainingBurstTime` (a
`double`), `setStatus`, `setWaiting`. -/
structure Thread where
  priority : Int
  remainingBurstTime : ℚ
  status : ThreadStatus
  waiting : Int
  deriving DecidableEq

/-- The scheduler object together with the two pieces of kernel state its
methods touch: the thread objects and `kernel->currentThread`. -/
structure Scheduler where
  threads : ThreadPtr → Thread
  currentThread : ThreadPtr
  readyList_L1 : List ThreadPtr
  readyList_L2 : List ThreadPtr
  readyList_L3 : List ThreadPtr
  currentLayer : Int
  threadStartTick : Int
  toBeDestroyed : Option ThreadPtr

/-- The implicit conversion `double → int` of C++: truncation toward zero. -/
def truncToInt (q : ℚ) : Int :=
  if 0 ≤ q then ⌊q⌋ else ⌈q⌉

/-- Function `compare_L1`: order by remaining burst time, smaller first. -/
def compare_L1 (threads : ThreadPtr → Thread) (x y : ThreadPtr) : Int :=
  let _x := (threads x).remainingBurstTime
  let _y := (threads y).remainingBurstTime
  if _x > _y then 1
  else if _x = _y then 0
  else -1

/-- Function `compare_L2`: order by priority, larger first. -/
def compare_L2 (threads : ThreadPtr → Thread) (x y : ThreadPtr) : Int :=
  let _x := (threads x).priority
  let _y := (threads y).priority
  if _x < _y then 1
  else if _x = _y then 0
  else -1

/-- Modelled from the spec: `List::Append` (`lib/list.h` is not among the
sources).  Tier3 is strict FIFO: a new item goes to the end.  Putting in an
item that is already in the list is fatal (double insert): `none` is that
assertion failure. -/
def Append (l : List ThreadPtr) (item : ThreadPtr) : Option (List ThreadPtr) :=
  if item ∈ l then none else some (l ++ [item])

/-- The place that `SortedList::Insert` gives to a new item, by the ordering
rule of the list, ties broken by insertion order: in front of the first element
that compares strictly greater, at the end when there is none. -/
def insertSorted (compare : ThreadPtr → ThreadPtr → Int) (item : ThreadPtr) :
    List ThreadPtr → List ThreadPtr
  | [] => [item]
  | x :: xs =>
    if compare item x < 0 then item :: x :: xs else x :: insertSorted compare item xs

/-- Modelled from the spec: `SortedList::Insert` (`lib/list.h` is not among the
sources).  Putting in an item that is already in the list is fatal (double
insert): `none` is that assertion failure.  Otherwise the item is placed by
`insertSorted`. -/
def Insert (compare : ThreadPtr → ThreadPtr → Int) (item : ThreadPtr)
    (l : List ThreadPtr) : Option (List ThreadPtr) :=
  if item ∈ l then none else some (insertSorted compare item l)

/-- Modelled from the spec: `List::Remove` (`lib/list.h` is not among the
sources).  Deletes a member; `none` is the fatal assertion raised when the item
is not present. -/
def Remove (l : List ThreadPtr) (item : ThreadPtr) : Option (List ThreadPtr) :=
  if item ∈ l then some (l.erase item) else none

/-- Method `Thread::setStatus`, on the heap. -/
def setStatus (threads : ThreadPtr → Thread) (t : ThreadPtr) (st : ThreadStatus) :
    ThreadPtr → Thread :=
  Function.update threads t { threads t with status := st }

/-- Method `Thread::setWaiting`, on the heap. -/
def setWaiting (threads : ThreadPtr → Thread) (t : ThreadPtr) (tick : Int) :
    ThreadPtr → Thread :=
  Function.update threads t { threads t with waiting := tick }

/-- Method `Scheduler::RunTime`: ticks since the running thread was dispatched. -/
def RunTime (s : Scheduler) (now : Int) : Int :=
  now - s.threadStartTick

/-- Constructor `Scheduler::Scheduler`: empty ready lists, layer 3, start tick `now`. -/
def Scheduler.init (threads : ThreadPtr → Thread) (currentThread : ThreadPtr) (now : Int) :
    Scheduler where
  threads := threads
  currentThread := currentThread
  readyList_L1 := []
  readyList_L2 := []
  readyList_L3 := []
  currentLayer := 3
  threadStartTick := now
  toBeDestroyed := none

/-- Method `Scheduler::ReadyToRun`.  `Except.ok` is a normal return;
`Except.error` is a fatal stop of the kernel, by `Abort()` or by the double
insert assertion of the list, carrying the state at the moment of the stop. -/
def ReadyToRun (s : Scheduler) (thread : ThreadPtr) (now : Int) : Except Scheduler Scheduler :=
  let s1 : Scheduler := { s with threads := setStatus s.threads thread ThreadStatus.READY }
  let s2 : Scheduler := { s1 with threads := setWaiting s1.threads thread now }
  let priority := (s2.threads thread).priority
  if 0 ≤ priority ∧ priority < 50 then
    match Append s2.readyList_L3 thread with
    | none => Except.error s2
    | some l3 => Except.ok { s2 with readyList_L3 := l3 }
  else if 50 ≤ priority ∧ priority < 100 then
    match Insert (compare_L2 s2.threads) thread s2.readyList_L2 with
    | none => Except.error s2
    | some l2 => Except.ok { s2 with readyList_L2 := l2 }
  else if 100 ≤ priority ∧ priority < 150 then
    match Insert (compare_L1 s2.threads) thread s2.readyList_L1 with
    | none => Except.error s2
    | some l1 => Except.ok { s2 with readyList_L1 := l1 }
  else
    Except.error s2

/-- Method `Scheduler::FindNextToRun`: the thread returned (`none` is `NULL`) and the
state afterwards.  `RemoveFront` is the head/tail split of the list. -/
def FindNextToRun (s : Scheduler) : Option ThreadPtr × Scheduler :=
  match s.readyList_L1 with
  | [] =>
    match s.readyList_L2 with
    | [] =>
      match s.readyList_L3 with
      | [] => (none, s)
      | t :: rest => (some t, { s with currentLayer := 3, readyList_L3 := rest })
    | t :: rest => (some t, { s with currentLayer := 2, readyList_L2 := rest })
  | t :: rest => (some t, { s with currentLayer := 1, readyList_L1 := rest })

/-- Method `Scheduler::ToYield`.  Both remaining times are stored in `int`
variables, so the `double` values are truncated before they are compared. -/
def ToYield (s : Scheduler) (now : Int) : Bool :=
  let currentThreadRemainTime : Int :=
    truncToInt ((s.threads s.currentThread).remainingBurstTime - ((RunTime s now : Int) : ℚ))
  let firstL1ThreadRemainTime : Int :=
    match s.readyList_L1 with
    | [] => 0
    | front :: _ => truncToInt (s.threads front).remainingBurstTime
  if s.currentLayer = 3 ∧ RunTime s now ≥ 100 then true
  else if s.currentLayer = 3 ∧ ¬(s.readyList_L1 = [] ∧ s.readyList_L2 = []) then true
  else if s.currentLayer = 2 ∧ ¬(s.readyList_L1 = []) then true
  else if s.currentLayer = 1 ∧ ¬(s.readyList_L1 = []) ∧
      firstL1ThreadRemainTime < currentThreadRemainTime then true
  else false

/-- Method `Scheduler::ToYield` as a call on the scheduler object: the value
returned and the state the call leaves behind.  The body assigns only to its
locals (`yield`, `currentThreadRemainTime`, `firstL1ThreadRemainTime`) and
calls only the readers `getRemainingBurstTime`, `RunTime`, `IsEmpty` and
`Front`, so the state it leaves is the state it was given. -/
def ToYieldCall (s : Scheduler) (now : Int) : Bool × Scheduler :=
  (ToYield s now, s)

/-- The first loop of `UpdateQueues`: `updatePriority(time)` on every thread of
a list, in list order.  `updatePriority` is `Thread::updatePriority`, the aging
function of the thread object (`thread.cc` is not among the sources): it is a
parameter, taking the thread object and the tick to the updated object; the
value it returns to the caller is the priority of the updated object. -/
def updateAll (updatePriority : Thread → Int → Thread) (time : Int) :
    List ThreadPtr → (ThreadPtr → Thread) → (ThreadPtr → Thread)
  | [], threads => threads
  | t :: rest, threads =>
    updateAll updatePriority time rest (Function.update threads t (updatePriority (threads t) time))

/-- The L2 loop of `UpdateQueues`: update every thread of L2 and record in
`uplevel2` the ones whose priority changed to 100 or more, in `upgrade` the
other ones whose priority changed.  The state is `(threads, uplevel2, upgrade)`;
`none` is the assertion of `Append`. -/
def scanL2 (updatePriority : Thread → Int → Thread) (time : Int) :
    List ThreadPtr → (ThreadPtr → Thread) × List ThreadPtr × List ThreadPtr →
      Option ((ThreadPtr → Thread) × List ThreadPtr × List ThreadPtr)
  | [], acc => some acc
  | t :: rest, (threads, uplevel2, upgrade) =>
    let old := (threads t).priority
    let threads1 := Function.update threads t (updatePriority (threads t) time)
    let priority := (threads1 t).priority
    if old ≠ priority then
      if priority ≥ 100 then
        match Append uplevel2 t with
        | none => none
        | some uplevel2a => scanL2 updatePriority time rest (threads1, uplevel2a, upgrade)
      else
        match Append upgrade t with
        | none => none
        | some upgradea => scanL2 updatePriority time rest (threads1, uplevel2, upgradea)
    else
      scanL2 updatePriority time rest (threads1, uplevel2, upgrade)

/-- The L3 loop of `UpdateQueues`: update every thread of L3 and record in
`uplevel3` the ones whose priority is now 50 or more.  The state is
`(threads, uplevel3)`; `none` is the assertion of `Append`. -/
def scanL3 (updatePriority : Thread → Int → Thread) (time : Int) :
    List ThreadPtr → (ThreadPtr → Thread) × List ThreadPtr →
      Option ((ThreadPtr → Thread) × List ThreadPtr)
  | [], acc => some acc
  | t :: rest, (threads, uplevel3) =>
    let threads1 := Function.update threads t (updatePriority (threads t) time)
    let priority := (threads1 t).priority
    if priority ≥ 50 then
      match Append uplevel3 t with
      | none => none
      | some uplevel3a => scanL3 updatePriority time rest (threads1, uplevel3a)
    else
      scanL3 updatePriority time rest (threads1, uplevel3)

/-- The loops of `UpdateQueues` that move threads: every item of `moved` is
removed from the list `src` and inserted into the sorted list `dst`.  The
state is `(src, dst)`; `none` is the assertion of `Remove` or of `Insert`. -/
def moveAll (compare : ThreadPtr → ThreadPtr → Int) :
    List ThreadPtr → List ThreadPtr × List ThreadPtr → Option (List ThreadPtr × List ThreadPtr)
  | [], q => some q
  | t :: rest, (src, dst) =>
    match Remove src t with
    | none => none
    | some src1 =>
      match Insert compare t dst with
      | none => none
      | some dst1 => moveAll compare rest (src1, dst1)

/-- The `upgrade` loop of `UpdateQueues`: every item is removed from L2 and
inserted into L2 again.  `none` is the assertion of `Remove` or of `Insert`. -/
def reinsertAll (compare : ThreadPtr → ThreadPtr → Int) :
    List ThreadPtr → List ThreadPtr → Option (List ThreadPtr)
  | [], l => some l
  | t :: rest, l =>
    match Remove l t with
    | none => none
    | some l1 =>
      match Insert compare t l1 with
      | none => none
      | some l2 => reinsertAll compare rest l2

/-- Method `Scheduler::UpdateQueues`, with `time = kernel->stats->totalTicks`.
`none` is a fatal assertion of the lists (`Remove` of an item that is absent,
`Append` or `Insert` of an item that is present). -/
def UpdateQueues (updatePriority : Thread → Int → Thread) (s : Scheduler) (time : Int) :
    Option Scheduler :=
  -- L1: update the priorities, nothing moves
  let threads1 := updateAll updatePriority time s.readyList_L1 s.threads
  -- L2: update the priorities and record who changed
  match scanL2 updatePriority time s.readyList_L2 (threads1, [], []) with
  | none => none
  | some (threads2, uplevel2, upgrade) =>
    match moveAll (compare_L1 threads2) uplevel2 (s.readyList_L2, s.readyList_L1) with
    | none => none
    | some (l2a, l1a) =>
      match reinsertAll (compare_L2 threads2) upgrade l2a with
      | none => none
      | some l2b =>
        -- L3: update the priorities and record who goes up
        match scanL3 updatePriority time s.readyList_L3 (threads2, []) with
        | none => none
        | some (threads3, uplevel3) =>
          match moveAll (compare_L2 threads3) uplevel3 (s.readyList_L3, l2b) with
          | none => none
          | some (l3a, l2c) =>
            some { s with threads := threads3, readyList_L1 := l1a,
                          readyList_L2 := l2c, readyList_L3 := l3a }

/-- The list `l1` is `l` with `item` put in at one place: nothing else is
added, removed or reordered. -/
def InsertedOnce (l : List ThreadPtr) (item : ThreadPtr) (l1 : List ThreadPtr) : Prop :=
  ∃ pre post, l = pre ++ post ∧ l1 = pre ++ item :: post

/-! ## Concrete states used to evaluate the operations -/

/-- Threads `1 = A(priority 10, burst 5)`, `2 = B(60, 3)`, `3 = C(120, 2)`;
every other address holds a blocked thread of priority 150. -/
def demoThreads : ThreadPtr → Thread := fun p =>
  if p = 1 then ⟨10, 5, ThreadStatus.BLOCKED, 0⟩
  else if p = 2 then ⟨60, 3, ThreadStatus.BLOCKED, 0⟩
  else if p = 3 then ⟨120, 2, ThreadStatus.BLOCKED, 0⟩
  else ⟨150, 0, ThreadStatus.BLOCKED, 0⟩

/-- The empty scheduler at tick 0 over `demoThreads`. -/
def demoInit : Scheduler := Scheduler.init demoThreads 0 0

/-- The state of an `Except` result, whichever way the call ended. -/
def stateOf : Except Scheduler Scheduler → Scheduler
  | Except.ok s => s
  | Except.error s => s

/-- A, B and C readied at tick 0, in this order. -/
def demoReadied : Scheduler :=
  stateOf (ReadyToRun (stateOf (ReadyToRun (stateOf (ReadyToRun demoInit 1 0)) 2 0)) 3 0)

/-- A scheduler whose running thread `0` was dispatched from layer `layer` at
tick 0 with remaining burst `running`, and whose L1 holds the single thread `1`
of remaining burst `head`. -/
def yieldState (layer : Int) (running head : ℚ) : Scheduler where
  threads := fun p =>
    if p = 0 then ⟨120, running, ThreadStatus.RUNNING, 0⟩
    else ⟨120, head, ThreadStatus.READY, 0⟩
  currentThread := 0
  readyList_L1 := [1]
  readyList_L2 := []
  readyList_L3 := []
  currentLayer := layer
  threadStartTick := 0
  toBeDestroyed := none

/-- A scheduler with empty ready lists whose running thread `0` was dispatched
from layer `layer` at tick 0. -/
def idleState (layer : Int) : Scheduler :=
  { Scheduler.init demoThreads 0 0 with currentLayer := layer }

/-! ## Reachable states and the selection property -/

/-- Every thread that is in a ready list. -/
def Scheduler.ready (s : Scheduler) : List ThreadPtr :=
  s.readyList_L1 ++ s.readyList_L2 ++ s.readyList_L3

/-- What the scheduler expects of the aging function on a thread whose
priority is in `[0,150)`: it leaves the remaining burst time alone, never
lowers the priority, keeps it below 150, and lifts a priority below 50 by less
than one whole tier (the result stays below 100). -/
def AgingContract (updatePriority : Thread → Int → Thread) : Prop :=
  ∀ (th : Thread) (time : Int), 0 ≤ th.priority → th.priority < 150 →
    (updatePriority th time).remainingBurstTime = th.remainingBurstTime ∧
    th.priority ≤ (updatePriority th time).priority ∧
    (updatePriority th time).priority < 150 ∧
    (th.priority < 50 → (updatePriority th time).priority < 100)

/-- The scheduler states reachable from the constructor by `ReadyToRun` (of a
thread that is in no ready list), `UpdateQueues` and `FindNextToRun`, together
with the bookkeeping needed to speak of enqueue order: `ReachableAt up s enq n`
says that `s` is reached after `n` calls of `ReadyToRun` and that `enq t` is
the serial number of the latest of them that readied `t`.  A thread that is
in a ready list is not readied again: a task is a member of at most one queue,
and a double insert is fatal.  The step `kernel` is the rest of the kernel at
work between two calls: it may change anything but the ready lists and the
objects of the threads that are in them. -/
inductive ReachableAt (up : Thread → Int → Thread) :
    Scheduler → (ThreadPtr → Nat) → Nat → Prop
  | init (threads : ThreadPtr → Thread) (currentThread : ThreadPtr) (now : Int) :
      ReachableAt up (Scheduler.init threads currentThread now) (fun _ => 0) 0
  | readyToRun {s s1 : Scheduler} {enq : ThreadPtr → Nat} {n : Nat}
      (thread : ThreadPtr) (now : Int) :
      ReachableAt up s enq n → thread ∉ s.ready →
      ReadyToRun s thread now = Except.ok s1 →
      ReachableAt up s1 (Function.update enq thread (n + 1)) (n + 1)
  | updateQueues {s s1 : Scheduler} {enq : ThreadPtr → Nat} {n : Nat} (time : Int) :
      ReachableAt up s enq n → UpdateQueues up s time = some s1 →
      ReachableAt up s1 enq n
  | findNextToRun {s : Scheduler} {enq : ThreadPtr → Nat} {n : Nat} :
      ReachableAt up s enq n → ReachableAt up (FindNextToRun s).2 enq n
  | kernel {s s1 : Scheduler} {enq : ThreadPtr → Nat} {n : Nat} :
      ReachableAt up s enq n →
      s1.readyList_L1 = s.readyList_L1 → s1.readyList_L2 = s.readyList_L2 →
      s1.readyList_L3 = s.readyList_L3 → (∀ t ∈ s.ready, s1.threads t = s.threads t) →
      ReachableAt up s1 enq n

/-- The priority of thread `t` is in the band of Tier1, `[100,150)`. -/
def InTier1 (s : Scheduler) (t : ThreadPtr) : Prop :=
  100 ≤ (s.threads t).priority ∧ (s.threads t).priority < 150

/-- The priority of thread `t` is in the band of Tier2, `[50,100)`. -/
def InTier2 (s : Scheduler) (t : ThreadPtr) : Prop :=
  50 ≤ (s.threads t).priority ∧ (s.threads t).priority < 100

/-- Thread `t` is the best ready thread of `s` by (tier precedence, tier order
key): the smallest remaining burst among the ready threads of Tier1 priority
when there is one; otherwise the largest priority among those of Tier2
priority when there is one; otherwise the thread of L3 that was readied
before every other ready thread. -/
def SelectsBest (s : Scheduler) (enq : ThreadPtr → Nat) (t : ThreadPtr) : Prop :=
  t ∈ s.ready ∧
  ((∃ u ∈ s.ready, InTier1 s u) →
    InTier1 s t ∧
    ∀ u ∈ s.ready, InTier1 s u → (s.threads t).remainingBurstTime ≤ (s.threads u).remainingBurstTime) ∧
  ((¬ ∃ u ∈ s.ready, InTier1 s u) → (∃ u ∈ s.ready, InTier2 s u) →
    InTier2 s t ∧
    ∀ u ∈ s.ready, InTier2 s u → (s.threads u).priority ≤ (s.threads t).priority) ∧
  ((¬ ∃ u ∈ s.ready, InTier1 s u) → (¬ ∃ u ∈ s.ready, InTier2 s u) →
    t ∈ s.readyList_L3 ∧ ∀ u ∈ s.ready, u ≠ t → enq t < enq u)

/-- The invariant of the ready lists: no thread is queued twice, every list
holds the priorities of its tier, L1 is in ascending order of remaining burst
time, L2 in descending order of priority, L3 in order of enqueueing. -/
structure QueueInvariant (s : Scheduler) (enq : ThreadPtr → Nat) (n : Nat) : Prop where
  nodup : s.ready.Nodup
  tier1 : ∀ t ∈ s.readyList_L1, 100 ≤ (s.threads t).priority ∧ (s.threads t).priority < 150
  tier2 : ∀ t ∈ s.readyList_L2, 50 ≤ (s.threads t).priority ∧ (s.threads t).priority < 100
  tier3 : ∀ t ∈ s.readyList_L3, 0 ≤ (s.threads t).priority ∧ (s.threads t).priority < 50
  sorted1 : s.readyList_L1.Pairwise
    (fun a b => (s.threads a).remainingBurstTime ≤ (s.threads b).remainingBurstTime)
  sorted2 : s.readyList_L2.Pairwise
    (fun a b => -(s.threads a).priority ≤ -(s.threads b).priority)
  fifo3 : s.readyList_L3.Pairwise (fun a b => enq a < enq b)
  stamped : ∀ t ∈ s.ready, enq t ≤ n

/-! ## Concrete states for the aging loop -/

/-- An aging function that honours `AgingContract`: ten more after 1500 ticks
of waiting, never beyond 149. -/
def demoAging (th : Thread) (time : Int) : Thread :=
  if time - th.waiting ≥ 1500 ∧ th.priority + 10 < 150 then
    { th with priority := th.priority + 10, waiting := time }
  else th

/-- The state `demoReadied` after `UpdateQueues` at tick 1500 with `demoAging`. -/
def demoAged : Scheduler :=
  (UpdateQueues demoAging demoReadied 1500).getD demoReadied

/-- The enqueue serial numbers of `demoReadied`: A first, B second, C third. -/
def demoEnq : ThreadPtr → Nat :=
  Function.update (Function.update (Function.update (fun _ => 0) 1 1) 2 2) 3 3

/-- An aging function that lifts a priority below 50 by a hundred in one
call, across two tier boundaries; it never lowers a priority, keeps it below
150 and leaves the remaining burst time alone. -/
def jumpAging (th : Thread) (_time : Int) : Thread :=
  if th.priority < 50 then { th with priority := th.priority + 100 } else th

/-- Thread `1` has priority 20 and remaining burst 5, every other thread
priority 10 and remaining burst 2. -/
def jumpThreads : ThreadPtr → Thread := fun p =>
  if p = 1 then ⟨20, 5, ThreadStatus.BLOCKED, 0⟩ else ⟨10, 2, ThreadStatus.BLOCKED, 0⟩

/-- The empty scheduler at tick 0 over `jumpThreads`. -/
def jumpInit : Scheduler := Scheduler.init jumpThreads 0 0

/-- Threads `1` and `2` readied at tick 0, in this order. -/
def jumpReadied : Scheduler :=
  stateOf (ReadyToRun (stateOf (ReadyToRun jumpInit 1 0)) 2 0)

/-- The state `jumpReadied` after `UpdateQueues` at tick 1 with `jumpAging`. -/
def jumpAged : Scheduler :=
  (UpdateQueues jumpAging jumpReadied 1).getD jumpReadied

/-- The enqueue serial numbers of `jumpReadied`. -/
def jumpEnq : ThreadPtr → Nat :=
  Function.update (Function.update (fun _ => 0) 1 1) 2 2

/-- The state `jumpAged` after a second `UpdateQueues`, at tick 2, with
`jumpAging`. -/
def jumpAgedAgain : Scheduler :=
  (UpdateQueues jumpAging jumpAged 2).getD jumpAged


/-! ## What one call of UpdateQueues does -/

/-- The aging function never lowers a priority. -/
def AgingMonotone (updatePriority : Thread → Int → Thread) : Prop :=
  ∀ (th : Thread) (time : Int), th.priority ≤ (updatePriority th time).priority

/-- The effect of `UpdateQueues up s time = some s1` on a state `s` in which no
thread is queued twice, field by field: the frame, the thread objects, the
members of the three lists, and what happens to the order of L1 and L2. -/
structure UpdateEffect (up : Thread → Int → Thread) (s : Scheduler) (time : Int)
    (s1 : Scheduler) : Prop where
  currentThread_eq : s1.currentThread = s.currentThread
  currentLayer_eq : s1.currentLayer = s.currentLayer
  threadStartTick_eq : s1.threadStartTick = s.threadStartTick
  toBeDestroyed_eq : s1.toBeDestroyed = s.toBeDestroyed
  threads_queued : ∀ u ∈ s.ready, s1.threads u = up (s.threads u) time
  threads_other : ∀ u, u ∉ s.ready → s1.threads u = s.threads u
  mem_L1 : ∀ t, t ∈ s1.readyList_L1 ↔ t ∈ s.readyList_L1 ∨
    (t ∈ s.readyList_L2 ∧ 100 ≤ (s1.threads t).priority ∧
      (s.threads t).priority ≠ (s1.threads t).priority)
  mem_L2 : ∀ t, t ∈ s1.readyList_L2 ↔
    (t ∈ s.readyList_L2 ∧ ¬ (100 ≤ (s1.threads t).priority ∧
      (s.threads t).priority ≠ (s1.threads t).priority)) ∨
    (t ∈ s.readyList_L3 ∧ 50 ≤ (s1.threads t).priority)
  list_L3 : s1.readyList_L3 =
    s.readyList_L3.filter (fun t => decide ((s1.threads t).priority < 50))
  perm : s1.ready.Perm s.ready
  sublist_L1 : s.readyList_L1.Sublist s1.readyList_L1
  sorted_L1 :
    s.readyList_L1.Pairwise (fun a b =>
      (s1.threads a).remainingBurstTime ≤ (s1.threads b).remainingBurstTime) →
    s1.readyList_L1.Pairwise (fun a b =>
      (s1.threads a).remainingBurstTime ≤ (s1.threads b).remainingBurstTime)
  sorted_L2 :
    s.readyList_L2.Pairwise (fun a b =>
      (s.threads b).priority = (s1.threads b).priority →
        (s1.threads b).priority ≤ (s1.threads a).priority) →
    s1.readyList_L2.Pairwise (fun a b => (s1.threads b).priority ≤ (s1.threads a).priority)

/-! ## Concrete states for tier migration and reordering -/

/-- Threads `1` (priority 45, burst 5), `2` (priority 95, burst 3) and every
other thread (priority 120, burst 2): one aging step of ten takes thread `1`
across 50 and thread `2` across 100. -/
def crossThreads : ThreadPtr → Thread := fun p =>
  if p = 1 then ⟨45, 5, ThreadStatus.BLOCKED, 0⟩
  else if p = 2 then ⟨95, 3, ThreadStatus.BLOCKED, 0⟩
  else ⟨120, 2, ThreadStatus.BLOCKED, 0⟩

/-- Threads `1`, `2` and `3` of `crossThreads` readied at tick 0: L1 holds
`3`, L2 holds `2`, L3 holds `1`. -/
def crossReadied : Scheduler :=
  stateOf (ReadyToRun (stateOf (ReadyToRun (stateOf
    (ReadyToRun (Scheduler.init crossThreads 0 0) 1 0)) 2 0)) 3 0)

/-- The state `crossReadied` after `UpdateQueues` at tick 1500 with `demoAging`. -/
def crossAged : Scheduler :=
  (UpdateQueues demoAging crossReadied 1500).getD crossReadied

/-- Threads `1` (priority 90), `2` (priority 80) and every other thread
(priority 70), all of remaining burst 1. -/
def orderThreads : ThreadPtr → Thread := fun p =>
  if p = 1 then ⟨90, 1, ThreadStatus.BLOCKED, 0⟩
  else if p = 2 then ⟨80, 1, ThreadStatus.BLOCKED, 0⟩
  else ⟨70, 1, ThreadStatus.BLOCKED, 0⟩

/-- Thread `1` readied at tick 0, thread `2` at tick 600, thread `3` at tick
0: L2 holds `1`, `2`, `3` in this order. -/
def orderReadied : Scheduler :=
  stateOf (ReadyToRun (stateOf (ReadyToRun (stateOf
    (ReadyToRun (Scheduler.init orderThreads 0 0) 1 0)) 2 600)) 3 0)

/-- The state `orderReadied` after `UpdateQueues` at tick 1500 with `demoAging`. -/
def orderAged : Scheduler :=
  (UpdateQueues demoAging orderReadied 1500).getD orderReadied

/-! ## Run -/

/-- Method `Scheduler::Run`, from its entry to the call of `SWITCH`: the state
in which the context switch is invoked, `now` being `kernel->stats->totalTicks`.
The value `none` is the failure of `ASSERT(toBeDestroyed == NULL)`.  Saving the
user state of the old thread and its stack overflow check belong to the thread
and address space objects and are outside the model. -/
def RunToSwitch (s : Scheduler) (nextThread : ThreadPtr) (finishing : Bool) (now : Int) :
    Option Scheduler :=
  let oldThread := s.currentThread
  let marked : Option Scheduler :=
    if finishing then
      if s.toBeDestroyed = none then some { s with toBeDestroyed := some oldThread }
      else none
    else some s
  match marked with
  | none => none
  | some s1 =>
    some { s1 with currentThread := nextThread,
                   threads := setStatus s1.threads nextThread ThreadStatus.RUNNING,
                   threadStartTick := now }

/-- Method `Scheduler::CheckToBeDestroyed`: the pending thread, if any, is
deleted and the slot is emptied. -/
def CheckToBeDestroyed (s : Scheduler) : Scheduler :=
  match s.toBeDestroyed with
  | some _ => { s with toBeDestroyed := none }
  | none => s

/-! ## Sequences of calls and insertion order -/

/-- Successive calls of `FindNextToRun`: the threads returned by at most `n`
calls, in the order of the calls, up to the first `NULL`. -/
def dispatchSequence : Nat → Scheduler → List ThreadPtr
  | 0, _ => []
  | n + 1, s =>
    match FindNextToRun s with
    | (none, _) => []
    | (some t, s1) => t :: dispatchSequence n s1

/-- A sequence of `ReadyToRun` calls, each with its thread and its tick, up to
the first one that aborts. -/
def readyAll : List (ThreadPtr × Int) → Scheduler → Except Scheduler Scheduler
  | [], s => Except.ok s
  | (t, now) :: rest, s =>
    match ReadyToRun s t now with
    | Except.ok s1 => readyAll rest s1
    | Except.error s1 => Except.error s1

/-- The scheduler states reachable from the constructor by `ReadyToRun` (of a
thread that is in no ready list) and `FindNextToRun`, with the same
bookkeeping as `ReachableAt`: `enq t` is the serial number of the latest
`ReadyToRun` call on `t`, `n` the number of calls so far.  The step `kernel` is
the rest of the kernel at work: it may change anything but the ready lists and
the objects of the threads that are in them. -/
inductive ReadiedAt : Scheduler → (ThreadPtr → Nat) → Nat → Prop
  | init (threads : ThreadPtr → Thread) (currentThread : ThreadPtr) (now : Int) :
      ReadiedAt (Scheduler.init threads currentThread now) (fun _ => 0) 0
  | readyToRun {s s1 : Scheduler} {enq : ThreadPtr → Nat} {n : Nat}
      (thread : ThreadPtr) (now : Int) :
      ReadiedAt s enq n → thread ∉ s.ready →
      ReadyToRun s thread now = Except.ok s1 →
      ReadiedAt s1 (Function.update enq thread (n + 1)) (n + 1)
  | findNextToRun {s : Scheduler} {enq : ThreadPtr → Nat} {n : Nat} :
      ReadiedAt s enq n → ReadiedAt (FindNextToRun s).2 enq n
  | kernel {s s1 : Scheduler} {enq : ThreadPtr → Nat} {n : Nat} :
      ReadiedAt s enq n →
      s1.readyList_L1 = s.readyList_L1 → s1.readyList_L2 = s.readyList_L2 →
      s1.readyList_L3 = s.readyList_L3 → (∀ t ∈ s.ready, s1.threads t = s.threads t) →
      ReadiedAt s1 enq n

/-- The order of the ready lists with ties: L1 by remaining burst time and,
among equal ones, by enqueue serial number; L2 by priority (larger first) and,
among equal ones, by enqueue serial number; L3 by enqueue serial number. -/
structure TieInvariant (s : Scheduler) (enq : ThreadPtr → Nat) (n : Nat) : Prop where
  nodup : s.ready.Nodup
  tie1 : s.readyList_L1.Pairwise (fun a b =>
    (s.threads a).remainingBurstTime ≤ (s.threads b).remainingBurstTime ∧
    ((s.threads a).remainingBurstTime = (s.threads b).remainingBurstTime → enq a < enq b))
  tie2 : s.readyList_L2.Pairwise (fun a b =>
    -(s.threads a).priority ≤ -(s.threads b).priority ∧
    (-(s.threads a).priority = -(s.threads b).priority → enq a < enq b))
  fifo3 : s.readyList_L3.Pairwise (fun a b => enq a < enq b)
  stamped : ∀ t ∈ s.ready, enq t ≤ n

/-- Threads `1` (priority 120) and `2` (priority 110) of remaining burst 2,
every other thread of priority 60 and remaining burst 9. -/
def tieThreads : ThreadPtr → Thread := fun p =>
  if p = 1 then ⟨120, 2, ThreadStatus.BLOCKED, 0⟩
  else if p = 2 then ⟨110, 2, ThreadStatus.BLOCKED, 0⟩
  else ⟨60, 9, ThreadStatus.BLOCKED, 0⟩

/-- Threads `3`, `1`, `4`, `2` of `tieThreads` readied in this order. -/
def tieReadied : Scheduler :=
  stateOf (readyAll [(3, 0), (1, 1), (4, 2), (2, 3)] (Scheduler.init tieThreads 0 0))

/-- The enqueue serial numbers of `tieReadied`. -/
def tieEnq : ThreadPtr → Nat :=
  Function.update (Function.update (Function.update (Function.update (fun _ => 0) 3 1) 1 2) 4 3) 2 4

/-! ## The stub file system of NachOS-4.0_MP2 (`filesys.h`, `FILESYS_STUB`) -/

/-- An open file object.  The class `OpenFile` is declared in `openfile.h`,
which is not among the sources; the object is reduced to the UNIX file
descriptor it is constructed from. -/
structure OpenFile where
  file : Int
  deriving DecidableEq

/-- The stub `FileSystem` object: the array `OpenFileTable[20]` (`none` is
`NULL`) and the counter `OpenFileTableSize`.  The counter is an `int`; it is
modelled by `Int`, the states reached from the constructor keeping it within
0 and 20. -/
structure FileSystem where
  OpenFileTable : Fin 20 → Option OpenFile
  OpenFileTableSize : Int

/-- Constructor `FileSystem::FileSystem`: every entry `NULL`, size 0. -/
def FileSystem.init : FileSystem where
  OpenFileTable := fun _ => none
  OpenFileTableSize := 0

/-- Method `FileSystem::OpenAFile`.  The host call `OpenForReadWrite(name,
FALSE)` (`sysdep.h`, not among the sources) is the parameter
`OpenForReadWrite`: the descriptor it returns for a name, -1 when the file
cannot be opened.  The first component is the value returned; it is `none`
when the search loop ends without a `return`, in which case the function
returns no value. -/
def OpenAFile (fs : FileSystem) (OpenForReadWrite : String → Int) (name : String) :
    Option Int × FileSystem :=
  if fs.OpenFileTableSize = 20 then (some (-1), fs)
  else
    let fileDescriptor := OpenForReadWrite name
    if fileDescriptor = -1 then (some (-1), fs)
    else
      let fs1 : FileSystem := { fs with OpenFileTableSize := fs.OpenFileTableSize + 1 }
      match (List.finRange 20).find? (fun i => fs1.OpenFileTable i = none) with
      | some i =>
        (some (i.val : Int),
          { fs1 with OpenFileTable :=
              Function.update fs1.OpenFileTable i (some ⟨fileDescriptor⟩) })
      | none => (none, fs1)

/-- Method `FileSystem::CloseFile`: the value returned and the state after. -/
def CloseFile (fs : FileSystem) (id : Int) : Int × FileSystem :=
  if h : id < 0 ∨ id ≥ 20 then (-1, fs)
  else
    match fs.OpenFileTable ⟨id.toNat, by omega⟩ with
    | none => (-1, fs)
    | some _ =>
      (1, { OpenFileTable := Function.update fs.OpenFileTable ⟨id.toNat, by omega⟩ none,
            OpenFileTableSize := fs.OpenFileTableSize - 1 })

/-- The number of entries of the table that are not `NULL`. -/
def usedEntries (fs : FileSystem) : Nat :=
  (List.finRange 20).countP (fun i => (fs.OpenFileTable i).isSome)

/-- The file system states reachable from the constructor by `OpenAFile` and
`CloseFile`, with any host and any arguments. -/
inductive FsReachable : FileSystem → Prop
  | init : FsReachable FileSystem.init
  | openAFile {fs : FileSystem} (OpenForReadWrite : String → Int) (name : String) :
      FsReachable fs → FsReachable (OpenAFile fs OpenForReadWrite name).2
  | closeFile {fs : FileSystem} (id : Int) :
      FsReachable fs → FsReachable (CloseFile fs id).2

/-- The call `OpenAFile` made `n` times on the same name: the values returned,
in order, and the state after. -/
def openMany (OpenForReadWrite : String → Int) (name : String) :
    Nat → FileSystem → List (Option Int) × FileSystem
  | 0, fs => ([], fs)
  | n + 1, fs =>
    let r := OpenAFile fs OpenForReadWrite name
    let rs := openMany OpenForReadWrite name n r.2
    (r.1 :: rs.1, rs.2)

/-- A host on which `file2.test` exists (descriptor 3) and no other file. -/
def demoHost : String → Int := fun name =>
  if name = "file2.test" then 3 else -1

/-- The file system after thirty calls `Open("file2.test")`, as in
`extreme_case.c`. -/
def fsFull : FileSystem := (openMany demoHost "file2.test" 30 FileSystem.init).2

/-- The state `fsFull` after `Close(5)` and `Close(10)`. -/
def fsHoles : FileSystem := (CloseFile (CloseFile fsFull 5).2 10).2

/-! ## The file header of NachOS-4.0_MP4 (`filehdr.cc`)

The constants `NumDirect` and `SectorSize` (`filehdr.h`, `disk.h`) are not
among the sources and are parameters.  Array indices are `Int`, the arrays are
total functions; `/` and `%` of C are `Int.tdiv` and `Int.tmod`. -/

/-- The macro `divRoundUp(n, s)` of `lib/utility.h`, which is not among the
sources: the quotient of `n` by `s` rounded up, computed as the C quotient plus
one when the C remainder is positive. -/
def divRoundUp (n s : Int) : Int :=
  Int.tdiv n s + (if Int.tmod n s > 0 then 1 else 0)

/-- The members of class `FileHeader` that `Allocate` and `ByteToSector` use
(`filehdr.h` is not among the sources): the two counters and the four
tables `headerSectorsL1[NumDirect]`, `headerSectorsL2[NumDirect][32]`,
`headerSectorsL3[NumDirect][32][32]` and `dataSectors[NumDirect][32][32][32]`. -/
structure FileHeader where
  numBytes : Int
  numSectors : Int
  headerSectorsL1 : Int → Int
  headerSectorsL2 : Int → Int → Int
  headerSectorsL3 : Int → Int → Int → Int
  dataSectors : Int → Int → Int → Int → Int

/-- Constructor `FileHeader::FileHeader`: everything is -1. -/
def FileHeader.init : FileHeader where
  numBytes := -1
  numSectors := -1
  headerSectorsL1 := fun _ => -1
  headerSectorsL2 := fun _ _ => -1
  headerSectorsL3 := fun _ _ _ => -1
  dataSectors := fun _ _ _ _ => -1

/-- The free map (`PersistentBitmap`, declared in `pbitmap.h` and `bitmap.h`,
which are not among the sources), represented by the list of its clear bits in
the order in which `FindAndSet` hands them out.  `FindAndSet` returns the
first of them and marks it, or -1 when no bit is clear. -/
def FindAndSet : List Nat → Int × List Nat
  | [] => (-1, [])
  | b :: rest => ((b : Int), rest)

/-- The number of clear bits of the free map, `Bitmap::NumClear`. -/
def NumClear (freeMap : List Nat) : Int :=
  (freeMap.length : Int)

/-- A loop `for (i = start; i < start + n; i++) body`, the body returning
`none` when an assertion fails. -/
def forLoop {σ : Type} (body : Int → σ → Option σ) : Nat → Int → σ → Option σ
  | 0, _, st => some st
  | n + 1, i, st =>
    match body i st with
    | none => none
    | some st1 => forLoop body n (i + 1) st1

/-- The innermost loops of `Allocate`,
`for (x = 0; x < 32 && cnt < limit; x++, cnt++) { a[..][x] = freeMap->FindAndSet(); ASSERT(a[..][x] >= 0); }`,
started with 32 rounds to go at `x = 0`.  The state is the table, the free map
and `cnt`; `write x v` stores `v` in slot `x` of the row being filled. -/
def fillRow {A : Type} (limit : Int) (write : Int → Int → A → A) :
    Nat → Int → A × List Nat × Int → Option (A × List Nat × Int)
  | 0, _, st => some st
  | n + 1, x, (a, freeMap, cnt) =>
    if cnt < limit then
      if (FindAndSet freeMap).1 ≥ 0 then
        fillRow limit write n (x + 1)
          (write x (FindAndSet freeMap).1 a, (FindAndSet freeMap).2, cnt + 1)
      else none
    else some (a, freeMap, cnt)

/-- Assignment `a[i] = v`. -/
def write1 (a : Int → Int) (i v : Int) : Int → Int :=
  fun i1 => if i1 = i then v else a i1

/-- Assignment `a[i][j] = v`. -/
def write2 (a : Int → Int → Int) (i j v : Int) : Int → Int → Int :=
  fun i1 j1 => if i1 = i ∧ j1 = j then v else a i1 j1

/-- Assignment `a[i][j][k] = v`. -/
def write3 (a : Int → Int → Int → Int) (i j k v : Int) : Int → Int → Int → Int :=
  fun i1 j1 k1 => if i1 = i ∧ j1 = j ∧ k1 = k then v else a i1 j1 k1

/-- Assignment `a[i][j][k][l] = v`. -/
def write4 (a : Int → Int → Int → Int → Int) (i j k l v : Int) :
    Int → Int → Int → Int → Int :=
  fun i1 j1 k1 l1 => if i1 = i ∧ j1 = j ∧ k1 = k ∧ l1 = l then v else a i1 j1 k1 l1

/-- Method `FileHeader::Allocate`.  The result is `none` when an assertion
fails; otherwise the value returned, the header and the free map after the
call. -/
def Allocate (NumDirect : Nat) (SectorSize : Int) (hdr : FileHeader) (freeMap : List Nat)
    (fileSize : Int) : Option (Bool × FileHeader × List Nat) :=
  let numSectors := divRoundUp fileSize SectorSize
  let L3Num := divRoundUp numSectors 32
  let L2Num := divRoundUp L3Num 32
  let L1Num := divRoundUp L2Num 32
  let hdr0 : FileHeader := { hdr with numBytes := fileSize, numSectors := numSectors }
  if ¬ L1Num ≤ (NumDirect : Int) then none
  else if NumClear freeMap < numSectors + L3Num + L2Num + L1Num then
    some (false, hdr0, freeMap)
  else
    match forLoop (fun i (st : (Int → Int) × List Nat) =>
        if (FindAndSet st.2).1 ≥ 0 then
          some (write1 st.1 i (FindAndSet st.2).1, (FindAndSet st.2).2)
        else none) L1Num.toNat 0 (hdr0.headerSectorsL1, freeMap) with
    | none => none
    | some (l1, freeMap1) =>
      match forLoop (fun i => fillRow L2Num (fun j v a => write2 a i j v) 32 0)
          NumDirect 0 (hdr0.headerSectorsL2, freeMap1, 0) with
      | none => none
      | some (l2, freeMap2, _) =>
        match forLoop (fun i => forLoop (fun j =>
            fillRow L3Num (fun k v a => write3 a i j k v) 32 0) 32 0)
            NumDirect 0 (hdr0.headerSectorsL3, freeMap2, 0) with
        | none => none
        | some (l3, freeMap3, _) =>
          match forLoop (fun i => forLoop (fun j => forLoop (fun k =>
              fillRow numSectors (fun l v a => write4 a i j k l v) 32 0) 32 0) 32 0)
              NumDirect 0 (hdr0.dataSectors, freeMap3, 0) with
          | none => none
          | some (d, freeMap4, _) =>
            some (true, { hdr0 with headerSectorsL1 := l1, headerSectorsL2 := l2,
                                    headerSectorsL3 := l3, dataSectors := d }, freeMap4)

/-- Method `FileHeader::ByteToSector`, `none` when its assertion fails. -/
def ByteToSector (NumDirect : Nat) (SectorSize : Int) (hdr : FileHeader) (offset : Int) :
    Option Int :=
  let sectorNum := Int.tdiv offset SectorSize
  let L3Num := Int.tmod (sectorNum >>> 5) 32
  let L2Num := Int.tmod (sectorNum >>> 10) 32
  let L1Num := sectorNum >>> 15
  if L1Num < (NumDirect : Int) then
    some (hdr.dataSectors L1Num L2Num L3Num (Int.tmod sectorNum 32))
  else none

/-- The number of header sectors `Allocate` takes for a file of `fileSize`
bytes before it takes the data sectors: `L1Num + L2Num + L3Num`. -/
def headerSectorCount (SectorSize fileSize : Int) : Int :=
  let numSectors := divRoundUp fileSize SectorSize
  let L3Num := divRoundUp numSectors 32
  let L2Num := divRoundUp L3Num 32
  let L1Num := divRoundUp L2Num 32
  L1Num + L2Num + L3Num

/-- The header after `Allocate` of 5000 bytes with one first-level entry,
sectors of 128 bytes and the free sectors `100, 101, ...`. -/
def demoAllocated : Option (Bool × FileHeader × List Nat) :=
  Allocate 1 128 FileHeader.init ((List.range 60).map (fun i => i + 100)) 5000

/-- The state of a filling loop of `Allocate` when the loops have passed `p`
slots: `cnt` is `p` capped at the limit `L`, the free map is the initial one
`fm0` without its first `cnt` bits, and the table satisfies `Q cnt`. -/
def Filled {A : Type} (L : Nat) (fm0 : List Nat) (Q : Nat → A → Prop) (p : Nat)
    (st : A × List Nat × Int) : Prop :=
  st.2.2 = ((min p L : Nat) : Int) ∧ st.2.1 = fm0.drop (min p L) ∧ Q (min p L) st.1

/-- The slot of `dataSectors` that holds the data sector number `n`. -/
def read4 (a : Int → Int → Int → Int → Int) (n : Nat) : Int :=
  a ((n / 32768 : Nat) : Int) ((n / 1024 % 32 : Nat) : Int) ((n / 32 % 32 : Nat) : Int)
    ((n % 32 : Nat) : Int)

/-! ## Lemmas on the list operations -/

theorem insertSorted_insertedOnce (compare : ThreadPtr → ThreadPtr → Int) (item : ThreadPtr)
    (l : List ThreadPtr) : InsertedOnce l item (insertSorted compare item l) := by
  induction l with
  | nil => exact ⟨[], [], rfl, rfl⟩
  | cons x xs ih =>
    unfold insertSorted
    split
    · exact ⟨[], x :: xs, rfl, rfl⟩
    · obtain ⟨pre, post, h1, h2⟩ := ih
      exact ⟨x :: pre, post, by rw [h1]; rfl, by rw [h2]; rfl⟩

theorem setWaiting_setStatus_priority (threads : ThreadPtr → Thread) (t u : ThreadPtr)
    (st : ThreadStatus) (tick : Int) :
    (setWaiting (setStatus threads t st) t tick u).priority = (threads u).priority := by
  unfold setWaiting setStatus
  by_cases h : u = t
  · subst h; simp
  · simp [Function.update_noteq h]

theorem ReadyToRun_of_not_mem (s : Scheduler) (thread : ThreadPtr) (now : Int)
    (h3 : 0 ≤ (s.threads thread).priority → (s.threads thread).priority < 50 →
      thread ∉ s.readyList_L3)
    (h2 : 50 ≤ (s.threads thread).priority → (s.threads thread).priority < 100 →
      thread ∉ s.readyList_L2)
    (h1 : 100 ≤ (s.threads thread).priority → (s.threads thread).priority < 150 →
      thread ∉ s.readyList_L1) :
    ReadyToRun s thread now =
      (let s1 : Scheduler := { s with threads := setStatus s.threads thread ThreadStatus.READY }
       let s2 : Scheduler := { s1 with threads := setWaiting s1.threads thread now }
       let priority := (s2.threads thread).priority
       if 0 ≤ priority ∧ priority < 50 then
         Except.ok { s2 with readyList_L3 := s2.readyList_L3 ++ [thread] }
       else if 50 ≤ priority ∧ priority < 100 then
         Except.ok { s2 with
           readyList_L2 := insertSorted (compare_L2 s2.threads) thread s2.readyList_L2 }
       else if 100 ≤ priority ∧ priority < 150 then
         Except.ok { s2 with
           readyList_L1 := insertSorted (compare_L1 s2.threads) thread s2.readyList_L1 }
       else
         Except.error s2) := by
  have hp := setWaiting_setStatus_priority s.threads thread thread ThreadStatus.READY now
  unfold ReadyToRun Append Insert
  simp only [hp]
  by_cases c3 : 0 ≤ (s.threads thread).priority ∧ (s.threads thread).priority < 50
  · simp only [if_pos c3, if_neg (h3 c3.1 c3.2)]
  · simp only [if_neg c3]
    by_cases c2 : 50 ≤ (s.threads thread).priority ∧ (s.threads thread).priority < 100
    · simp only [if_pos c2, if_neg (h2 c2.1 c2.2)]
    · simp only [if_neg c2]
      by_cases c1 : 100 ≤ (s.threads thread).priority ∧ (s.threads thread).priority < 150
      · simp only [if_pos c1, if_neg (h1 c1.1 c1.2)]
      · simp only [if_neg c1]

theorem ReadyToRun_of_fresh (s : Scheduler) (thread : ThreadPtr) (now : Int)
    (hfresh : thread ∉ s.ready) :
    ReadyToRun s thread now =
      (let s1 : Scheduler := { s with threads := setStatus s.threads thread ThreadStatus.READY }
       let s2 : Scheduler := { s1 with threads := setWaiting s1.threads thread now }
       let priority := (s2.threads thread).priority
       if 0 ≤ priority ∧ priority < 50 then
         Except.ok { s2 with readyList_L3 := s2.readyList_L3 ++ [thread] }
       else if 50 ≤ priority ∧ priority < 100 then
         Except.ok { s2 with
           readyList_L2 := insertSorted (compare_L2 s2.threads) thread s2.readyList_L2 }
       else if 100 ≤ priority ∧ priority < 150 then
         Except.ok { s2 with
           readyList_L1 := insertSorted (compare_L1 s2.threads) thread s2.readyList_L1 }
       else
         Except.error s2) := by
  unfold Scheduler.ready at hfresh
  simp only [List.mem_append, not_or] at hfresh
  exact ReadyToRun_of_not_mem s thread now (fun _ _ => hfresh.2) (fun _ _ => hfresh.1.2)
    (fun _ _ => hfresh.1.1)

theorem truncToInt_mono {a b : ℚ} (h : a ≤ b) : truncToInt a ≤ truncToInt b := by
  unfold truncToInt
  by_cases ha : 0 ≤ a
  · have hb : 0 ≤ b := le_trans ha h
    rw [if_pos ha, if_pos hb]
    exact Int.floor_mono h
  · rw [if_neg ha]
    by_cases hb : 0 ≤ b
    · rw [if_pos hb]
      have h1 : ⌈a⌉ ≤ 0 := by
        rw [Int.ceil_le]
        push_neg at ha
        exact_mod_cast ha.le
      have h2 : 0 ≤ ⌊b⌋ := Int.floor_nonneg.mpr hb
      exact le_trans h1 h2
    · rw [if_neg hb]
      exact Int.ceil_mono h

/-! ## ReadyToRun -/

/-- C1: for a thread that is in no ready list and whose priority `p` is in
`[0,150)`, `ReadyToRun` returns normally and puts the thread into exactly one
ready list, the other two being unchanged: at the end of L3 when `p < 50`, into
L2 when `50 ≤ p < 100`, into L1 when `100 ≤ p`. -/
theorem ReadyToRun_inserts_by_tier (s : Scheduler) (thread : ThreadPtr) (now : Int)
    (hfresh : thread ∉ s.ready)
    (h0 : 0 ≤ (s.threads thread).priority) (h150 : (s.threads thread).priority < 150) :
    ∃ s1, ReadyToRun s thread now = Except.ok s1 ∧
      ((s.threads thread).priority < 50 →
        s1.readyList_L3 = s.readyList_L3 ++ [thread] ∧
        s1.readyList_L2 = s.readyList_L2 ∧ s1.readyList_L1 = s.readyList_L1) ∧
      (50 ≤ (s.threads thread).priority → (s.threads thread).priority < 100 →
        InsertedOnce s.readyList_L2 thread s1.readyList_L2 ∧
        s1.readyList_L3 = s.readyList_L3 ∧ s1.readyList_L1 = s.readyList_L1) ∧
      (100 ≤ (s.threads thread).priority →
        InsertedOnce s.readyList_L1 thread s1.readyList_L1 ∧
        s1.readyList_L3 = s.readyList_L3 ∧ s1.readyList_L2 = s.readyList_L2) := by
  have hp := setWaiting_setStatus_priority s.threads thread thread ThreadStatus.READY now
  rw [ReadyToRun_of_fresh s thread now hfresh]
  simp only [hp]
  by_cases h50 : (s.threads thread).priority < 50
  · rw [if_pos ⟨h0, h50⟩]
    refine ⟨_, rfl, fun _ => ⟨rfl, rfl, rfl⟩, fun h => ?_, fun h => ?_⟩ <;> omega
  · rw [if_neg (fun h => h50 h.2)]
    by_cases h100 : (s.threads thread).priority < 100
    · rw [if_pos ⟨by omega, h100⟩]
      refine ⟨_, rfl, fun h => absurd h h50, fun _ _ => ⟨insertSorted_insertedOnce _ _ _, rfl, rfl⟩,
        fun h => ?_⟩
      omega
    · rw [if_neg (fun h => h100 h.2), if_pos ⟨by omega, h150⟩]
      exact ⟨_, rfl, fun h => absurd h h50, fun _ h => absurd h h100,
        fun _ => ⟨insertSorted_insertedOnce _ _ _, rfl, rfl⟩⟩

theorem ReadyToRun_inserts_by_tier_witness :
    ∃ s1, ReadyToRun demoInit 2 0 = Except.ok s1 ∧
      s1.readyList_L2 = [2] ∧ s1.readyList_L3 = [] ∧ s1.readyList_L1 = [] := by
  obtain ⟨s1, h, _, h2, _⟩ :=
    ReadyToRun_inserts_by_tier demoInit 2 0 (by decide) (by decide) (by decide)
  obtain ⟨⟨pre, post, hl, hl1⟩, h3, h1⟩ := h2 (by decide) (by decide)
  refine ⟨s1, h, ?_, h3, h1⟩
  have hnil : demoInit.readyList_L2 = [] := rfl
  rw [hnil] at hl
  have hpre : pre = [] := by
    cases pre with
    | nil => rfl
    | cons a l => simp at hl
  subst hpre
  have hpost : post = [] := by simpa using hl.symm
  subst hpost
  simpa using hl1

/-- C2 (as stated, refuted): thread `1` of `demoReadied` has priority 10, inside
`[0,150)`, and is in L3.  `ReadyToRun` of this thread stops the kernel on the
double insert assertion of the list, although the priority is in range. -/
theorem ReadyToRun_aborts_in_range :
    (demoReadied.threads 1).priority = 10 ∧ demoReadied.readyList_L3 = [1] ∧
    ∃ s1, ReadyToRun demoReadied 1 5 = Except.error s1 :=
  ⟨rfl, rfl, _, rfl⟩

/-- C2 (amended): `ReadyToRun` stops the kernel if and only if the priority of
the thread is outside `[0,150)` or the thread is already in the ready list that
its priority selects (double insert).  For a thread that is in no ready list it
stops if and only if the priority is outside `[0,150)`. -/
theorem ReadyToRun_aborts_iff (s : Scheduler) (thread : ThreadPtr) (now : Int) :
    ((∃ s1, ReadyToRun s thread now = Except.error s1) ↔
      (((s.threads thread).priority < 0 ∨ 150 ≤ (s.threads thread).priority) ∨
       (0 ≤ (s.threads thread).priority ∧ (s.threads thread).priority < 50 ∧
          thread ∈ s.readyList_L3) ∨
       (50 ≤ (s.threads thread).priority ∧ (s.threads thread).priority < 100 ∧
          thread ∈ s.readyList_L2) ∨
       (100 ≤ (s.threads thread).priority ∧ (s.threads thread).priority < 150 ∧
          thread ∈ s.readyList_L1))) ∧
    (thread ∉ s.ready →
      ((∃ s1, ReadyToRun s thread now = Except.error s1) ↔
        ((s.threads thread).priority < 0 ∨ 150 ≤ (s.threads thread).priority))) := by
  have hp := setWaiting_setStatus_priority s.threads thread thread ThreadStatus.READY now
  have key : (∃ s1, ReadyToRun s thread now = Except.error s1) ↔
      (((s.threads thread).priority < 0 ∨ 150 ≤ (s.threads thread).priority) ∨
       (0 ≤ (s.threads thread).priority ∧ (s.threads thread).priority < 50 ∧
          thread ∈ s.readyList_L3) ∨
       (50 ≤ (s.threads thread).priority ∧ (s.threads thread).priority < 100 ∧
          thread ∈ s.readyList_L2) ∨
       (100 ≤ (s.threads thread).priority ∧ (s.threads thread).priority < 150 ∧
          thread ∈ s.readyList_L1)) := by
    unfold ReadyToRun Append Insert
    simp only [hp]
    by_cases c3 : 0 ≤ (s.threads thread).priority ∧ (s.threads thread).priority < 50
    · simp only [if_pos c3]
      by_cases m : thread ∈ s.readyList_L3
      · simp only [if_pos m]
        exact ⟨fun _ => Or.inr (Or.inl ⟨c3.1, c3.2, m⟩), fun _ => ⟨_, rfl⟩⟩
      · simp only [if_neg m]
        constructor
        · rintro ⟨s1, h⟩
          cases h
        · rintro (h | ⟨_, _, h⟩ | ⟨h, _⟩ | ⟨h, _⟩)
          · omega
          · exact absurd h m
          · omega
          · omega
    · simp only [if_neg c3]
      by_cases c2 : 50 ≤ (s.threads thread).priority ∧ (s.threads thread).priority < 100
      · simp only [if_pos c2]
        by_cases m : thread ∈ s.readyList_L2
        · simp only [if_pos m]
          exact ⟨fun _ => Or.inr (Or.inr (Or.inl ⟨c2.1, c2.2, m⟩)), fun _ => ⟨_, rfl⟩⟩
        · simp only [if_neg m]
          constructor
          · rintro ⟨s1, h⟩
            cases h
          · rintro (h | ⟨_, h, _⟩ | ⟨_, _, h⟩ | ⟨h, _⟩)
            · omega
            · omega
            · exact absurd h m
            · omega
      · simp only [if_neg c2]
        by_cases c1 : 100 ≤ (s.threads thread).priority ∧ (s.threads thread).priority < 150
        · simp only [if_pos c1]
          by_cases m : thread ∈ s.readyList_L1
          · simp only [if_pos m]
            exact ⟨fun _ => Or.inr (Or.inr (Or.inr ⟨c1.1, c1.2, m⟩)), fun _ => ⟨_, rfl⟩⟩
          · simp only [if_neg m]
            constructor
            · rintro ⟨s1, h⟩
              cases h
            · rintro (h | ⟨_, h, _⟩ | ⟨_, h, _⟩ | ⟨_, _, h⟩)
              · omega
              · omega
              · omega
              · exact absurd h m
        · simp only [if_neg c1]
          exact ⟨fun _ => Or.inl (by omega), fun _ => ⟨_, rfl⟩⟩
  refine ⟨key, fun hfresh => key.trans ⟨?_, Or.inl⟩⟩
  unfold Scheduler.ready at hfresh
  simp only [List.mem_append, not_or] at hfresh
  rintro (h | ⟨_, _, h⟩ | ⟨_, _, h⟩ | ⟨_, _, h⟩)
  · exact h
  · exact absurd h hfresh.2
  · exact absurd h hfresh.1.2
  · exact absurd h hfresh.1.1

theorem ReadyToRun_aborts_iff_witness :
    (∃ s1, ReadyToRun demoReadied 2 9 = Except.error s1) ∧
    ¬ (∃ s1, ReadyToRun demoInit 2 9 = Except.error s1) ∧
    (∃ s1, ReadyToRun demoInit 4 9 = Except.error s1) :=
  ⟨(ReadyToRun_aborts_iff demoReadied 2 9).1.mpr
      (Or.inr (Or.inr (Or.inl ⟨by decide, by decide, by decide⟩))),
    fun h => absurd (((ReadyToRun_aborts_iff demoInit 2 9).2 (by decide)).mp h) (by decide),
    ((ReadyToRun_aborts_iff demoInit 4 9).2 (by decide)).mpr (Or.inr (by decide))⟩


/-- C3 (as stated, refuted): thread `4` of `demoThreads` has priority 150,
status `BLOCKED` and waiting tick 0.  `ReadyToRun` at tick 7 aborts, and at the
abort the status of the thread is `READY` and its waiting tick is 7: both were
written before the priority was checked. -/
theorem ReadyToRun_abort_mutates_thread :
    (demoInit.threads 4).status = ThreadStatus.BLOCKED ∧ (demoInit.threads 4).waiting = 0 ∧
    ∃ s1, ReadyToRun demoInit 4 7 = Except.error s1 ∧
      (s1.threads 4).status = ThreadStatus.READY ∧ (s1.threads 4).waiting = 7 :=
  ⟨rfl, rfl, _, rfl, rfl, rfl⟩

/-- C3 (amended): when the priority of the thread is outside `[0,150)`,
`ReadyToRun` aborts with the three ready lists, the current layer, the start
tick, the current thread, the pending reclaim and every other thread object
unchanged; the thread itself keeps its priority and remaining burst time, its
status has been set to `READY` and its waiting tick to `now`. -/
theorem ReadyToRun_abort_frame (s : Scheduler) (thread : ThreadPtr) (now : Int)
    (h : (s.threads thread).priority < 0 ∨ 150 ≤ (s.threads thread).priority) :
    ∃ s1, ReadyToRun s thread now = Except.error s1 ∧
      s1.readyList_L1 = s.readyList_L1 ∧ s1.readyList_L2 = s.readyList_L2 ∧
      s1.readyList_L3 = s.readyList_L3 ∧ s1.currentLayer = s.currentLayer ∧
      s1.threadStartTick = s.threadStartTick ∧ s1.currentThread = s.currentThread ∧
      s1.toBeDestroyed = s.toBeDestroyed ∧
      (∀ u, u ≠ thread → s1.threads u = s.threads u) ∧
      (s1.threads thread).priority = (s.threads thread).priority ∧
      (s1.threads thread).remainingBurstTime = (s.threads thread).remainingBurstTime ∧
      (s1.threads thread).status = ThreadStatus.READY ∧
      (s1.threads thread).waiting = now := by
  have hp := setWaiting_setStatus_priority s.threads thread thread ThreadStatus.READY now
  unfold ReadyToRun
  simp only [hp]
  rw [if_neg (by omega), if_neg (by omega), if_neg (by omega)]
  refine ⟨_, rfl, rfl, rfl, rfl, rfl, rfl, rfl, rfl, ?_, ?_, ?_, ?_, ?_⟩
  · intro u hu
    simp [setWaiting, setStatus, Function.update_noteq hu]
  · simp [setWaiting, setStatus]
  · simp [setWaiting, setStatus]
  · simp [setWaiting, setStatus]
  · simp [setWaiting, setStatus]

theorem ReadyToRun_abort_frame_witness :
    ∃ s1, ReadyToRun demoInit 4 7 = Except.error s1 ∧
      s1.readyList_L1 = [] ∧ s1.readyList_L2 = [] ∧ s1.readyList_L3 = [] ∧
      (s1.threads 4).priority = 150 := by
  obtain ⟨s1, h, h1, h2, h3, _, _, _, _, _, hp, _⟩ :=
    ReadyToRun_abort_frame demoInit 4 7 (Or.inr (by decide))
  exact ⟨s1, h, h1, h2, h3, hp⟩

/-! ## FindNextToRun -/

/-- C4: `FindNextToRun` follows strict precedence.  When L1 is not empty it
returns the head of L1, takes it off L1 and sets the current layer to 1; when
L1 is empty and L2 is not, the same with L2 and layer 2; when L1 and L2 are
empty and L3 is not, the same with L3 and layer 3.  Nothing else changes. -/
theorem FindNextToRun_precedence (s : Scheduler) (t : ThreadPtr) (rest : List ThreadPtr) :
    (s.readyList_L1 = t :: rest →
      FindNextToRun s = (some t, { s with currentLayer := 1, readyList_L1 := rest })) ∧
    (s.readyList_L1 = [] → s.readyList_L2 = t :: rest →
      FindNextToRun s = (some t, { s with currentLayer := 2, readyList_L2 := rest })) ∧
    (s.readyList_L1 = [] → s.readyList_L2 = [] → s.readyList_L3 = t :: rest →
      FindNextToRun s = (some t, { s with currentLayer := 3, readyList_L3 := rest })) := by
  refine ⟨fun h1 => ?_, fun h1 h2 => ?_, fun h1 h2 h3 => ?_⟩
  · simp [FindNextToRun, h1]
  · simp [FindNextToRun, h1, h2]
  · simp [FindNextToRun, h1, h2, h3]

/-- C4, the scenario: A(priority 10), B(60) and C(120) readied into the empty
scheduler are dispatched in the order C, B, A. -/
theorem FindNextToRun_precedence_witness :
    ReadyToRun demoInit 1 0 = Except.ok (stateOf (ReadyToRun demoInit 1 0)) ∧
    ReadyToRun (stateOf (ReadyToRun demoInit 1 0)) 2 0 =
      Except.ok (stateOf (ReadyToRun (stateOf (ReadyToRun demoInit 1 0)) 2 0)) ∧
    ReadyToRun (stateOf (ReadyToRun (stateOf (ReadyToRun demoInit 1 0)) 2 0)) 3 0 =
      Except.ok demoReadied ∧
    (FindNextToRun demoReadied).1 = some 3 ∧
    (FindNextToRun (FindNextToRun demoReadied).2).1 = some 2 ∧
    (FindNextToRun (FindNextToRun (FindNextToRun demoReadied).2).2).1 = some 1 ∧
    (FindNextToRun (FindNextToRun (FindNextToRun (FindNextToRun demoReadied).2).2).2).1
      = none := by
  have e1 := (FindNextToRun_precedence demoReadied 3 []).1 rfl
  have e2 := (FindNextToRun_precedence (FindNextToRun demoReadied).2 2 []).2.1 rfl rfl
  have e3 := (FindNextToRun_precedence (FindNextToRun (FindNextToRun demoReadied).2).2 1 []).2.2
    rfl rfl rfl
  refine ⟨rfl, rfl, rfl, by rw [e1], by rw [e2], by rw [e3], rfl⟩

/-- C5: `FindNextToRun` returns `none` if and only if the three ready lists
are empty; in that case it returns normally and leaves the state as it was. -/
theorem FindNextToRun_none_iff (s : Scheduler) :
    ((FindNextToRun s).1 = none ↔
      (s.readyList_L1 = [] ∧ s.readyList_L2 = [] ∧ s.readyList_L3 = [])) ∧
    ((FindNextToRun s).1 = none → FindNextToRun s = (none, s)) := by
  unfold FindNextToRun
  cases h1 : s.readyList_L1 with
  | cons a l => simp
  | nil =>
    cases h2 : s.readyList_L2 with
    | cons a l => simp
    | nil =>
      cases h3 : s.readyList_L3 with
      | cons a l => simp
      | nil => simp

/-! ## ToYield -/

/-- C7: when the current layer is 3 and at least 100 ticks have passed since
the dispatch, `ToYield` returns true, whatever the ready lists hold. -/
theorem ToYield_quantum_expired (s : Scheduler) (now : Int)
    (hl : s.currentLayer = 3) (he : 100 ≤ now - s.threadStartTick) :
    ToYield s now = true := by
  unfold ToYield
  simp only [RunTime]
  rw [if_pos ⟨hl, he⟩]

theorem ToYield_quantum_expired_witness :
    (idleState 3).readyList_L1 = [] ∧ (idleState 3).readyList_L2 = [] ∧
    (idleState 3).readyList_L3 = [] ∧ ToYield (idleState 3) 100 = true :=
  ⟨rfl, rfl, rfl, ToYield_quantum_expired (idleState 3) 100 rfl (by decide)⟩

/-- C8: `ToYield` returns true whenever a strictly higher layer has a ready
thread: current layer 3 with L1 or L2 not empty, or current layer 2 with L1 not
empty, for every tick. -/
theorem ToYield_higher_layer_ready (s : Scheduler) (now : Int)
    (h : (s.currentLayer = 3 ∧ (s.readyList_L1 ≠ [] ∨ s.readyList_L2 ≠ [])) ∨
      (s.currentLayer = 2 ∧ s.readyList_L1 ≠ [])) :
    ToYield s now = true := by
  unfold ToYield
  rcases h with ⟨hl, hq⟩ | ⟨hl, hq⟩
  · by_cases he : s.currentLayer = 3 ∧ RunTime s now ≥ 100
    · simp only [if_pos he]
    · simp only [if_neg he]
      rw [if_pos]
      refine ⟨hl, ?_⟩
      rintro ⟨h1, h2⟩
      rcases hq with hq | hq
      · exact hq h1
      · exact hq h2
  · rw [if_neg (by rw [hl]; simp), if_neg (by rw [hl]; simp), if_pos ⟨hl, hq⟩]

theorem ToYield_higher_layer_ready_witness :
    ToYield (yieldState 3 4 2) 1 = true ∧ ToYield (yieldState 2 4 2) 1 = true :=
  ⟨ToYield_higher_layer_ready (yieldState 3 4 2) 1
      (Or.inl ⟨rfl, Or.inl (List.cons_ne_nil 1 [])⟩),
   ToYield_higher_layer_ready (yieldState 2 4 2) 1
      (Or.inr ⟨rfl, List.cons_ne_nil 1 []⟩)⟩

/-- C9 (the code at the failing input): the running thread has remaining burst
3.5 and has run 1 tick, the head of L1 has remaining burst 2.25.  The head has
strictly less remaining time (2.25 < 2.5), yet `ToYield` returns false: both
values are truncated to 2 before the comparison.  On the whole numbers of the
scenario of the claim (4, 1 and 2) the answer is true. -/
theorem ToYield_compares_truncated :
    (yieldState 1 (7/2) (9/4)).currentLayer = 1 ∧
    ((yieldState 1 (7/2) (9/4)).threads 1).remainingBurstTime <
      ((yieldState 1 (7/2) (9/4)).threads 0).remainingBurstTime -
        ((1 - (yieldState 1 (7/2) (9/4)).threadStartTick : Int) : ℚ) ∧
    ToYield (yieldState 1 (7/2) (9/4)) 1 = false ∧
    ToYield (yieldState 1 4 2) 1 = true := by
  refine ⟨rfl, ?_, ?_, ?_⟩
  · decide!
  · decide!
  · decide!

/-- C10: `ToYield` returns false in each of the four states without a reason
to preempt: layer 3 with less than 100 ticks run and L1 and L2 empty; layer 2
with L1 empty; layer 1 with L1 empty; layer 1 with the remaining burst of the
head of L1 at least the remaining burst of the running thread minus the ticks
run. -/
theorem ToYield_false (s : Scheduler) (now : Int)
    (h : (s.currentLayer = 3 ∧ now - s.threadStartTick < 100 ∧
          s.readyList_L1 = [] ∧ s.readyList_L2 = []) ∨
      (s.currentLayer = 2 ∧ s.readyList_L1 = []) ∨
      (s.currentLayer = 1 ∧ s.readyList_L1 = []) ∨
      (s.currentLayer = 1 ∧ ∃ front rest, s.readyList_L1 = front :: rest ∧
          (s.threads front).remainingBurstTime ≥
            (s.threads s.currentThread).remainingBurstTime -
              ((now - s.threadStartTick : Int) : ℚ))) :
    ToYield s now = false := by
  unfold ToYield
  simp only [RunTime]
  rcases h with ⟨hl, he, h1, h2⟩ | ⟨hl, h1⟩ | ⟨hl, h1⟩ | ⟨hl, front, rest, h1, hge⟩
  · rw [if_neg (by omega), if_neg (by simp [h1, h2]), if_neg (by omega), if_neg (by omega)]
  · rw [if_neg (by omega), if_neg (by omega), if_neg (by simp [h1]), if_neg (by omega)]
  · rw [if_neg (by omega), if_neg (by omega), if_neg (by omega), if_neg (by simp [h1])]
  · rw [if_neg (by omega), if_neg (by omega), if_neg (by omega), if_neg]
    rintro ⟨_, _, hlt⟩
    rw [h1] at hlt
    have := truncToInt_mono hge
    simp only at hlt
    omega

theorem ToYield_false_witness :
    ToYield (idleState 3) 99 = false ∧ ToYield (idleState 2) 500 = false ∧
    ToYield (idleState 1) 500 = false ∧ ToYield (yieldState 1 4 3) 1 = false :=
  ⟨ToYield_false (idleState 3) 99 (Or.inl ⟨rfl, by decide, rfl, rfl⟩),
   ToYield_false (idleState 2) 500 (Or.inr (Or.inl ⟨rfl, rfl⟩)),
   ToYield_false (idleState 1) 500 (Or.inr (Or.inr (Or.inl ⟨rfl, rfl⟩))),
   ToYield_false (yieldState 1 4 3) 1
     (Or.inr (Or.inr (Or.inr ⟨rfl, 1, [], rfl, by decide!⟩)))⟩


/-! ## The heap after the update loops -/

theorem updateAll_not_mem (up : Thread → Int → Thread) (time : Int) (l : List ThreadPtr)
    (th : ThreadPtr → Thread) (u : ThreadPtr) (hu : u ∉ l) :
    updateAll up time l th u = th u := by
  induction l generalizing th with
  | nil => rfl
  | cons t rest ih =>
    simp only [List.mem_cons, not_or] at hu
    rw [updateAll, ih _ hu.2, Function.update_noteq hu.1]

theorem updateAll_mem (up : Thread → Int → Thread) (time : Int) (l : List ThreadPtr)
    (th : ThreadPtr → Thread) (u : ThreadPtr) (hn : l.Nodup) (hu : u ∈ l) :
    updateAll up time l th u = up (th u) time := by
  induction l generalizing th with
  | nil => simp at hu
  | cons t rest ih =>
    rw [List.nodup_cons] at hn
    rw [updateAll]
    rcases List.mem_cons.mp hu with h | h
    · subst h
      rw [updateAll_not_mem _ _ _ _ _ hn.1, Function.update_same]
    · have hne : u ≠ t := fun e => hn.1 (e ▸ h)
      rw [ih _ hn.2 h, Function.update_noteq hne]

theorem scanL2_eq (up : Thread → Int → Thread) (time : Int) (l : List ThreadPtr)
    (th : ThreadPtr → Thread) (a b : List ThreadPtr) (hn : l.Nodup)
    (ha : ∀ t ∈ l, t ∉ a) (hb : ∀ t ∈ l, t ∉ b) :
    scanL2 up time l (th, a, b) =
      some (updateAll up time l th,
       a ++ l.filter (fun t => decide ((up (th t) time).priority ≥ 100 ∧
          (th t).priority ≠ (up (th t) time).priority)),
       b ++ l.filter (fun t => decide (¬ (up (th t) time).priority ≥ 100 ∧
          (th t).priority ≠ (up (th t) time).priority))) := by
  induction l generalizing th a b with
  | nil => simp [scanL2, updateAll]
  | cons t rest ih =>
    rw [List.nodup_cons] at hn
    have hta : t ∉ a := ha t (List.mem_cons_self _ _)
    have htb : t ∉ b := hb t (List.mem_cons_self _ _)
    have hra : ∀ u ∈ rest, u ∉ a := fun u hu => ha u (List.mem_cons_of_mem _ hu)
    have hrb : ∀ u ∈ rest, u ∉ b := fun u hu => hb u (List.mem_cons_of_mem _ hu)
    have hra1 : ∀ u ∈ rest, u ∉ a ++ [t] := fun u hu hm => by
      rcases List.mem_append.mp hm with h | h
      · exact hra u hu h
      · exact hn.1 (List.mem_singleton.mp h ▸ hu)
    have hrb1 : ∀ u ∈ rest, u ∉ b ++ [t] := fun u hu hm => by
      rcases List.mem_append.mp hm with h | h
      · exact hrb u hu h
      · exact hn.1 (List.mem_singleton.mp h ▸ hu)
    have hc : ∀ (q : Thread → Bool), rest.filter (fun u => q (Function.update th t (up (th t) time) u))
        = rest.filter (fun u => q (th u)) := by
      intro q
      apply List.filter_congr
      intro u hu
      have hne : u ≠ t := fun e => hn.1 (e ▸ hu)
      rw [Function.update_noteq hne]
    have hc1 := hc (fun x => decide ((up x time).priority ≥ 100 ∧ x.priority ≠ (up x time).priority))
    have hc2 := hc (fun x => decide (¬ (up x time).priority ≥ 100 ∧ x.priority ≠ (up x time).priority))
    simp only at hc1 hc2
    simp only [scanL2, updateAll, Function.update_same, Append, if_neg hta, if_neg htb]
    by_cases h1 : (th t).priority ≠ (up (th t) time).priority
    · rw [if_pos h1]
      by_cases h2 : (up (th t) time).priority ≥ 100
      · rw [if_pos h2, ih _ _ _ hn.2 hra1 hrb, hc1, hc2]
        simp [List.filter_cons, h1, h2]
      · rw [if_neg h2, ih _ _ _ hn.2 hra hrb1, hc1, hc2]
        simp [List.filter_cons, h1, h2, not_le.mp h2]
    · rw [if_neg h1, ih _ _ _ hn.2 hra hrb, hc1, hc2]
      simp [List.filter_cons, h1]

theorem scanL3_eq (up : Thread → Int → Thread) (time : Int) (l : List ThreadPtr)
    (th : ThreadPtr → Thread) (a : List ThreadPtr) (hn : l.Nodup) (ha : ∀ t ∈ l, t ∉ a) :
    scanL3 up time l (th, a) =
      some (updateAll up time l th,
       a ++ l.filter (fun t => decide ((up (th t) time).priority ≥ 50))) := by
  induction l generalizing th a with
  | nil => simp [scanL3, updateAll]
  | cons t rest ih =>
    rw [List.nodup_cons] at hn
    have hta : t ∉ a := ha t (List.mem_cons_self _ _)
    have hra : ∀ u ∈ rest, u ∉ a := fun u hu => ha u (List.mem_cons_of_mem _ hu)
    have hra1 : ∀ u ∈ rest, u ∉ a ++ [t] := fun u hu hm => by
      rcases List.mem_append.mp hm with h | h
      · exact hra u hu h
      · exact hn.1 (List.mem_singleton.mp h ▸ hu)
    have hc : rest.filter (fun u => decide ((up (Function.update th t (up (th t) time) u) time).priority ≥ 50))
        = rest.filter (fun u => decide ((up (th u) time).priority ≥ 50)) := by
      apply List.filter_congr
      intro u hu
      have hne : u ≠ t := fun e => hn.1 (e ▸ hu)
      rw [Function.update_noteq hne]
    simp only [scanL3, updateAll, Function.update_same, Append, if_neg hta]
    by_cases h2 : (up (th t) time).priority ≥ 50
    · rw [if_pos h2, ih _ _ hn.2 hra1, hc]
      simp [List.filter_cons, h2]
    · rw [if_neg h2, ih _ _ hn.2 hra, hc]
      simp [List.filter_cons, h2, not_le.mp h2]


/-! ## Sorted insertion and the loops that move threads -/

theorem insertSorted_perm (cmp : ThreadPtr → ThreadPtr → Int) (t : ThreadPtr) (l : List ThreadPtr) :
    (insertSorted cmp t l).Perm (t :: l) := by
  induction l with
  | nil => exact List.Perm.refl _
  | cons x xs ih =>
    unfold insertSorted
    split
    · exact List.Perm.refl _
    · exact (List.Perm.cons x ih).trans (List.Perm.swap t x xs)

theorem mem_insertSorted (cmp : ThreadPtr → ThreadPtr → Int) (t u : ThreadPtr) (l : List ThreadPtr) :
    u ∈ insertSorted cmp t l ↔ u = t ∨ u ∈ l := by
  rw [(insertSorted_perm cmp t l).mem_iff, List.mem_cons]

/-- Insertion into a list in which the elements satisfying `P` are in their
place: afterwards the new element is in its place too. -/
theorem insertSorted_pairwise {α : Type} [LinearOrder α] (cmp : ThreadPtr → ThreadPtr → Int)
    (key : ThreadPtr → α) (hcmp : ∀ x y, cmp x y < 0 ↔ key x < key y)
    (P : ThreadPtr → Prop) (t : ThreadPtr) (l : List ThreadPtr) (ht : t ∉ l)
    (h : l.Pairwise (fun a b => P b → key a ≤ key b)) :
    (insertSorted cmp t l).Pairwise (fun a b => (P b ∨ b = t) → key a ≤ key b) := by
  induction l with
  | nil => simp [insertSorted]
  | cons x xs ih =>
    simp only [List.mem_cons, not_or] at ht
    rw [List.pairwise_cons] at h
    have hold : (x :: xs).Pairwise (fun a b => (P b ∨ b = t) → key a ≤ key b) := by
      rw [List.pairwise_cons]
      refine ⟨fun b hb hPb => ?_, ?_⟩
      · rcases hPb with hPb | hbt
        · exact h.1 b hb hPb
        · exact absurd (hbt ▸ hb) ht.2
      · refine h.2.imp_of_mem ?_
        intro a b _ hb hab hPb
        rcases hPb with hPb | hbt
        · exact hab hPb
        · exact absurd (hbt ▸ hb) ht.2
    unfold insertSorted
    by_cases hlt : cmp t x < 0
    · rw [if_pos hlt]
      have hkx : key t < key x := (hcmp t x).mp hlt
      rw [List.pairwise_cons]
      refine ⟨fun b hb hPb => ?_, hold⟩
      rcases List.mem_cons.mp hb with hbx | hbxs
      · rw [hbx]; exact hkx.le
      · rcases hPb with hPb | hbt
        · exact hkx.le.trans (h.1 b hbxs hPb)
        · exact absurd (hbt ▸ hbxs) ht.2
    · rw [if_neg hlt]
      have hkx : key x ≤ key t := not_lt.mp (fun hk => hlt ((hcmp t x).mpr hk))
      rw [List.pairwise_cons]
      refine ⟨fun b hb hPb => ?_, ih ht.2 h.2⟩
      rcases (mem_insertSorted cmp t b xs).mp hb with hbt | hbxs
      · rw [hbt]; exact hkx
      · rcases hPb with hPb | hbt
        · exact h.1 b hbxs hPb
        · rw [hbt]; exact hkx

theorem insertSorted_sorted {α : Type} [LinearOrder α] (cmp : ThreadPtr → ThreadPtr → Int)
    (key : ThreadPtr → α) (hcmp : ∀ x y, cmp x y < 0 ↔ key x < key y)
    (t : ThreadPtr) (l : List ThreadPtr) (ht : t ∉ l)
    (h : l.Pairwise (fun a b => key a ≤ key b)) :
    (insertSorted cmp t l).Pairwise (fun a b => key a ≤ key b) := by
  have h1 : l.Pairwise (fun a b => True → key a ≤ key b) := h.imp (fun hab _ => hab)
  exact (insertSorted_pairwise cmp key hcmp (fun _ => True) t l ht h1).imp
    (fun hab => hab (Or.inl trivial))

theorem compare_L1_neg (th : ThreadPtr → Thread) (x y : ThreadPtr) :
    compare_L1 th x y < 0 ↔ (th x).remainingBurstTime < (th y).remainingBurstTime := by
  unfold compare_L1
  simp only
  split_ifs with h1 h2
  · constructor
    · intro h; omega
    · intro h; exact absurd h (not_lt.mpr (le_of_lt h1))
  · constructor
    · intro h; omega
    · intro h; rw [h2] at h; exact absurd h (lt_irrefl _)
  · constructor
    · intro _; exact lt_of_le_of_ne (not_lt.mp h1) h2
    · intro _; omega

theorem compare_L2_neg (th : ThreadPtr → Thread) (x y : ThreadPtr) :
    compare_L2 th x y < 0 ↔ -(th x).priority < -(th y).priority := by
  unfold compare_L2
  simp only
  split_ifs with h1 h2 <;> constructor <;> intro h <;> omega

theorem moveAll_spec {α : Type} [LinearOrder α] (cmp : ThreadPtr → ThreadPtr → Int)
    (key : ThreadPtr → α) (hcmp : ∀ x y, cmp x y < 0 ↔ key x < key y)
    (moved src dst : List ThreadPtr) (hsrc : src.Nodup) (hm : moved.Nodup)
    (hsub : ∀ t ∈ moved, t ∈ src) (hdisj : ∀ t ∈ moved, t ∉ dst)
    (hsorted : dst.Pairwise (fun a b => key a ≤ key b)) :
    ∃ dst1, moveAll cmp moved (src, dst) =
        some (src.filter (fun x => decide (x ∉ moved)), dst1) ∧
      dst1.Perm (moved ++ dst) ∧ dst1.Pairwise (fun a b => key a ≤ key b) := by
  induction moved generalizing src dst with
  | nil => exact ⟨dst, by simp [moveAll], List.Perm.refl _, hsorted⟩
  | cons t rest ih =>
    rw [List.nodup_cons] at hm
    have htsrc : t ∈ src := hsub t (List.mem_cons_self _ _)
    have htdst : t ∉ dst := hdisj t (List.mem_cons_self _ _)
    obtain ⟨dst1, h1, h2, h3⟩ := ih (src.erase t) (insertSorted cmp t dst) (hsrc.erase t) hm.2
      (fun u hu => (List.mem_erase_of_ne (fun (e : u = t) => hm.1 (e ▸ hu))).mpr
        (hsub u (List.mem_cons_of_mem _ hu)))
      (fun u hu hmem => by
        rcases (mem_insertSorted cmp t u dst).mp hmem with e | e
        · exact hm.1 (e ▸ hu)
        · exact hdisj u (List.mem_cons_of_mem _ hu) e)
      (insertSorted_sorted cmp key hcmp t dst htdst hsorted)
    refine ⟨dst1, ?_, ?_, h3⟩
    · simp only [moveAll, Remove, if_pos htsrc, Insert, if_neg htdst, h1]
      rw [hsrc.erase_eq_filter, List.filter_filter]
      congr 2
      apply List.filter_congr
      intro x _
      by_cases hxt : x = t <;> by_cases hxr : x ∈ rest <;> simp [hxt, hxr]
    · refine h2.trans ?_
      refine ((insertSorted_perm cmp t dst).append_left rest).trans ?_
      exact List.perm_middle

theorem reinsertAll_spec {α : Type} [LinearOrder α] (cmp : ThreadPtr → ThreadPtr → Int)
    (key : ThreadPtr → α) (hcmp : ∀ x y, cmp x y < 0 ↔ key x < key y)
    (upg l : List ThreadPtr) (hl : l.Nodup) (hu : upg.Nodup)
    (hsub : ∀ t ∈ upg, t ∈ l)
    (h : l.Pairwise (fun a b => b ∉ upg → key a ≤ key b)) :
    ∃ l1, reinsertAll cmp upg l = some l1 ∧ l1.Perm l ∧
      l1.Pairwise (fun a b => key a ≤ key b) := by
  induction upg generalizing l with
  | nil =>
    exact ⟨l, by simp [reinsertAll], List.Perm.refl _, h.imp (fun hab => hab (List.not_mem_nil _))⟩
  | cons t rest ih =>
    rw [List.nodup_cons] at hu
    have htl : t ∈ l := hsub t (List.mem_cons_self _ _)
    have hperm : (insertSorted cmp t (l.erase t)).Perm l :=
      (insertSorted_perm cmp t (l.erase t)).trans (List.perm_cons_erase htl).symm
    have hte : t ∉ l.erase t := fun hmem => (hl.mem_erase_iff.mp hmem).1 rfl
    have hpw := insertSorted_pairwise cmp key hcmp (fun b => b ∉ t :: rest) t (l.erase t) hte
      (h.sublist (List.erase_sublist t l))
    obtain ⟨l1, h1, h2, h3⟩ := ih (insertSorted cmp t (l.erase t)) (hperm.nodup_iff.mpr hl) hu.2
      (fun u hu1 => hperm.mem_iff.mpr (hsub u (List.mem_cons_of_mem _ hu1)))
      (hpw.imp (fun {a b} hab hb => by
        by_cases hbt : b = t
        · exact hab (Or.inr hbt)
        · exact hab (Or.inl (by simp [List.mem_cons, hbt, hb]))))
    exact ⟨l1, by simp only [reinsertAll, Remove, if_pos htl, Insert, if_neg hte, h1],
      h2.trans hperm, h3⟩


/-! ## UpdateQueues keeps the ready lists in order -/

theorem filter_split_perm (l : List ThreadPtr) (p : ThreadPtr → Bool) :
    (l.filter p ++ l.filter (fun x => decide (x ∉ l.filter p))).Perm l := by
  have h : l.filter (fun x => decide (x ∉ l.filter p)) = l.filter (fun x => !p x) := by
    apply List.filter_congr
    intro x hx
    simp [List.mem_filter, hx]
  rw [h]
  exact List.filter_append_perm p l

theorem UpdateQueues_invariant (up : Thread → Int → Thread) (hup : AgingContract up)
    (s : Scheduler) (enq : ThreadPtr → Nat) (n : Nat) (time : Int)
    (hinv : QueueInvariant s enq n) :
    ∃ s1, UpdateQueues up s time = some s1 ∧ QueueInvariant s1 enq n := by
  obtain ⟨hnd, ht1, ht2, ht3, hs1, hs2, hf3, hst⟩ := hinv
  unfold Scheduler.ready at hnd hst
  -- the lists are duplicate free and pairwise disjoint
  have hnd12 : (s.readyList_L1 ++ s.readyList_L2).Nodup := (List.nodup_append.mp hnd).1
  have hn1 : s.readyList_L1.Nodup := (List.nodup_append.mp hnd12).1
  have hn2 : s.readyList_L2.Nodup := (List.nodup_append.mp hnd12).2.1
  have hn3 : s.readyList_L3.Nodup := (List.nodup_append.mp hnd).2.1
  have hd12 : ∀ u, u ∈ s.readyList_L1 → u ∉ s.readyList_L2 :=
    fun u h1 h2 => (List.nodup_append.mp hnd12).2.2 h1 h2
  have hd3 : ∀ u, u ∈ s.readyList_L3 → u ∉ s.readyList_L1 ∧ u ∉ s.readyList_L2 :=
    fun u h3 => ⟨fun h1 => (List.nodup_append.mp hnd).2.2 (List.mem_append_left _ h1) h3,
      fun h2 => (List.nodup_append.mp hnd).2.2 (List.mem_append_right _ h2) h3⟩
  -- the heaps after the three update loops
  have hT1 : ∀ u ∈ s.readyList_L1,
      updateAll up time s.readyList_L1 s.threads u = up (s.threads u) time :=
    fun u hu => updateAll_mem up time _ _ u hn1 hu
  have hT1' : ∀ u, u ∉ s.readyList_L1 →
      updateAll up time s.readyList_L1 s.threads u = s.threads u :=
    fun u hu => updateAll_not_mem up time _ _ u hu
  generalize hT1def : updateAll up time s.readyList_L1 s.threads = T1 at hT1 hT1'
  have hT2 : ∀ u ∈ s.readyList_L2, updateAll up time s.readyList_L2 T1 u = up (T1 u) time :=
    fun u hu => updateAll_mem up time _ _ u hn2 hu
  have hT2' : ∀ u, u ∉ s.readyList_L2 → updateAll up time s.readyList_L2 T1 u = T1 u :=
    fun u hu => updateAll_not_mem up time _ _ u hu
  generalize hT2def : updateAll up time s.readyList_L2 T1 = T2 at hT2 hT2'
  have hT3 : ∀ u ∈ s.readyList_L3, updateAll up time s.readyList_L3 T2 u = up (T2 u) time :=
    fun u hu => updateAll_mem up time _ _ u hn3 hu
  have hT3' : ∀ u, u ∉ s.readyList_L3 → updateAll up time s.readyList_L3 T2 u = T2 u :=
    fun u hu => updateAll_not_mem up time _ _ u hu
  generalize hT3def : updateAll up time s.readyList_L3 T2 = T3 at hT3 hT3'
  -- the thread objects, list by list
  have e1 : ∀ u ∈ s.readyList_L1, T2 u = up (s.threads u) time ∧ T3 u = up (s.threads u) time := by
    intro u hu
    have h2 : T2 u = up (s.threads u) time := by rw [hT2' u (hd12 u hu), hT1 u hu]
    exact ⟨h2, by rw [hT3' u (fun h3 => (hd3 u h3).1 hu), h2]⟩
  have e2 : ∀ u ∈ s.readyList_L2,
      T1 u = s.threads u ∧ T2 u = up (s.threads u) time ∧ T3 u = up (s.threads u) time := by
    intro u hu
    have h1 : T1 u = s.threads u := hT1' u (fun h1 => hd12 u h1 hu)
    have h2 : T2 u = up (s.threads u) time := by rw [hT2 u hu, h1]
    exact ⟨h1, h2, by rw [hT3' u (fun h3 => (hd3 u h3).2 hu), h2]⟩
  have e3 : ∀ u ∈ s.readyList_L3, T2 u = s.threads u ∧ T3 u = up (s.threads u) time := by
    intro u hu
    have h2 : T2 u = s.threads u := by rw [hT2' u (hd3 u hu).2, hT1' u (hd3 u hu).1]
    exact ⟨h2, by rw [hT3 u hu, h2]⟩
  -- the aging contract on the queued threads
  have c1 : ∀ u ∈ s.readyList_L1, _ := fun u hu =>
    hup (s.threads u) time (by have := ht1 u hu; omega) (ht1 u hu).2
  have c2 : ∀ u ∈ s.readyList_L2, _ := fun u hu =>
    hup (s.threads u) time (by have := ht2 u hu; omega) (by have := ht2 u hu; omega)
  have c3 : ∀ u ∈ s.readyList_L3, _ := fun u hu =>
    hup (s.threads u) time (ht3 u hu).1 (by have := ht3 u hu; omega)
  -- the L2 loop
  unfold UpdateQueues
  simp only [hT1def]
  rw [scanL2_eq up time s.readyList_L2 T1 [] [] hn2 (fun _ _ => List.not_mem_nil _)
    (fun _ _ => List.not_mem_nil _)]
  simp only [hT2def, List.nil_append]
  generalize hu2 : s.readyList_L2.filter (fun t => decide ((up (T1 t) time).priority ≥ 100 ∧
          (T1 t).priority ≠ (up (T1 t) time).priority)) = u2
  generalize hg2 : s.readyList_L2.filter (fun t => decide (¬ (up (T1 t) time).priority ≥ 100 ∧
          (T1 t).priority ≠ (up (T1 t) time).priority)) = g2
  have mu2 : ∀ t, t ∈ u2 ↔ t ∈ s.readyList_L2 ∧ 100 ≤ (T2 t).priority := by
    intro t
    rw [← hu2, List.mem_filter]
    constructor
    · rintro ⟨hm, hp⟩
      have := (e2 t hm)
      rw [this.1] at hp
      rw [this.2.1]
      simp only [decide_eq_true_eq] at hp
      exact ⟨hm, hp.1⟩
    · rintro ⟨hm, hp⟩
      have := (e2 t hm)
      rw [this.2.1] at hp
      rw [this.1]
      simp only [decide_eq_true_eq]
      have := ht2 t hm
      exact ⟨hm, hp, by omega⟩
  have mg2 : ∀ t, t ∈ g2 ↔ t ∈ s.readyList_L2 ∧ (T2 t).priority < 100 ∧
      (s.threads t).priority ≠ (T2 t).priority := by
    intro t
    rw [← hg2, List.mem_filter]
    constructor
    · rintro ⟨hm, hp⟩
      have := (e2 t hm)
      rw [this.1] at hp
      rw [this.2.1]
      simp only [decide_eq_true_eq] at hp
      exact ⟨hm, by omega, hp.2⟩
    · rintro ⟨hm, hp, hne⟩
      have := (e2 t hm)
      rw [this.2.1] at hp hne
      rw [this.1]
      simp only [decide_eq_true_eq]
      exact ⟨hm, by omega, hne⟩
  have nu2 : u2.Nodup := by rw [← hu2]; exact hn2.filter _
  have ng2 : g2.Nodup := by rw [← hg2]; exact hn2.filter _
  -- the threads that go up to L1
  obtain ⟨l1a, hmove1, hperm1, hsort1⟩ := moveAll_spec (compare_L1 T2)
    (fun t => (T2 t).remainingBurstTime) (compare_L1_neg T2) u2 s.readyList_L2 s.readyList_L1
    hn2 nu2 (fun t ht => ((mu2 t).mp ht).1) (fun t ht h1 => hd12 t h1 ((mu2 t).mp ht).1)
    (hs1.imp_of_mem (fun {a b} ha hb hab => by
      show (T2 a).remainingBurstTime ≤ (T2 b).remainingBurstTime
      rw [(e1 a ha).1, (e1 b hb).1, (c1 a ha).1, (c1 b hb).1]; exact hab))
  rw [hmove1]
  simp only
  generalize hl2a : s.readyList_L2.filter (fun x => decide (x ∉ u2)) = l2a at *
  have ml2a : ∀ t, t ∈ l2a ↔ t ∈ s.readyList_L2 ∧ (T2 t).priority < 100 := by
    intro t
    rw [← hl2a, List.mem_filter]
    simp only [decide_eq_true_eq, mu2]
    constructor
    · rintro ⟨hm, hp⟩
      exact ⟨hm, by by_contra hc; exact hp ⟨hm, by omega⟩⟩
    · rintro ⟨hm, hp⟩
      exact ⟨hm, fun hc => by omega⟩
  have nl2a : l2a.Nodup := by rw [← hl2a]; exact hn2.filter _
  -- the threads that are put into L2 again
  obtain ⟨l2b, hre, hperm2, hsort2⟩ := reinsertAll_spec (compare_L2 T2)
    (fun t => -(T2 t).priority) (compare_L2_neg T2) g2 l2a nl2a ng2
    (fun t ht => (ml2a t).mpr ⟨((mg2 t).mp ht).1, ((mg2 t).mp ht).2.1⟩)
    (by
      have hsub : l2a.Sublist s.readyList_L2 := by rw [← hl2a]; exact List.filter_sublist _
      refine (hs2.sublist hsub).imp_of_mem ?_
      intro a b ha hb hab hbg
      have ha2 := ((ml2a a).mp ha)
      have hb2 := ((ml2a b).mp hb)
      have hbeq : (s.threads b).priority = (T2 b).priority := by
        by_contra hne
        exact hbg ((mg2 b).mpr ⟨hb2.1, hb2.2, hne⟩)
      have hmono := (c2 a ha2.1).2.1
      rw [← (e2 a ha2.1).2.1] at hmono
      simp only
      omega)
  rw [hre]
  simp only
  -- the L3 loop
  rw [scanL3_eq up time s.readyList_L3 T2 [] hn3 (fun _ _ => List.not_mem_nil _)]
  simp only [hT3def, List.nil_append]
  generalize hu3 : s.readyList_L3.filter (fun t => decide ((up (T2 t) time).priority ≥ 50)) = u3
  have mu3 : ∀ t, t ∈ u3 ↔ t ∈ s.readyList_L3 ∧ 50 ≤ (T3 t).priority := by
    intro t
    rw [← hu3, List.mem_filter]
    constructor
    · rintro ⟨hm, hp⟩
      have := (e3 t hm)
      rw [this.1] at hp
      rw [this.2]
      simp only [decide_eq_true_eq] at hp
      exact ⟨hm, hp⟩
    · rintro ⟨hm, hp⟩
      have := (e3 t hm)
      rw [this.2] at hp
      rw [this.1]
      simp only [decide_eq_true_eq]
      exact ⟨hm, hp⟩
  have nu3 : u3.Nodup := by rw [← hu3]; exact hn3.filter _
  have ml2b : ∀ t, t ∈ l2b ↔ t ∈ s.readyList_L2 ∧ (T2 t).priority < 100 :=
    fun t => (hperm2.mem_iff).trans (ml2a t)
  obtain ⟨l2c, hmove3, hperm3, hsort3⟩ := moveAll_spec (compare_L2 T3)
    (fun t => -(T3 t).priority) (compare_L2_neg T3) u3 s.readyList_L3 l2b
    hn3 nu3 (fun t ht => ((mu3 t).mp ht).1)
    (fun t ht h2 => (hd3 t ((mu3 t).mp ht).1).2 ((ml2b t).mp h2).1)
    (hsort2.imp_of_mem (fun {a b} ha hb hab => by
      have ha2 := (e2 a ((ml2b a).mp ha).1)
      have hb2 := (e2 b ((ml2b b).mp hb).1)
      simp only at hab ⊢
      rw [ha2.2.2, hb2.2.2, ← ha2.2.1, ← hb2.2.1]; exact hab))
  rw [hmove3]
  simp only
  generalize hl3a : s.readyList_L3.filter (fun x => decide (x ∉ u3)) = l3a at *
  have ml3a : ∀ t, t ∈ l3a ↔ t ∈ s.readyList_L3 ∧ (T3 t).priority < 50 := by
    intro t
    rw [← hl3a, List.mem_filter]
    simp only [decide_eq_true_eq, mu3]
    constructor
    · rintro ⟨hm, hp⟩
      exact ⟨hm, by by_contra hc; exact hp ⟨hm, by omega⟩⟩
    · rintro ⟨hm, hp⟩
      exact ⟨hm, fun hc => by omega⟩
  -- the ready threads are the same as before
  have hsplit2 : (u2 ++ l2a).Perm s.readyList_L2 := by
    rw [← hl2a, ← hu2]; exact filter_split_perm _ _
  have hsplit3 : (u3 ++ l3a).Perm s.readyList_L3 := by
    rw [← hl3a, ← hu3]; exact filter_split_perm _ _
  have hready : (l1a ++ l2c ++ l3a).Perm
      (s.readyList_L1 ++ s.readyList_L2 ++ s.readyList_L3) := by
    rw [List.perm_iff_count]
    intro a
    have k1 := hperm1.count_eq a
    have k2 := hperm2.count_eq a
    have k3 := hperm3.count_eq a
    have k4 := hsplit2.count_eq a
    have k5 := hsplit3.count_eq a
    simp only [List.count_append] at k1 k2 k3 k4 k5 ⊢
    omega
  have ml1a : ∀ t, t ∈ l1a ↔ t ∈ u2 ∨ t ∈ s.readyList_L1 := by
    intro t; rw [hperm1.mem_iff, List.mem_append]
  have ml2c : ∀ t, t ∈ l2c ↔ t ∈ u3 ∨ t ∈ l2b := by
    intro t; rw [hperm3.mem_iff, List.mem_append]
  refine ⟨_, rfl, ?_⟩
  refine ⟨?_, ?_, ?_, ?_, ?_, ?_, ?_, ?_⟩
  · exact hready.nodup_iff.mpr hnd
  · intro t ht
    simp only at ht ⊢
    rcases (ml1a t).mp ht with h | h
    · have hm := (mu2 t).mp h
      have hc := c2 t hm.1
      rw [(e2 t hm.1).2.2]
      rw [(e2 t hm.1).2.1] at hm
      exact ⟨hm.2, hc.2.2.1⟩
    · have hc := c1 t h
      have := ht1 t h
      rw [(e1 t h).2]
      exact ⟨by omega, hc.2.2.1⟩
  · intro t ht
    simp only at ht ⊢
    rcases (ml2c t).mp ht with h | h
    · have hm := (mu3 t).mp h
      have hc := c3 t hm.1
      have := ht3 t hm.1
      rw [(e3 t hm.1).2] at hm ⊢
      exact ⟨hm.2, hc.2.2.2 (by omega)⟩
    · have hm := (ml2b t).mp h
      have hc := c2 t hm.1
      have := ht2 t hm.1
      rw [(e2 t hm.1).2.1] at hm
      rw [(e2 t hm.1).2.2]
      exact ⟨by omega, hm.2⟩
  · intro t ht
    simp only at ht ⊢
    have hm := (ml3a t).mp ht
    have hc := c3 t hm.1
    have := ht3 t hm.1
    rw [(e3 t hm.1).2] at hm ⊢
    exact ⟨by omega, hm.2⟩
  · simp only
    refine hsort1.imp_of_mem ?_
    intro a b ha hb hab
    have hT : ∀ x, x ∈ l1a → T3 x = T2 x := by
      intro x hx
      rcases (ml1a x).mp hx with h | h
      · have := e2 x ((mu2 x).mp h).1
        rw [this.2.2, this.2.1]
      · have := e1 x h
        rw [this.2, this.1]
    rw [hT a ha, hT b hb]
    exact hab
  · exact hsort3
  · simp only
    have hsub : l3a.Sublist s.readyList_L3 := by rw [← hl3a]; exact List.filter_sublist _
    exact hf3.sublist hsub
  · intro t ht
    exact hst t (hready.mem_iff.mp ht)


/-! ## The invariant along every step -/

theorem setWaiting_setStatus_burst (threads : ThreadPtr → Thread) (t u : ThreadPtr)
    (st : ThreadStatus) (tick : Int) :
    (setWaiting (setStatus threads t st) t tick u).remainingBurstTime =
      (threads u).remainingBurstTime := by
  unfold setWaiting setStatus
  by_cases h : u = t
  · subst h; simp
  · simp [Function.update_noteq h]

theorem init_invariant (threads : ThreadPtr → Thread) (currentThread : ThreadPtr) (now : Int) :
    QueueInvariant (Scheduler.init threads currentThread now) (fun _ => 0) 0 := by
  refine ⟨?_, ?_, ?_, ?_, ?_, ?_, ?_, ?_⟩ <;> simp [Scheduler.init, Scheduler.ready]

theorem ReadyToRun_invariant (s s1 : Scheduler) (enq : ThreadPtr → Nat) (n : Nat)
    (thread : ThreadPtr) (now : Int) (hinv : QueueInvariant s enq n)
    (hnot : thread ∉ s.ready) (hok : ReadyToRun s thread now = Except.ok s1) :
    QueueInvariant s1 (Function.update enq thread (n + 1)) (n + 1) := by
  obtain ⟨hnd, ht1, ht2, ht3, hs1, hs2, hf3, hst⟩ := hinv
  unfold Scheduler.ready at hnd hst hnot
  have hn1 : thread ∉ s.readyList_L1 := fun h =>
    hnot (List.mem_append_left _ (List.mem_append_left _ h))
  have hn2 : thread ∉ s.readyList_L2 := fun h =>
    hnot (List.mem_append_left _ (List.mem_append_right _ h))
  have hn3 : thread ∉ s.readyList_L3 := fun h => hnot (List.mem_append_right _ h)
  have hp := setWaiting_setStatus_priority s.threads thread
  have hb := setWaiting_setStatus_burst s.threads thread
  generalize hTdef : setWaiting (setStatus s.threads thread ThreadStatus.READY) thread now = T
  have hpT : ∀ u, (T u).priority = (s.threads u).priority := fun u => by
    rw [← hTdef]; exact hp u _ _
  have hbT : ∀ u, (T u).remainingBurstTime = (s.threads u).remainingBurstTime := fun u => by
    rw [← hTdef]; exact hb u _ _
  have henq : ∀ u, u ≠ thread → Function.update enq thread (n + 1) u = enq u :=
    fun u hu => Function.update_noteq hu _ _
  have hstamp : ∀ u, u ∈ thread :: (s.readyList_L1 ++ s.readyList_L2 ++ s.readyList_L3) →
      Function.update enq thread (n + 1) u ≤ n + 1 := by
    intro u hu
    by_cases hut : u = thread
    · rw [hut, Function.update_same]
    · rw [henq u hut]
      rcases List.mem_cons.mp hu with h | h
      · exact absurd h hut
      · exact Nat.le_succ_of_le (hst u h)
  have hfifo : s.readyList_L3.Pairwise
      (fun a b => Function.update enq thread (n + 1) a < Function.update enq thread (n + 1) b) :=
    hf3.imp_of_mem (fun {a b} ha hb hab => by
      rw [henq a (fun e => hn3 (e ▸ ha)), henq b (fun e => hn3 (e ▸ hb))]; exact hab)
  have hsort1 : s.readyList_L1.Pairwise
      (fun a b => (T a).remainingBurstTime ≤ (T b).remainingBurstTime) :=
    hs1.imp (fun {a b} hab => by rw [hbT a, hbT b]; exact hab)
  have hsort2 : s.readyList_L2.Pairwise (fun a b => -(T a).priority ≤ -(T b).priority) :=
    hs2.imp (fun {a b} hab => by rw [hpT a, hpT b]; exact hab)
  rw [ReadyToRun_of_not_mem s thread now (fun _ _ => hn3) (fun _ _ => hn2)
    (fun _ _ => hn1)] at hok
  simp only [hTdef] at hok
  split at hok
  · -- Tier3
    rename_i hpr
    cases hok
    refine ⟨?_, ?_, ?_, ?_, ?_, ?_, ?_, ?_⟩
    · show (s.readyList_L1 ++ s.readyList_L2 ++ (s.readyList_L3 ++ [thread])).Nodup
      rw [← List.append_assoc]
      refine List.Nodup.append hnd (List.nodup_singleton _) ?_
      intro u hu hu1
      rw [List.mem_singleton] at hu1
      exact hnot (hu1 ▸ hu)
    · intro t ht; simp only; rw [hpT]; exact ht1 t ht
    · intro t ht; simp only; rw [hpT]; exact ht2 t ht
    · intro t ht
      simp only [List.mem_append, List.mem_singleton] at ht
      simp only
      rcases ht with h | h
      · rw [hpT]; exact ht3 t h
      · rw [h]; exact hpr
    · exact hsort1
    · exact hsort2
    · show ((s.readyList_L3 ++ [thread])).Pairwise _
      rw [List.pairwise_append]
      refine ⟨hfifo, List.pairwise_singleton _ _, ?_⟩
      intro a ha b hb1
      rw [List.mem_singleton] at hb1
      rw [hb1, Function.update_same, henq a (fun e => hn3 (e ▸ ha))]
      exact Nat.lt_succ_of_le (hst a (List.mem_append_right _ ha))
    · intro t ht
      apply hstamp
      change t ∈ s.readyList_L1 ++ s.readyList_L2 ++ (s.readyList_L3 ++ [thread]) at ht
      simp only [List.mem_append, List.mem_singleton, List.mem_cons] at ht ⊢
      tauto
  · split at hok
    · -- Tier2
      rename_i _ hpr
      cases hok
      have hperm : (s.readyList_L1 ++ insertSorted (compare_L2 T) thread s.readyList_L2 ++
          s.readyList_L3).Perm (thread :: (s.readyList_L1 ++ s.readyList_L2 ++ s.readyList_L3)) := by
        rw [List.perm_iff_count]
        intro a
        have k := (insertSorted_perm (compare_L2 T) thread s.readyList_L2).count_eq a
        simp only [List.count_append, List.count_cons] at k ⊢
        omega
      refine ⟨?_, ?_, ?_, ?_, ?_, ?_, ?_, ?_⟩
      · exact hperm.nodup_iff.mpr (List.nodup_cons.mpr ⟨hnot, hnd⟩)
      · intro t ht; simp only; rw [hpT]; exact ht1 t ht
      · intro t ht
        simp only at ht ⊢
        rcases (mem_insertSorted _ _ _ _).mp ht with h | h
        · rw [h]; exact hpr
        · rw [hpT]; exact ht2 t h
      · intro t ht; simp only; rw [hpT]; exact ht3 t ht
      · exact hsort1
      · exact insertSorted_sorted (compare_L2 T) (fun t => -(T t).priority) (compare_L2_neg T)
          thread s.readyList_L2 hn2 hsort2
      · exact hfifo
      · intro t ht
        exact hstamp t (hperm.mem_iff.mp ht)
    · split at hok
      · -- Tier1
        rename_i _ _ hpr
        cases hok
        have hperm : (insertSorted (compare_L1 T) thread s.readyList_L1 ++ s.readyList_L2 ++
            s.readyList_L3).Perm
            (thread :: (s.readyList_L1 ++ s.readyList_L2 ++ s.readyList_L3)) := by
          rw [List.perm_iff_count]
          intro a
          have k := (insertSorted_perm (compare_L1 T) thread s.readyList_L1).count_eq a
          simp only [List.count_append, List.count_cons] at k ⊢
          omega
        refine ⟨?_, ?_, ?_, ?_, ?_, ?_, ?_, ?_⟩
        · exact hperm.nodup_iff.mpr (List.nodup_cons.mpr ⟨hnot, hnd⟩)
        · intro t ht
          simp only at ht ⊢
          rcases (mem_insertSorted _ _ _ _).mp ht with h | h
          · rw [h]; exact hpr
          · rw [hpT]; exact ht1 t h
        · intro t ht; simp only; rw [hpT]; exact ht2 t ht
        · intro t ht; simp only; rw [hpT]; exact ht3 t ht
        · exact insertSorted_sorted (compare_L1 T) (fun t => (T t).remainingBurstTime)
            (compare_L1_neg T) thread s.readyList_L1 hn1 hsort1
        · exact hsort2
        · exact hfifo
        · intro t ht
          exact hstamp t (hperm.mem_iff.mp ht)
      · cases hok

theorem FindNextToRun_invariant (s : Scheduler) (enq : ThreadPtr → Nat) (n : Nat)
    (hinv : QueueInvariant s enq n) : QueueInvariant (FindNextToRun s).2 enq n := by
  have hinv0 := hinv
  obtain ⟨hnd, ht1, ht2, ht3, hs1, hs2, hf3, hst⟩ := hinv
  unfold Scheduler.ready at hnd hst
  unfold FindNextToRun
  cases h1 : s.readyList_L1 with
  | cons a l1 =>
    rw [h1] at hnd ht1 hs1 hst
    have hsub : (l1 ++ s.readyList_L2 ++ s.readyList_L3).Sublist
        (a :: l1 ++ s.readyList_L2 ++ s.readyList_L3) := List.sublist_cons_self _ _
    exact ⟨hnd.sublist hsub, fun t ht => ht1 t (List.mem_cons_of_mem _ ht), ht2, ht3,
      (List.pairwise_cons.mp hs1).2, hs2, hf3, fun t ht => hst t (hsub.subset ht)⟩
  | nil =>
    rw [h1] at hnd hst
    cases h2 : s.readyList_L2 with
    | cons a l2 =>
      rw [h2] at hnd ht2 hs2 hst
      have hsub : ([] ++ l2 ++ s.readyList_L3).Sublist ([] ++ a :: l2 ++ s.readyList_L3) :=
        List.sublist_cons_self _ _
      exact ⟨by simp only [Scheduler.ready, h1]; exact hnd.sublist hsub,
        by simp [h1], fun t ht => ht2 t (List.mem_cons_of_mem _ ht), ht3,
        by simp [h1], (List.pairwise_cons.mp hs2).2, hf3,
        fun t ht => hst t (hsub.subset (by simpa only [Scheduler.ready, h1] using ht))⟩
    | nil =>
      rw [h2] at hnd hst
      cases h3 : s.readyList_L3 with
      | cons a l3 =>
        rw [h3] at hnd ht3 hf3 hst
        have hsub : ([] ++ [] ++ l3).Sublist ([] ++ [] ++ a :: l3) :=
          List.sublist_cons_self _ _
        exact ⟨by simp only [Scheduler.ready, h1, h2]; exact hnd.sublist hsub,
          by simp [h1], by simp [h2], fun t ht => ht3 t (List.mem_cons_of_mem _ ht),
          by simp [h1], by simp [h2], (List.pairwise_cons.mp hf3).2,
          fun t ht => hst t (hsub.subset (by simpa only [Scheduler.ready, h1, h2] using ht))⟩
      | nil => exact hinv0

theorem kernel_invariant (s s1 : Scheduler) (enq : ThreadPtr → Nat) (n : Nat)
    (hinv : QueueInvariant s enq n)
    (h1 : s1.readyList_L1 = s.readyList_L1) (h2 : s1.readyList_L2 = s.readyList_L2)
    (h3 : s1.readyList_L3 = s.readyList_L3) (hth : ∀ t ∈ s.ready, s1.threads t = s.threads t) :
    QueueInvariant s1 enq n := by
  obtain ⟨hnd, ht1, ht2, ht3, hs1, hs2, hf3, hst⟩ := hinv
  have hr : s1.ready = s.ready := by unfold Scheduler.ready; rw [h1, h2, h3]
  have m1 : ∀ t ∈ s.readyList_L1, s1.threads t = s.threads t := fun t ht =>
    hth t (List.mem_append_left _ (List.mem_append_left _ ht))
  have m2 : ∀ t ∈ s.readyList_L2, s1.threads t = s.threads t := fun t ht =>
    hth t (List.mem_append_left _ (List.mem_append_right _ ht))
  have m3 : ∀ t ∈ s.readyList_L3, s1.threads t = s.threads t := fun t ht =>
    hth t (List.mem_append_right _ ht)
  refine ⟨by rw [hr]; exact hnd, ?_, ?_, ?_, ?_, ?_, by rw [h3]; exact hf3, by rw [hr]; exact hst⟩
  · rw [h1]; intro t ht; rw [m1 t ht]; exact ht1 t ht
  · rw [h2]; intro t ht; rw [m2 t ht]; exact ht2 t ht
  · rw [h3]; intro t ht; rw [m3 t ht]; exact ht3 t ht
  · rw [h1]
    exact hs1.imp_of_mem (fun {a b} ha hb hab => by rw [m1 a ha, m1 b hb]; exact hab)
  · rw [h2]
    exact hs2.imp_of_mem (fun {a b} ha hb hab => by rw [m2 a ha, m2 b hb]; exact hab)

theorem ReachableAt_invariant (up : Thread → Int → Thread) (hup : AgingContract up)
    (s : Scheduler) (enq : ThreadPtr → Nat) (n : Nat) (hr : ReachableAt up s enq n) :
    QueueInvariant s enq n := by
  induction hr with
  | init threads currentThread now => exact init_invariant threads currentThread now
  | readyToRun thread now _ hnot hok ih => exact ReadyToRun_invariant _ _ _ _ thread now ih hnot hok
  | updateQueues time _ hok ih =>
    obtain ⟨s2, h2, hinv⟩ := UpdateQueues_invariant up hup _ _ _ time ih
    rw [h2] at hok
    cases hok
    exact hinv
  | findNextToRun _ ih => exact FindNextToRun_invariant _ _ _ ih
  | kernel _ h1 h2 h3 hth ih => exact kernel_invariant _ _ _ _ ih h1 h2 h3 hth


/-! ## FindNextToRun returns the best ready thread -/

theorem FindNextToRun_best_of_invariant (s : Scheduler) (enq : ThreadPtr → Nat) (n : Nat)
    (hinv : QueueInvariant s enq n) (t : ThreadPtr) (ht : (FindNextToRun s).1 = some t) :
    SelectsBest s enq t := by
  obtain ⟨hnd, ht1, ht2, ht3, hs1, hs2, hf3, hst⟩ := hinv
  have hmem : ∀ u, u ∈ s.ready ↔
      u ∈ s.readyList_L1 ∨ u ∈ s.readyList_L2 ∨ u ∈ s.readyList_L3 := by
    intro u; unfold Scheduler.ready; simp only [List.mem_append, or_assoc]
  have not1 : ∀ u, u ∈ s.readyList_L2 ∨ u ∈ s.readyList_L3 → ¬ InTier1 s u := by
    rintro u (h | h) ⟨h100, _⟩
    · have := ht2 u h; omega
    · have := ht3 u h; omega
  have not2 : ∀ u, u ∈ s.readyList_L3 → ¬ InTier2 s u := by
    rintro u h ⟨h50, _⟩
    have := ht3 u h; omega
  unfold FindNextToRun at ht
  cases h1 : s.readyList_L1 with
  | cons a l1 =>
    rw [h1] at ht
    simp only [Option.some.injEq] at ht
    subst ht
    have ha1 : a ∈ s.readyList_L1 := by rw [h1]; exact List.mem_cons_self _ _
    have hbest : ∀ u ∈ s.ready, InTier1 s u →
        (s.threads a).remainingBurstTime ≤ (s.threads u).remainingBurstTime := by
      intro u hu hu1
      rcases (hmem u).mp hu with h | h
      · rw [h1] at h hs1
        rcases List.mem_cons.mp h with e | e
        · rw [e]
        · exact (List.pairwise_cons.mp hs1).1 u e
      · exact absurd hu1 (not1 u h)
    refine ⟨(hmem a).mpr (Or.inl ha1), fun _ => ⟨ht1 a ha1, hbest⟩, fun hno => ?_, fun hno => ?_⟩
    · exact absurd ⟨a, (hmem a).mpr (Or.inl ha1), ht1 a ha1⟩ hno
    · exact absurd ⟨a, (hmem a).mpr (Or.inl ha1), ht1 a ha1⟩ hno
  | nil =>
    rw [h1] at ht
    have no1 : ¬ ∃ u ∈ s.ready, InTier1 s u := by
      rintro ⟨u, hu, hu1⟩
      rcases (hmem u).mp hu with h | h
      · rw [h1] at h; simp at h
      · exact not1 u h hu1
    cases h2 : s.readyList_L2 with
    | cons a l2 =>
      rw [h2] at ht
      simp only [Option.some.injEq] at ht
      subst ht
      have ha2 : a ∈ s.readyList_L2 := by rw [h2]; exact List.mem_cons_self _ _
      have hbest : ∀ u ∈ s.ready, InTier2 s u → (s.threads u).priority ≤ (s.threads a).priority := by
        intro u hu hu2
        rcases (hmem u).mp hu with h | h | h
        · rw [h1] at h; simp at h
        · rw [h2] at h hs2
          rcases List.mem_cons.mp h with e | e
          · rw [e]
          · have := (List.pairwise_cons.mp hs2).1 u e
            omega
        · exact absurd hu2 (not2 u h)
      refine ⟨(hmem a).mpr (Or.inr (Or.inl ha2)), fun h => absurd h no1,
        fun _ _ => ⟨ht2 a ha2, hbest⟩, fun _ hno => ?_⟩
      exact absurd ⟨a, (hmem a).mpr (Or.inr (Or.inl ha2)), ht2 a ha2⟩ hno
    | nil =>
      rw [h2] at ht
      have no2 : ¬ ∃ u ∈ s.ready, InTier2 s u := by
        rintro ⟨u, hu, hu2⟩
        rcases (hmem u).mp hu with h | h | h
        · rw [h1] at h; simp at h
        · rw [h2] at h; simp at h
        · exact not2 u h hu2
      cases h3 : s.readyList_L3 with
      | cons a l3 =>
        rw [h3] at ht
        simp only [Option.some.injEq] at ht
        subst ht
        have ha3 : a ∈ s.readyList_L3 := by rw [h3]; exact List.mem_cons_self _ _
        refine ⟨(hmem a).mpr (Or.inr (Or.inr ha3)), fun h => absurd h no1,
          fun _ h => absurd h no2, fun _ _ => ⟨ha3, ?_⟩⟩
        intro u hu hne
        rcases (hmem u).mp hu with h | h | h
        · rw [h1] at h; simp at h
        · rw [h2] at h; simp at h
        · rw [h3] at h hf3
          rcases List.mem_cons.mp h with e | e
          · exact absurd e hne
          · exact (List.pairwise_cons.mp hf3).1 u e
      | nil =>
        rw [h3] at ht
        simp at ht

theorem demoAging_contract : AgingContract demoAging := by
  intro th time h0 h150
  unfold demoAging
  split_ifs with h
  · refine ⟨rfl, ?_, ?_, fun _ => ?_⟩ <;> simp only <;> omega
  · exact ⟨rfl, le_refl _, h150, fun h50 => by omega⟩

theorem demoReadied_reachable (up : Thread → Int → Thread) :
    ReachableAt up demoReadied demoEnq 3 := by
  have r0 : ReachableAt up demoInit (fun _ => 0) 0 := ReachableAt.init demoThreads 0 0
  have r1 := ReachableAt.readyToRun 1 0 r0 (by decide)
    (show ReadyToRun demoInit 1 0 = Except.ok (stateOf (ReadyToRun demoInit 1 0)) from rfl)
  have r2 := ReachableAt.readyToRun 2 0 r1 (by decide)
    (show ReadyToRun (stateOf (ReadyToRun demoInit 1 0)) 2 0 =
      Except.ok (stateOf (ReadyToRun (stateOf (ReadyToRun demoInit 1 0)) 2 0)) from rfl)
  exact ReachableAt.readyToRun 3 0 r2 (by decide)
    (show ReadyToRun (stateOf (ReadyToRun (stateOf (ReadyToRun demoInit 1 0)) 2 0)) 3 0 =
      Except.ok demoReadied from rfl)

theorem demoAged_reachable : ReachableAt demoAging demoAged demoEnq 3 :=
  ReachableAt.updateQueues 1500 (demoReadied_reachable demoAging)
    (show UpdateQueues demoAging demoReadied 1500 = some demoAged from rfl)

/-- C6 (as stated, refuted): threads `1` (priority 20, burst 5) and `2`
(priority 10, burst 2) are readied into the empty scheduler and `UpdateQueues`
runs once with an aging function that lifts both by 100.  Both threads are
moved from L3 to L2, not to L1; `FindNextToRun` then returns thread `1`,
although thread `2` is ready with a priority in `[100,150)` and a strictly
smaller remaining burst. -/
theorem FindNextToRun_not_best_after_jump :
    ReadyToRun jumpInit 1 0 = Except.ok (stateOf (ReadyToRun jumpInit 1 0)) ∧
    ReadyToRun (stateOf (ReadyToRun jumpInit 1 0)) 2 0 = Except.ok jumpReadied ∧
    UpdateQueues jumpAging jumpReadied 1 = some jumpAged ∧
    ReachableAt jumpAging jumpAged jumpEnq 2 ∧
    jumpAged.readyList_L1 = [] ∧ jumpAged.readyList_L2 = [1, 2] ∧
    (FindNextToRun jumpAged).1 = some 1 ∧
    2 ∈ jumpAged.ready ∧ InTier1 jumpAged 2 ∧
    (jumpAged.threads 2).remainingBurstTime < (jumpAged.threads 1).remainingBurstTime ∧
    ¬ SelectsBest jumpAged jumpEnq 1 := by
  have r0 : ReachableAt jumpAging jumpInit (fun _ => 0) 0 := ReachableAt.init jumpThreads 0 0
  have r1 := ReachableAt.readyToRun 1 0 r0 (by decide)
    (show ReadyToRun jumpInit 1 0 = Except.ok (stateOf (ReadyToRun jumpInit 1 0)) from rfl)
  have r2 := ReachableAt.readyToRun 2 0 r1 (by decide)
    (show ReadyToRun (stateOf (ReadyToRun jumpInit 1 0)) 2 0 = Except.ok jumpReadied from rfl)
  have r3 := ReachableAt.updateQueues 1 r2
    (show UpdateQueues jumpAging jumpReadied 1 = some jumpAged from rfl)
  have hmem : 2 ∈ jumpAged.ready := by decide!
  have htier : InTier1 jumpAged 2 := by unfold InTier1; decide!
  have hlt : (jumpAged.threads 2).remainingBurstTime <
      (jumpAged.threads 1).remainingBurstTime := by decide!
  refine ⟨rfl, rfl, rfl, r3, rfl, rfl, rfl, hmem, htier, hlt, ?_⟩
  rintro ⟨_, hbest, _⟩
  exact absurd ((hbest ⟨2, hmem, htier⟩).2 2 hmem htier) (not_le.mpr hlt)

/-- C6 (amended): let the aging function honour its contract (it leaves the
remaining burst time alone, never lowers a priority, keeps it below 150 and
never lifts a priority below 50 to 100 or more in one call).  In every state
reachable from the empty scheduler by `ReadyToRun` of threads that are in no
ready list, `UpdateQueues` and `FindNextToRun`, a thread returned by
`FindNextToRun` is the best ready thread: the smallest remaining burst among
the ready threads with priority in `[100,150)` if there is one, otherwise the
largest priority among those with priority in `[50,100)` if there is one,
otherwise the thread of L3 readied before every other ready thread. -/
theorem FindNextToRun_selects_best (up : Thread → Int → Thread) (hup : AgingContract up)
    (s : Scheduler) (enq : ThreadPtr → Nat) (n : Nat) (hr : ReachableAt up s enq n)
    (t : ThreadPtr) (ht : (FindNextToRun s).1 = some t) :
    SelectsBest s enq t :=
  FindNextToRun_best_of_invariant s enq n (ReachableAt_invariant up hup s enq n hr) t ht

theorem FindNextToRun_selects_best_witness :
    AgingContract demoAging ∧ ReachableAt demoAging demoAged demoEnq 3 ∧
    (FindNextToRun demoAged).1 = some 3 ∧ (demoAged.threads 3).priority = 130 ∧
    SelectsBest demoAged demoEnq 3 :=
  ⟨demoAging_contract, demoAged_reachable, rfl, by decide!,
    FindNextToRun_selects_best demoAging demoAging_contract demoAged demoEnq 3
      demoAged_reachable 3 rfl⟩

/-! ## The effect of UpdateQueues on a state without duplicates -/

theorem insertSorted_sublist (cmp : ThreadPtr → ThreadPtr → Int) (t : ThreadPtr) (l : List ThreadPtr) :
    l.Sublist (insertSorted cmp t l) := by
  induction l with
  | nil => exact List.nil_sublist _
  | cons x xs ih =>
    unfold insertSorted
    split
    · exact List.sublist_cons_self _ _
    · exact ih.cons₂ x

theorem moveAll_struct (cmp : ThreadPtr → ThreadPtr → Int)
    (moved src dst : List ThreadPtr) (hsrc : src.Nodup) (hm : moved.Nodup)
    (hsub : ∀ t ∈ moved, t ∈ src) (hdisj : ∀ t ∈ moved, t ∉ dst) :
    ∃ dst1, moveAll cmp moved (src, dst) =
        some (src.filter (fun x => decide (x ∉ moved)), dst1) ∧
      dst1.Perm (moved ++ dst) ∧ dst.Sublist dst1 := by
  induction moved generalizing src dst with
  | nil => exact ⟨dst, by simp [moveAll], List.Perm.refl _, List.Sublist.refl _⟩
  | cons t rest ih =>
    rw [List.nodup_cons] at hm
    have htsrc : t ∈ src := hsub t (List.mem_cons_self _ _)
    have htdst : t ∉ dst := hdisj t (List.mem_cons_self _ _)
    obtain ⟨dst1, h1, h2, h3⟩ := ih (src.erase t) (insertSorted cmp t dst) (hsrc.erase t) hm.2
      (fun u hu => (List.mem_erase_of_ne (fun (e : u = t) => hm.1 (e ▸ hu))).mpr
        (hsub u (List.mem_cons_of_mem _ hu)))
      (fun u hu hmem => by
        rcases (mem_insertSorted cmp t u dst).mp hmem with e | e
        · exact hm.1 (e ▸ hu)
        · exact hdisj u (List.mem_cons_of_mem _ hu) e)
    refine ⟨dst1, ?_, ?_, (insertSorted_sublist cmp t dst).trans h3⟩
    · simp only [moveAll, Remove, if_pos htsrc, Insert, if_neg htdst, h1]
      rw [hsrc.erase_eq_filter, List.filter_filter]
      congr 2
      apply List.filter_congr
      intro x _
      by_cases hxt : x = t <;> by_cases hxr : x ∈ rest <;> simp [hxt, hxr]
    · refine h2.trans ?_
      refine ((insertSorted_perm cmp t dst).append_left rest).trans ?_
      exact List.perm_middle

theorem reinsertAll_struct (cmp : ThreadPtr → ThreadPtr → Int)
    (upg l : List ThreadPtr) (hl : l.Nodup) (hsub : ∀ t ∈ upg, t ∈ l) :
    ∃ l1, reinsertAll cmp upg l = some l1 ∧ l1.Perm l := by
  induction upg generalizing l with
  | nil => exact ⟨l, by simp [reinsertAll], List.Perm.refl _⟩
  | cons t rest ih =>
    have htl : t ∈ l := hsub t (List.mem_cons_self _ _)
    have hperm : (insertSorted cmp t (l.erase t)).Perm l :=
      (insertSorted_perm cmp t (l.erase t)).trans (List.perm_cons_erase htl).symm
    have hte : t ∉ l.erase t := fun hmem => (hl.mem_erase_iff.mp hmem).1 rfl
    obtain ⟨l1, h1, h2⟩ := ih (insertSorted cmp t (l.erase t)) (hperm.nodup_iff.mpr hl)
      (fun u hu1 => hperm.mem_iff.mpr (hsub u (List.mem_cons_of_mem _ hu1)))
    exact ⟨l1, by simp only [reinsertAll, Remove, if_pos htl, Insert, if_neg hte, h1],
      h2.trans hperm⟩


theorem UpdateQueues_effect (up : Thread → Int → Thread) (s : Scheduler) (time : Int)
    (hnd : s.ready.Nodup) :
    ∃ s1, UpdateQueues up s time = some s1 ∧ UpdateEffect up s time s1 := by
  have hready : ∀ u, u ∈ s.ready ↔
      u ∈ s.readyList_L1 ∨ u ∈ s.readyList_L2 ∨ u ∈ s.readyList_L3 := by
    intro u; unfold Scheduler.ready; simp only [List.mem_append, or_assoc]
  have hnd0 := hnd
  unfold Scheduler.ready at hnd
  -- the lists are duplicate free and pairwise disjoint
  have hnd12 : (s.readyList_L1 ++ s.readyList_L2).Nodup := (List.nodup_append.mp hnd).1
  have hn1 : s.readyList_L1.Nodup := (List.nodup_append.mp hnd12).1
  have hn2 : s.readyList_L2.Nodup := (List.nodup_append.mp hnd12).2.1
  have hn3 : s.readyList_L3.Nodup := (List.nodup_append.mp hnd).2.1
  have hd12 : ∀ u, u ∈ s.readyList_L1 → u ∉ s.readyList_L2 :=
    fun u h1 h2 => (List.nodup_append.mp hnd12).2.2 h1 h2
  have hd3 : ∀ u, u ∈ s.readyList_L3 → u ∉ s.readyList_L1 ∧ u ∉ s.readyList_L2 :=
    fun u h3 => ⟨fun h1 => (List.nodup_append.mp hnd).2.2 (List.mem_append_left _ h1) h3,
      fun h2 => (List.nodup_append.mp hnd).2.2 (List.mem_append_right _ h2) h3⟩
  -- the heaps after the three update loops
  have hT1 : ∀ u ∈ s.readyList_L1,
      updateAll up time s.readyList_L1 s.threads u = up (s.threads u) time :=
    fun u hu => updateAll_mem up time _ _ u hn1 hu
  have hT1' : ∀ u, u ∉ s.readyList_L1 →
      updateAll up time s.readyList_L1 s.threads u = s.threads u :=
    fun u hu => updateAll_not_mem up time _ _ u hu
  generalize hT1def : updateAll up time s.readyList_L1 s.threads = T1 at hT1 hT1'
  have hT2 : ∀ u ∈ s.readyList_L2, updateAll up time s.readyList_L2 T1 u = up (T1 u) time :=
    fun u hu => updateAll_mem up time _ _ u hn2 hu
  have hT2' : ∀ u, u ∉ s.readyList_L2 → updateAll up time s.readyList_L2 T1 u = T1 u :=
    fun u hu => updateAll_not_mem up time _ _ u hu
  generalize hT2def : updateAll up time s.readyList_L2 T1 = T2 at hT2 hT2'
  have hT3 : ∀ u ∈ s.readyList_L3, updateAll up time s.readyList_L3 T2 u = up (T2 u) time :=
    fun u hu => updateAll_mem up time _ _ u hn3 hu
  have hT3' : ∀ u, u ∉ s.readyList_L3 → updateAll up time s.readyList_L3 T2 u = T2 u :=
    fun u hu => updateAll_not_mem up time _ _ u hu
  generalize hT3def : updateAll up time s.readyList_L3 T2 = T3 at hT3 hT3'
  -- the thread objects, list by list
  have e1 : ∀ u ∈ s.readyList_L1, T2 u = up (s.threads u) time ∧ T3 u = T2 u := by
    intro u hu
    have h2 : T2 u = up (s.threads u) time := by rw [hT2' u (hd12 u hu), hT1 u hu]
    exact ⟨h2, hT3' u (fun h3 => (hd3 u h3).1 hu)⟩
  have e2 : ∀ u ∈ s.readyList_L2,
      T1 u = s.threads u ∧ T2 u = up (s.threads u) time ∧ T3 u = T2 u := by
    intro u hu
    have h1 : T1 u = s.threads u := hT1' u (fun h1 => hd12 u h1 hu)
    have h2 : T2 u = up (s.threads u) time := by rw [hT2 u hu, h1]
    exact ⟨h1, h2, hT3' u (fun h3 => (hd3 u h3).2 hu)⟩
  have e3 : ∀ u ∈ s.readyList_L3, T2 u = s.threads u ∧ T3 u = up (s.threads u) time := by
    intro u hu
    have h2 : T2 u = s.threads u := by rw [hT2' u (hd3 u hu).2, hT1' u (hd3 u hu).1]
    exact ⟨h2, by rw [hT3 u hu, h2]⟩
  have e0 : ∀ u, u ∉ s.ready → T3 u = s.threads u := by
    intro u hu
    rw [hready] at hu
    rw [hT3' u (fun h => hu (Or.inr (Or.inr h))), hT2' u (fun h => hu (Or.inr (Or.inl h))),
      hT1' u (fun h => hu (Or.inl h))]
  -- the L2 loop
  unfold UpdateQueues
  simp only [hT1def]
  rw [scanL2_eq up time s.readyList_L2 T1 [] [] hn2 (fun _ _ => List.not_mem_nil _)
    (fun _ _ => List.not_mem_nil _)]
  simp only [hT2def, List.nil_append]
  generalize hu2 : s.readyList_L2.filter (fun t => decide ((up (T1 t) time).priority ≥ 100 ∧
          (T1 t).priority ≠ (up (T1 t) time).priority)) = u2
  generalize hg2 : s.readyList_L2.filter (fun t => decide (¬ (up (T1 t) time).priority ≥ 100 ∧
          (T1 t).priority ≠ (up (T1 t) time).priority)) = g2
  have mu2 : ∀ t, t ∈ u2 ↔ t ∈ s.readyList_L2 ∧ 100 ≤ (T2 t).priority ∧
      (s.threads t).priority ≠ (T2 t).priority := by
    intro t
    rw [← hu2, List.mem_filter]
    constructor
    · rintro ⟨hm, hp⟩
      have := (e2 t hm)
      rw [this.1] at hp
      rw [this.2.1]
      simp only [decide_eq_true_eq] at hp
      exact ⟨hm, hp.1, hp.2⟩
    · rintro ⟨hm, hp⟩
      have := (e2 t hm)
      rw [this.2.1] at hp
      rw [this.1]
      simp only [decide_eq_true_eq]
      exact ⟨hm, hp.1, hp.2⟩
  have mg2 : ∀ t, t ∈ g2 ↔ t ∈ s.readyList_L2 ∧ ¬ 100 ≤ (T2 t).priority ∧
      (s.threads t).priority ≠ (T2 t).priority := by
    intro t
    rw [← hg2, List.mem_filter]
    constructor
    · rintro ⟨hm, hp⟩
      have := (e2 t hm)
      rw [this.1] at hp
      rw [this.2.1]
      simp only [decide_eq_true_eq] at hp
      exact ⟨hm, hp.1, hp.2⟩
    · rintro ⟨hm, hp⟩
      have := (e2 t hm)
      rw [this.2.1] at hp
      rw [this.1]
      simp only [decide_eq_true_eq]
      exact ⟨hm, hp.1, hp.2⟩
  have nu2 : u2.Nodup := by rw [← hu2]; exact hn2.filter _
  have ng2 : g2.Nodup := by rw [← hg2]; exact hn2.filter _
  -- the threads that go up to L1
  obtain ⟨l1a, hmove1, hperm1, hsub1⟩ := moveAll_struct (compare_L1 T2)
    u2 s.readyList_L2 s.readyList_L1 hn2 nu2 (fun t ht => ((mu2 t).mp ht).1)
    (fun t ht h1 => hd12 t h1 ((mu2 t).mp ht).1)
  rw [hmove1]
  simp only
  generalize hl2a : s.readyList_L2.filter (fun x => decide (x ∉ u2)) = l2a at *
  have ml2a : ∀ t, t ∈ l2a ↔ t ∈ s.readyList_L2 ∧ ¬ (100 ≤ (T2 t).priority ∧
      (s.threads t).priority ≠ (T2 t).priority) := by
    intro t
    rw [← hl2a, List.mem_filter]
    simp only [decide_eq_true_eq, mu2]
    constructor
    · rintro ⟨hm, hp⟩
      exact ⟨hm, fun hc => hp ⟨hm, hc⟩⟩
    · rintro ⟨hm, hp⟩
      exact ⟨hm, fun hc => hp hc.2⟩
  have nl2a : l2a.Nodup := by rw [← hl2a]; exact hn2.filter _
  have hg2sub : ∀ t ∈ g2, t ∈ l2a := fun t ht =>
    (ml2a t).mpr ⟨((mg2 t).mp ht).1, fun hc => ((mg2 t).mp ht).2.1 hc.1⟩
  -- the threads that are put into L2 again
  obtain ⟨l2b, hre, hperm2⟩ := reinsertAll_struct (compare_L2 T2) g2 l2a nl2a hg2sub
  rw [hre]
  simp only
  -- the L3 loop
  rw [scanL3_eq up time s.readyList_L3 T2 [] hn3 (fun _ _ => List.not_mem_nil _)]
  simp only [hT3def, List.nil_append]
  generalize hu3 : s.readyList_L3.filter (fun t => decide ((up (T2 t) time).priority ≥ 50)) = u3
  have mu3 : ∀ t, t ∈ u3 ↔ t ∈ s.readyList_L3 ∧ 50 ≤ (T3 t).priority := by
    intro t
    rw [← hu3, List.mem_filter]
    constructor
    · rintro ⟨hm, hp⟩
      have := (e3 t hm)
      rw [this.1] at hp
      rw [this.2]
      simp only [decide_eq_true_eq] at hp
      exact ⟨hm, hp⟩
    · rintro ⟨hm, hp⟩
      have := (e3 t hm)
      rw [this.2] at hp
      rw [this.1]
      simp only [decide_eq_true_eq]
      exact ⟨hm, hp⟩
  have nu3 : u3.Nodup := by rw [← hu3]; exact hn3.filter _
  have ml2b : ∀ t, t ∈ l2b ↔ t ∈ l2a := fun t => hperm2.mem_iff
  have hdisj3 : ∀ t ∈ u3, t ∉ l2b := fun t ht h2 =>
    (hd3 t ((mu3 t).mp ht).1).2 ((ml2a t).mp ((ml2b t).mp h2)).1
  obtain ⟨l2c, hmove3, hperm3, _⟩ := moveAll_struct (compare_L2 T3)
    u3 s.readyList_L3 l2b hn3 nu3 (fun t ht => ((mu3 t).mp ht).1) hdisj3
  rw [hmove3]
  simp only
  have hl3a : s.readyList_L3.filter (fun x => decide (x ∉ u3)) =
      s.readyList_L3.filter (fun t => decide ((T3 t).priority < 50)) := by
    apply List.filter_congr
    intro x hx
    simp only [mu3, hx, true_and, not_le, decide_eq_decide]
  -- the ready threads are the same as before
  have hsplit2 : (u2 ++ l2a).Perm s.readyList_L2 := by
    rw [← hl2a, ← hu2]; exact filter_split_perm _ _
  have hsplit3 : (u3 ++ s.readyList_L3.filter (fun x => decide (x ∉ u3))).Perm
      s.readyList_L3 := by
    rw [← hu3]; exact filter_split_perm _ _
  have hreadyperm : (l1a ++ l2c ++ s.readyList_L3.filter (fun x => decide (x ∉ u3))).Perm
      (s.readyList_L1 ++ s.readyList_L2 ++ s.readyList_L3) := by
    rw [List.perm_iff_count]
    intro a
    have k1 := hperm1.count_eq a
    have k2 := hperm2.count_eq a
    have k3 := hperm3.count_eq a
    have k4 := hsplit2.count_eq a
    have k5 := hsplit3.count_eq a
    simp only [List.count_append] at k1 k2 k3 k4 k5 ⊢
    omega
  have ml1a : ∀ t, t ∈ l1a ↔ t ∈ u2 ∨ t ∈ s.readyList_L1 := by
    intro t; rw [hperm1.mem_iff, List.mem_append]
  have ml2c : ∀ t, t ∈ l2c ↔ t ∈ u3 ∨ t ∈ l2b := by
    intro t; rw [hperm3.mem_iff, List.mem_append]
  have hT32 : ∀ x, x ∈ l1a → T3 x = T2 x := by
    intro x hx
    rcases (ml1a x).mp hx with h | h
    · exact (e2 x ((mu2 x).mp h).1).2.2
    · exact (e1 x h).2
  refine ⟨_, rfl, ?_⟩
  refine ⟨rfl, rfl, rfl, rfl, ?_, e0, ?_, ?_, ?_, hreadyperm, hsub1, ?_, ?_⟩
  · -- the objects of the queued threads
    intro u hu
    show T3 u = up (s.threads u) time
    rcases (hready u).mp hu with h | h | h
    · rw [(e1 u h).2, (e1 u h).1]
    · rw [(e2 u h).2.2, (e2 u h).2.1]
    · exact (e3 u h).2
  · -- L1
    intro t
    show t ∈ l1a ↔ _
    rw [ml1a, mu2]
    constructor
    · rintro (⟨hm, hp⟩ | h)
      · right
        refine ⟨hm, ?_⟩
        show 100 ≤ (T3 t).priority ∧ (s.threads t).priority ≠ (T3 t).priority
        rw [(e2 t hm).2.2]; exact hp
      · exact Or.inl h
    · rintro (h | ⟨hm, hp⟩)
      · exact Or.inr h
      · left
        refine ⟨hm, ?_⟩
        change 100 ≤ (T3 t).priority ∧ (s.threads t).priority ≠ (T3 t).priority at hp
        rw [(e2 t hm).2.2] at hp; exact hp
  · -- L2
    intro t
    show t ∈ l2c ↔ _
    rw [ml2c, ml2b, ml2a, mu3]
    constructor
    · rintro (h | ⟨hm, hp⟩)
      · exact Or.inr h
      · left
        refine ⟨hm, ?_⟩
        show ¬ (100 ≤ (T3 t).priority ∧ (s.threads t).priority ≠ (T3 t).priority)
        rw [(e2 t hm).2.2]; exact hp
    · rintro (⟨hm, hp⟩ | h)
      · right
        refine ⟨hm, ?_⟩
        change ¬ (100 ≤ (T3 t).priority ∧ (s.threads t).priority ≠ (T3 t).priority) at hp
        rw [(e2 t hm).2.2] at hp; exact hp
      · exact Or.inl h
  · exact hl3a
  · -- the order of L1
    intro hs
    change s.readyList_L1.Pairwise (fun a b =>
      (T3 a).remainingBurstTime ≤ (T3 b).remainingBurstTime) at hs
    show l1a.Pairwise (fun a b => (T3 a).remainingBurstTime ≤ (T3 b).remainingBurstTime)
    obtain ⟨l1a', hmove1', _, hsort1⟩ := moveAll_spec (compare_L1 T2)
      (fun t => (T2 t).remainingBurstTime) (compare_L1_neg T2) u2 s.readyList_L2 s.readyList_L1
      hn2 nu2 (fun t ht => by rw [← hl2a] at *; exact ((mu2 t).mp ht).1)
      (fun t ht h1 => hd12 t h1 ((mu2 t).mp ht).1)
      (hs.imp_of_mem (fun {a b} ha hb hab => by
        show (T2 a).remainingBurstTime ≤ (T2 b).remainingBurstTime
        rw [← (e1 a ha).2, ← (e1 b hb).2]; exact hab))
    rw [hl2a, hmove1] at hmove1'
    have hl : l1a = l1a' := by
      have := Option.some.inj hmove1'
      exact (Prod.mk.inj this).2
    rw [hl]
    refine hsort1.imp_of_mem ?_
    intro a b ha hb hab
    rw [← hl] at ha hb
    rw [hT32 a ha, hT32 b hb]
    exact hab
  · -- the order of L2
    intro hs
    change s.readyList_L2.Pairwise (fun a b =>
      (s.threads b).priority = (T3 b).priority → (T3 b).priority ≤ (T3 a).priority) at hs
    show l2c.Pairwise (fun a b => (T3 b).priority ≤ (T3 a).priority)
    obtain ⟨l2b', hre', _, hsort2⟩ := reinsertAll_spec (compare_L2 T2)
      (fun t => -(T2 t).priority) (compare_L2_neg T2) g2 l2a nl2a ng2 hg2sub
      (by
        have hsub : l2a.Sublist s.readyList_L2 := by rw [← hl2a]; exact List.filter_sublist _
        refine (hs.sublist hsub).imp_of_mem ?_
        intro a b ha hb hab hbg
        have ha2 := ((ml2a a).mp ha)
        have hb2 := ((ml2a b).mp hb)
        have hbeq : (s.threads b).priority = (T2 b).priority := by
          by_contra hne
          by_cases h100 : 100 ≤ (T2 b).priority
          · exact hb2.2 ⟨h100, hne⟩
          · exact hbg ((mg2 b).mpr ⟨hb2.1, h100, hne⟩)
        rw [(e2 a ha2.1).2.2, (e2 b hb2.1).2.2] at hab
        have := hab hbeq
        show -(T2 a).priority ≤ -(T2 b).priority
        omega)
    rw [hre] at hre'
    have hl : l2b = l2b' := Option.some.inj hre'
    rw [← hl] at hsort2
    obtain ⟨l2c', hmove3', _, hsort3⟩ := moveAll_spec (compare_L2 T3)
      (fun t => -(T3 t).priority) (compare_L2_neg T3) u3 s.readyList_L3 l2b
      hn3 nu3 (fun t ht => ((mu3 t).mp ht).1) hdisj3
      (hsort2.imp_of_mem (fun {a b} ha hb hab => by
        have ha2 := (e2 a ((ml2a a).mp ((ml2b a).mp ha)).1)
        have hb2 := (e2 b ((ml2a b).mp ((ml2b b).mp hb)).1)
        show -(T3 a).priority ≤ -(T3 b).priority
        rw [ha2.2.2, hb2.2.2]; exact hab))
    rw [hmove3] at hmove3'
    have hl3 : l2c = l2c' := (Prod.mk.inj (Option.some.inj hmove3')).2
    rw [hl3]
    exact hsort3.imp (fun {a b} hab => by omega)


theorem ready_mem (s : Scheduler) (u : ThreadPtr) :
    u ∈ s.ready ↔ u ∈ s.readyList_L1 ∨ u ∈ s.readyList_L2 ∨ u ∈ s.readyList_L3 := by
  unfold Scheduler.ready; simp only [List.mem_append, or_assoc]

theorem ready_disjoint (s : Scheduler) (hnd : s.ready.Nodup) (u : ThreadPtr) :
    (u ∈ s.readyList_L1 → u ∉ s.readyList_L2 ∧ u ∉ s.readyList_L3) ∧
    (u ∈ s.readyList_L2 → u ∉ s.readyList_L3) := by
  unfold Scheduler.ready at hnd
  have h3 := (List.nodup_append.mp hnd).2.2
  have h12 := (List.nodup_append.mp (List.nodup_append.mp hnd).1).2.2
  exact ⟨fun h1 => ⟨fun h2 => h12 h1 h2, fun h => h3 (List.mem_append_left _ h1) h⟩,
    fun h2 h => h3 (List.mem_append_right _ h2) h⟩

theorem crossAged_eq : UpdateQueues demoAging crossReadied 1500 = some crossAged := rfl

theorem jumpAged_eq : UpdateQueues jumpAging jumpReadied 1 = some jumpAged := rfl

theorem orderAged_eq : UpdateQueues demoAging orderReadied 1500 = some orderAged := rfl

/-! ## Tier migration in UpdateQueues -/

/-- C11 (as stated, refuted): in `jumpAged` no thread is queued twice and
thread `1` is in L2 with priority 120.  The next call of `UpdateQueues`
recomputes its priority to 120 again, a value in `[100,150)`, and leaves the
thread in L2: it is not in L1 afterwards. -/
theorem UpdateQueues_unchanged_stays_in_L2 :
    jumpAged.ready.Nodup ∧ 1 ∈ jumpAged.readyList_L2 ∧
    (jumpAged.threads 1).priority = 120 ∧
    UpdateQueues jumpAging jumpAged 2 = some jumpAgedAgain ∧
    (jumpAgedAgain.threads 1).priority = 120 ∧
    1 ∈ jumpAgedAgain.readyList_L2 ∧ 1 ∉ jumpAgedAgain.readyList_L1 := by
  refine ⟨?_, ?_, ?_, rfl, ?_, ?_, ?_⟩ <;> decide!

/-- C11 (amended): in a state where no thread is queued twice, `UpdateQueues`
returns normally, and afterwards every thread that was in L2 and whose
recomputed priority is in `[100,150)` and differs from its priority before the
call is in L1 and not in L2; a thread that was in L2 and whose priority the
call leaves as it was is still in L2 and not in L1; and every thread that was
in L3 and whose recomputed priority is in `[50,100)` is in L2 and not in
L3. -/
theorem UpdateQueues_migrates (up : Thread → Int → Thread) (s : Scheduler) (time : Int)
    (hnd : s.ready.Nodup) :
    ∃ s1, UpdateQueues up s time = some s1 ∧
      (∀ t ∈ s.readyList_L2,
        (s.threads t).priority ≠ (s1.threads t).priority →
        100 ≤ (s1.threads t).priority → (s1.threads t).priority < 150 →
        t ∈ s1.readyList_L1 ∧ t ∉ s1.readyList_L2) ∧
      (∀ t ∈ s.readyList_L2,
        (s.threads t).priority = (s1.threads t).priority →
        t ∈ s1.readyList_L2 ∧ t ∉ s1.readyList_L1) ∧
      (∀ t ∈ s.readyList_L3,
        50 ≤ (s1.threads t).priority → (s1.threads t).priority < 100 →
        t ∈ s1.readyList_L2 ∧ t ∉ s1.readyList_L3) := by
  obtain ⟨s1, hs1, he⟩ := UpdateQueues_effect up s time hnd
  refine ⟨s1, hs1, ?_, ?_, ?_⟩
  · intro t ht hne hnew _
    refine ⟨(he.mem_L1 t).mpr (Or.inr ⟨ht, hnew, hne⟩), fun hmem => ?_⟩
    rcases (he.mem_L2 t).mp hmem with ⟨_, hno⟩ | ⟨h3, _⟩
    · exact hno ⟨hnew, hne⟩
    · exact (ready_disjoint s hnd t).2 ht h3
  · intro t ht heq
    refine ⟨(he.mem_L2 t).mpr (Or.inl ⟨ht, fun h => h.2 heq⟩), fun hmem => ?_⟩
    rcases (he.mem_L1 t).mp hmem with h1 | ⟨_, _, hne⟩
    · exact ((ready_disjoint s hnd t).1 h1).1 ht
    · exact hne heq
  · intro t ht hnew _
    refine ⟨(he.mem_L2 t).mpr (Or.inr ⟨ht, hnew⟩), fun hmem => ?_⟩
    rw [he.list_L3, List.mem_filter] at hmem
    have := hmem.2
    simp only [decide_eq_true_eq] at this
    omega

theorem UpdateQueues_migrates_witness :
    ∃ s1, UpdateQueues demoAging crossReadied 1500 = some s1 ∧
      (2 ∈ crossReadied.readyList_L2 ∧ (crossReadied.threads 2).priority = 95 ∧
        (s1.threads 2).priority = 105 ∧ 2 ∈ s1.readyList_L1 ∧ 2 ∉ s1.readyList_L2) ∧
      (1 ∈ crossReadied.readyList_L3 ∧ (s1.threads 1).priority = 55 ∧
        1 ∈ s1.readyList_L2 ∧ 1 ∉ s1.readyList_L3) := by
  obtain ⟨s1, hs1, h2, _, h3⟩ := UpdateQueues_migrates demoAging crossReadied 1500 (by decide!)
  have he : s1 = crossAged := by
    rw [crossAged_eq] at hs1; exact (Option.some.inj hs1).symm
  subst he
  have p2 : (crossAged.threads 2).priority = 105 := by decide!
  have q2 : (crossReadied.threads 2).priority = 95 := by decide!
  have p1 : (crossAged.threads 1).priority = 55 := by decide!
  have m2 : 2 ∈ crossReadied.readyList_L2 := by decide!
  have m1 : 1 ∈ crossReadied.readyList_L3 := by decide!
  exact ⟨crossAged, hs1,
    ⟨m2, q2, p2, h2 2 m2 (by rw [p2, q2]; decide) (by rw [p2]; decide) (by rw [p2]; decide)⟩,
    ⟨m1, p1, h3 1 m1 (by rw [p1]; decide) (by rw [p1]; decide)⟩⟩

/-- C12 (as stated, refuted): thread `1` is in L3 with priority 20 and the
aging function lifts it to 120 in one call of `UpdateQueues`.  After the call
the thread is in L2, not in L1. -/
theorem UpdateQueues_jump_lands_in_L2 :
    1 ∈ jumpReadied.readyList_L3 ∧ (jumpReadied.threads 1).priority = 20 ∧
    UpdateQueues jumpAging jumpReadied 1 = some jumpAged ∧
    (jumpAged.threads 1).priority = 120 ∧
    1 ∉ jumpAged.readyList_L1 ∧ 1 ∈ jumpAged.readyList_L2 ∧ 1 ∉ jumpAged.readyList_L3 := by
  refine ⟨?_, ?_, rfl, ?_, ?_, ?_, ?_⟩ <;> decide!

/-- C12 (amended): in a state where no thread is queued twice, a thread of L3
whose priority one call of `UpdateQueues` recomputes to a value in `[100,150)`
is moved up one level only: after the call it is in L2, not in L1 and not in
L3. -/
theorem UpdateQueues_jump_one_level (up : Thread → Int → Thread) (s : Scheduler)
    (time : Int) (hnd : s.ready.Nodup) :
    ∃ s1, UpdateQueues up s time = some s1 ∧
      ∀ t ∈ s.readyList_L3,
        100 ≤ (s1.threads t).priority → (s1.threads t).priority < 150 →
        t ∈ s1.readyList_L2 ∧ t ∉ s1.readyList_L1 ∧ t ∉ s1.readyList_L3 := by
  obtain ⟨s1, hs1, he⟩ := UpdateQueues_effect up s time hnd
  refine ⟨s1, hs1, ?_⟩
  intro t ht hnew _
  have hd1 : t ∉ s.readyList_L1 := fun h1 => (ready_disjoint s hnd t).1 h1 |>.2 ht
  have hd2 : t ∉ s.readyList_L2 := fun h2 => (ready_disjoint s hnd t).2 h2 ht
  refine ⟨(he.mem_L2 t).mpr (Or.inr ⟨ht, by omega⟩), fun hmem => ?_, fun hmem => ?_⟩
  · rcases (he.mem_L1 t).mp hmem with h1 | ⟨h2, _⟩
    · exact hd1 h1
    · exact hd2 h2
  · rw [he.list_L3, List.mem_filter] at hmem
    have := hmem.2
    simp only [decide_eq_true_eq] at this
    omega

theorem UpdateQueues_jump_one_level_witness :
    ∃ s1, UpdateQueues jumpAging jumpReadied 1 = some s1 ∧
      1 ∈ jumpReadied.readyList_L3 ∧ (s1.threads 1).priority = 120 ∧
      1 ∈ s1.readyList_L2 ∧ 1 ∉ s1.readyList_L1 ∧ 1 ∉ s1.readyList_L3 := by
  obtain ⟨s1, hs1, h⟩ := UpdateQueues_jump_one_level jumpAging jumpReadied 1 (by decide!)
  have he : s1 = jumpAged := by
    rw [jumpAged_eq] at hs1; exact (Option.some.inj hs1).symm
  subst he
  have p1 : (jumpAged.threads 1).priority = 120 := by decide!
  have m1 : 1 ∈ jumpReadied.readyList_L3 := by decide!
  exact ⟨jumpAged, hs1, m1, p1, h 1 m1 (by rw [p1]; decide) (by rw [p1]; decide)⟩


/-! ## Queue membership -/

theorem ReadyToRun_ready (s : Scheduler) (thread : ThreadPtr) (now : Int) :
    (stateOf (ReadyToRun s thread now)).ready.Perm (thread :: s.ready) ∨
    (stateOf (ReadyToRun s thread now)).ready = s.ready := by
  unfold ReadyToRun Append Insert
  simp only
  split_ifs
  · right
    rfl
  · left
    simp only [stateOf, Scheduler.ready]
    rw [← List.append_assoc]
    exact List.perm_append_singleton _ _
  · right
    rfl
  · left
    simp only [stateOf, Scheduler.ready]
    rw [List.perm_iff_count]
    intro a
    have k := (insertSorted_perm (compare_L2 (setWaiting (setStatus s.threads thread
      ThreadStatus.READY) thread now)) thread s.readyList_L2).count_eq a
    simp only [List.count_append, List.count_cons] at k ⊢
    omega
  · right
    rfl
  · left
    simp only [stateOf, Scheduler.ready]
    rw [List.perm_iff_count]
    intro a
    have k := (insertSorted_perm (compare_L1 (setWaiting (setStatus s.threads thread
      ThreadStatus.READY) thread now)) thread s.readyList_L1).count_eq a
    simp only [List.count_append, List.count_cons] at k ⊢
    omega
  · right
    rfl

theorem FindNextToRun_ready (s : Scheduler) :
    ((FindNextToRun s).1 = none ∧ (FindNextToRun s).2.ready = s.ready) ∨
    ∃ t, (FindNextToRun s).1 = some t ∧ s.ready.Perm (t :: (FindNextToRun s).2.ready) := by
  unfold FindNextToRun
  cases h1 : s.readyList_L1 with
  | cons a l1 =>
    right
    exact ⟨a, rfl, by simp [Scheduler.ready, h1]⟩
  | nil =>
    cases h2 : s.readyList_L2 with
    | cons a l2 =>
      right
      exact ⟨a, rfl, by simp [Scheduler.ready, h1, h2]⟩
    | nil =>
      cases h3 : s.readyList_L3 with
      | cons a l3 =>
        right
        exact ⟨a, rfl, by simp [Scheduler.ready, h1, h2, h3]⟩
      | nil =>
        left
        exact ⟨rfl, rfl⟩

/-- C13: let no thread occur in more than one ready list or twice in one.
The same holds after `ReadyToRun` of a thread that is in no ready list, after
`UpdateQueues` (which returns normally and leaves the threads in the three
lists, taken together, the same) and after `FindNextToRun`, and the thread
returned by `FindNextToRun` was ready before and is in no list afterwards. -/
theorem ready_nodup_preserved (up : Thread → Int → Thread) (s : Scheduler)
    (thread : ThreadPtr) (now time : Int) (hnd : s.ready.Nodup) :
    (thread ∉ s.ready → (stateOf (ReadyToRun s thread now)).ready.Nodup) ∧
    (∃ s1, UpdateQueues up s time = some s1 ∧ s1.ready.Nodup ∧
      s1.ready.Perm s.ready ∧ ∀ t, t ∈ s1.ready ↔ t ∈ s.ready) ∧
    (FindNextToRun s).2.ready.Nodup ∧
    (∀ t, (FindNextToRun s).1 = some t → t ∈ s.ready ∧ t ∉ (FindNextToRun s).2.ready) := by
  refine ⟨fun hnot => ?_, ?_, ?_, ?_⟩
  · rcases ReadyToRun_ready s thread now with h | h
    · exact h.nodup_iff.mpr (List.nodup_cons.mpr ⟨hnot, hnd⟩)
    · rw [h]; exact hnd
  · obtain ⟨s1, hs1, he⟩ := UpdateQueues_effect up s time hnd
    exact ⟨s1, hs1, he.perm.nodup_iff.mpr hnd, he.perm, fun t => he.perm.mem_iff⟩
  · rcases FindNextToRun_ready s with ⟨_, h⟩ | ⟨t, _, h⟩
    · rw [h]; exact hnd
    · exact (List.nodup_cons.mp (h.nodup_iff.mp hnd)).2
  · intro t ht
    rcases FindNextToRun_ready s with ⟨h0, _⟩ | ⟨u, hu, h⟩
    · rw [h0] at ht; cases ht
    · rw [hu] at ht
      cases ht
      exact ⟨h.mem_iff.mpr (List.mem_cons_self _ _),
        (List.nodup_cons.mp (h.nodup_iff.mp hnd)).1⟩

theorem ready_nodup_preserved_witness :
    crossReadied.ready = [3, 2, 1] ∧
    (stateOf (ReadyToRun crossReadied 7 5)).ready.Nodup ∧
    (∃ s1, UpdateQueues demoAging crossReadied 1500 = some s1 ∧ s1.ready.Nodup ∧
      s1.ready.Perm crossReadied.ready) ∧
    (FindNextToRun crossReadied).1 = some 3 ∧ 3 ∉ (FindNextToRun crossReadied).2.ready := by
  have h := ready_nodup_preserved demoAging crossReadied 7 5 1500 (by decide!)
  obtain ⟨s1, hs1, hn, hp, _⟩ := h.2.1
  exact ⟨by decide!, h.1 (by decide!), ⟨s1, hs1, hn, hp⟩, rfl, (h.2.2.2 3 rfl).2⟩

/-! ## Order and priorities across UpdateQueues -/

theorem demoAging_monotone : AgingMonotone demoAging := by
  intro th time
  unfold demoAging
  split_ifs
  · simp only; omega
  · exact le_refl _

/-- C14: in a state where no thread is queued twice, let L2 be in descending
order of priority and let the aging function never lower a priority.  Then
`UpdateQueues` returns normally and L2 is again in descending order of
priority, by the priorities after the call. -/
theorem UpdateQueues_keeps_L2_sorted (up : Thread → Int → Thread) (s : Scheduler)
    (time : Int) (hnd : s.ready.Nodup) (hmono : AgingMonotone up)
    (hsorted : s.readyList_L2.Pairwise
      (fun a b => (s.threads b).priority ≤ (s.threads a).priority)) :
    ∃ s1, UpdateQueues up s time = some s1 ∧
      s1.readyList_L2.Pairwise (fun a b => (s1.threads b).priority ≤ (s1.threads a).priority) := by
  obtain ⟨s1, hs1, he⟩ := UpdateQueues_effect up s time hnd
  refine ⟨s1, hs1, he.sorted_L2 ?_⟩
  refine hsorted.imp_of_mem ?_
  intro a b ha _ hab hb
  have hq : s1.threads a = up (s.threads a) time :=
    he.threads_queued a ((ready_mem s a).mpr (Or.inr (Or.inl ha)))
  have := hmono (s.threads a) time
  rw [← hq] at this
  omega

theorem UpdateQueues_keeps_L2_sorted_witness :
    orderReadied.readyList_L2 = [1, 2, 3] ∧
    ∃ s1, UpdateQueues demoAging orderReadied 1500 = some s1 ∧
      s1.readyList_L2 = [2, 3] ∧
      s1.readyList_L2.Pairwise (fun a b => (s1.threads b).priority ≤ (s1.threads a).priority) := by
  obtain ⟨s1, hs1, h⟩ := UpdateQueues_keeps_L2_sorted demoAging orderReadied 1500
    (by decide!) demoAging_monotone (by decide!)
  have he : s1 = orderAged := by
    rw [orderAged_eq] at hs1; exact (Option.some.inj hs1).symm
  subst he
  exact ⟨by decide!, orderAged, hs1, by decide!, h⟩

/-- C17: in a state where no thread is queued twice, let the aging function
never lower a priority.  `UpdateQueues` returns normally, applies the aging
function exactly once to the object of every queued thread, leaves every other
thread object alone and keeps the same threads queued; so no priority is lower
after the call than before it. -/
theorem UpdateQueues_priority_monotone (up : Thread → Int → Thread) (s : Scheduler)
    (time : Int) (hnd : s.ready.Nodup) (hmono : AgingMonotone up) :
    ∃ s1, UpdateQueues up s time = some s1 ∧
      (∀ t ∈ s.ready, s1.threads t = up (s.threads t) time) ∧
      (∀ t, t ∉ s.ready → s1.threads t = s.threads t) ∧
      (∀ t, t ∈ s1.ready ↔ t ∈ s.ready) ∧
      (∀ t, (s.threads t).priority ≤ (s1.threads t).priority) := by
  obtain ⟨s1, hs1, he⟩ := UpdateQueues_effect up s time hnd
  refine ⟨s1, hs1, he.threads_queued, he.threads_other, fun t => he.perm.mem_iff, ?_⟩
  intro t
  by_cases ht : t ∈ s.ready
  · rw [he.threads_queued t ht]; exact hmono _ _
  · rw [he.threads_other t ht]

theorem UpdateQueues_priority_monotone_witness :
    ∃ s1, UpdateQueues demoAging crossReadied 1500 = some s1 ∧
      (crossReadied.threads 1).priority = 45 ∧ (s1.threads 1).priority = 55 ∧
      (crossReadied.threads 1).priority ≤ (s1.threads 1).priority := by
  obtain ⟨s1, hs1, _, _, _, h⟩ :=
    UpdateQueues_priority_monotone demoAging crossReadied 1500 (by decide!)
      demoAging_monotone
  have he : s1 = crossAged := by
    rw [crossAged_eq] at hs1; exact (Option.some.inj hs1).symm
  subst he
  exact ⟨crossAged, hs1, by decide!, by decide!, h 1⟩

/-- C18: in a state where no thread is queued twice, `UpdateQueues` returns
normally and does not reorder L1: the old L1 is a sublist of the new one (its
threads are all there, in the same relative order, with their priorities
recomputed), the threads that are new in L1 come from L2 with a recomputed
priority of 100 or more, and when the aging function leaves the remaining
burst times alone and L1 was in ascending order of remaining burst time, it
is so again, the promoted threads included. -/
theorem UpdateQueues_keeps_L1_order (up : Thread → Int → Thread) (s : Scheduler)
    (time : Int) (hnd : s.ready.Nodup) :
    ∃ s1, UpdateQueues up s time = some s1 ∧
      s.readyList_L1.Sublist s1.readyList_L1 ∧
      (∀ t ∈ s.readyList_L1, s1.threads t = up (s.threads t) time) ∧
      (∀ t ∈ s1.readyList_L1, t ∉ s.readyList_L1 →
        t ∈ s.readyList_L2 ∧ 100 ≤ (s1.threads t).priority) ∧
      ((∀ t ∈ s.ready,
          (up (s.threads t) time).remainingBurstTime = (s.threads t).remainingBurstTime) →
        s.readyList_L1.Pairwise (fun a b =>
          (s.threads a).remainingBurstTime ≤ (s.threads b).remainingBurstTime) →
        s1.readyList_L1.Pairwise (fun a b =>
          (s1.threads a).remainingBurstTime ≤ (s1.threads b).remainingBurstTime)) := by
  obtain ⟨s1, hs1, he⟩ := UpdateQueues_effect up s time hnd
  have hin : ∀ t ∈ s.readyList_L1, t ∈ s.ready :=
    fun t ht => (ready_mem s t).mpr (Or.inl ht)
  refine ⟨s1, hs1, he.sublist_L1, fun t ht => he.threads_queued t (hin t ht), ?_, ?_⟩
  · intro t ht hnot
    rcases (he.mem_L1 t).mp ht with h | ⟨h2, hp, _⟩
    · exact absurd h hnot
    · exact ⟨h2, hp⟩
  · intro hburst hsorted
    refine he.sorted_L1 (hsorted.imp_of_mem ?_)
    intro a b ha hb hab
    rw [he.threads_queued a (hin a ha), he.threads_queued b (hin b hb),
      hburst a (hin a ha), hburst b (hin b hb)]
    exact hab

theorem UpdateQueues_keeps_L1_order_witness :
    crossReadied.readyList_L1 = [3] ∧
    ∃ s1, UpdateQueues demoAging crossReadied 1500 = some s1 ∧
      s1.readyList_L1 = [3, 2] ∧ crossReadied.readyList_L1.Sublist s1.readyList_L1 ∧
      s1.readyList_L1.Pairwise (fun a b =>
        (s1.threads a).remainingBurstTime ≤ (s1.threads b).remainingBurstTime) := by
  obtain ⟨s1, hs1, hsub, _, _, hsort⟩ :=
    UpdateQueues_keeps_L1_order demoAging crossReadied 1500 (by decide!)
  have he : s1 = crossAged := by
    rw [crossAged_eq] at hs1; exact (Option.some.inj hs1).symm
  subst he
  refine ⟨by decide!, crossAged, hs1, by decide!, hsub, hsort ?_ (by decide!)⟩
  intro t _
  unfold demoAging
  split_ifs <;> rfl


/-! ## ReadyToRun followed by FindNextToRun -/

/-- C15: for a thread with priority in `[0,150)` and a scheduler whose three
ready lists are empty, `ReadyToRun` followed by `FindNextToRun` returns that
thread and leaves the three lists empty. -/
theorem ReadyToRun_FindNextToRun_roundtrip (s : Scheduler) (thread : ThreadPtr) (now : Int)
    (h0 : 0 ≤ (s.threads thread).priority) (h150 : (s.threads thread).priority < 150)
    (h1 : s.readyList_L1 = []) (h2 : s.readyList_L2 = []) (h3 : s.readyList_L3 = []) :
    ∃ s1, ReadyToRun s thread now = Except.ok s1 ∧
      (FindNextToRun s1).1 = some thread ∧
      (FindNextToRun s1).2.readyList_L1 = [] ∧ (FindNextToRun s1).2.readyList_L2 = [] ∧
      (FindNextToRun s1).2.readyList_L3 = [] := by
  have hp := setWaiting_setStatus_priority s.threads thread thread ThreadStatus.READY now
  rw [ReadyToRun_of_not_mem s thread now (fun _ _ => by rw [h3]; exact List.not_mem_nil _)
    (fun _ _ => by rw [h2]; exact List.not_mem_nil _)
    (fun _ _ => by rw [h1]; exact List.not_mem_nil _)]
  simp only [hp]
  by_cases h50 : (s.threads thread).priority < 50
  · rw [if_pos ⟨h0, h50⟩]
    refine ⟨_, rfl, ?_⟩
    simp [FindNextToRun, h1, h2, h3]
  · rw [if_neg (fun h => h50 h.2)]
    by_cases h100 : (s.threads thread).priority < 100
    · rw [if_pos ⟨by omega, h100⟩]
      refine ⟨_, rfl, ?_⟩
      simp [FindNextToRun, h1, h2, h3, insertSorted]
    · rw [if_neg (fun h => h100 h.2), if_pos ⟨by omega, h150⟩]
      refine ⟨_, rfl, ?_⟩
      simp [FindNextToRun, h1, h2, h3, insertSorted]

theorem ReadyToRun_FindNextToRun_roundtrip_witness :
    ∃ s1, ReadyToRun demoInit 2 0 = Except.ok s1 ∧ (FindNextToRun s1).1 = some 2 ∧
      (FindNextToRun s1).2.readyList_L1 = [] ∧ (FindNextToRun s1).2.readyList_L2 = [] ∧
      (FindNextToRun s1).2.readyList_L3 = [] :=
  ReadyToRun_FindNextToRun_roundtrip demoInit 2 0 (by decide) (by decide) rfl rfl rfl

/-- C16: let `ToYield` return true while the current layer is 1, the running
thread being in no ready list.  When the running thread is then put back with
`ReadyToRun`, with a remaining burst time that is at least its remaining burst
time at dispatch minus the ticks it ran and with a priority in `[100,150)`,
L1 and the objects of its threads being as they were, the next `FindNextToRun`
returns the former head of L1, which is not the preempted thread. -/
theorem preempted_requeued_behind_head (s : Scheduler) (now : Int)
    (hl : s.currentLayer = 1) (hy : ToYield s now = true)
    (hc : s.currentThread ∉ s.readyList_L1)
    (s2 : Scheduler) (now2 : Int)
    (hq : s2.readyList_L1 = s.readyList_L1)
    (hth : ∀ t ∈ s.readyList_L1, s2.threads t = s.threads t)
    (hb : (s.threads s.currentThread).remainingBurstTime -
        ((now - s.threadStartTick : Int) : ℚ) ≤
      (s2.threads s.currentThread).remainingBurstTime)
    (hp : 100 ≤ (s2.threads s.currentThread).priority ∧
      (s2.threads s.currentThread).priority < 150) :
    ∃ head rest s3, s.readyList_L1 = head :: rest ∧
      ReadyToRun s2 s.currentThread now2 = Except.ok s3 ∧
      (FindNextToRun s3).1 = some head ∧ head ≠ s.currentThread := by
  -- what ToYield has seen
  unfold ToYield at hy
  simp only [RunTime] at hy
  rw [if_neg (by omega), if_neg (by omega), if_neg (by omega)] at hy
  have hcond : ¬ (s.readyList_L1 = []) ∧
      (match s.readyList_L1 with
        | [] => 0
        | front :: _ => truncToInt (s.threads front).remainingBurstTime) <
      truncToInt ((s.threads s.currentThread).remainingBurstTime -
        ((now - s.threadStartTick : Int) : ℚ)) := by
    by_contra hno
    rw [if_neg (fun h => hno h.2)] at hy
    cases hy
  obtain ⟨hne, hlt⟩ := hcond
  cases hL : s.readyList_L1 with
  | nil => exact absurd hL hne
  | cons head rest =>
    rw [hL] at hlt
    simp only at hlt
    have hhead : head ∈ s.readyList_L1 := by rw [hL]; exact List.mem_cons_self _ _
    have hnec : head ≠ s.currentThread := fun e => hc (e ▸ hhead)
    -- the head has strictly less remaining time than the thread put back
    have hless : (s.threads head).remainingBurstTime <
        (s2.threads s.currentThread).remainingBurstTime := by
      by_contra hge
      have h1 := truncToInt_mono (le_trans hb (not_lt.mp hge))
      omega
    have hpr := setWaiting_setStatus_priority s2.threads s.currentThread s.currentThread
      ThreadStatus.READY now2
    have hbr := setWaiting_setStatus_burst s2.threads s.currentThread
    have hins : ¬ compare_L1 (setWaiting (setStatus s2.threads s.currentThread
        ThreadStatus.READY) s.currentThread now2) s.currentThread head < 0 := by
      rw [compare_L1_neg, hbr, hbr, hth head hhead]
      exact not_lt.mpr hless.le
    have hr : ∃ s3, ReadyToRun s2 s.currentThread now2 = Except.ok s3 ∧
        s3.readyList_L1 = insertSorted (compare_L1 (setWaiting (setStatus s2.threads s.currentThread
          ThreadStatus.READY) s.currentThread now2)) s.currentThread s2.readyList_L1 := by
      rw [ReadyToRun_of_not_mem s2 s.currentThread now2 (fun _ h => absurd h (by omega))
        (fun _ h => absurd h (by omega)) (fun _ _ => by rw [hq]; exact hc)]
      simp only [hpr]
      rw [if_neg (by omega), if_neg (by omega), if_pos hp]
      exact ⟨_, rfl, rfl⟩
    obtain ⟨s3, hr3, hl3⟩ := hr
    refine ⟨head, rest, s3, rfl, hr3, ?_, hnec⟩
    rw [hq, hL, insertSorted, if_neg hins] at hl3
    simp only [FindNextToRun, hl3]

theorem preempted_requeued_behind_head_witness :
    ToYield (yieldState 1 4 2) 1 = true ∧
    ∃ s3, ReadyToRun (yieldState 1 4 2) 0 1 = Except.ok s3 ∧
      (FindNextToRun s3).1 = some 1 := by
  obtain ⟨head, rest, s3, hL, hr, hf, _⟩ :=
    preempted_requeued_behind_head (yieldState 1 4 2) 1 rfl (by decide!) (by decide!)
      (yieldState 1 4 2) 1 rfl (fun _ _ => rfl) (by decide!) (by decide!)
  have hh : head = 1 := by
    have : (yieldState 1 4 2).readyList_L1 = [1] := rfl
    rw [this] at hL
    exact ((List.cons.inj hL).1).symm
  subst hh
  exact ⟨by decide!, s3, hr, hf⟩

/-- C19: for a thread that is in no ready list, with priority in `[0,150)`, and
every tick `now`, `ReadyToRun` returns normally and afterwards the status of
the thread is `READY` and its waiting tick is `now`. -/
theorem ReadyToRun_sets_status (s : Scheduler) (thread : ThreadPtr) (now : Int)
    (hfresh : thread ∉ s.ready)
    (h0 : 0 ≤ (s.threads thread).priority) (h150 : (s.threads thread).priority < 150) :
    ∃ s1, ReadyToRun s thread now = Except.ok s1 ∧
      (s1.threads thread).status = ThreadStatus.READY ∧ (s1.threads thread).waiting = now := by
  have hp := setWaiting_setStatus_priority s.threads thread thread ThreadStatus.READY now
  have hst : (setWaiting (setStatus s.threads thread ThreadStatus.READY) thread now
      thread).status = ThreadStatus.READY := by simp [setWaiting, setStatus]
  have hw : (setWaiting (setStatus s.threads thread ThreadStatus.READY) thread now
      thread).waiting = now := by simp [setWaiting, setStatus]
  rw [ReadyToRun_of_fresh s thread now hfresh]
  simp only [hp]
  by_cases h50 : (s.threads thread).priority < 50
  · rw [if_pos ⟨h0, h50⟩]
    exact ⟨_, rfl, hst, hw⟩
  · rw [if_neg (fun h => h50 h.2)]
    by_cases h100 : (s.threads thread).priority < 100
    · rw [if_pos ⟨by omega, h100⟩]
      exact ⟨_, rfl, hst, hw⟩
    · rw [if_neg (fun h => h100 h.2), if_pos ⟨by omega, h150⟩]
      exact ⟨_, rfl, hst, hw⟩

theorem ReadyToRun_sets_status_witness :
    (demoInit.threads 3).status = ThreadStatus.BLOCKED ∧
    ∃ s1, ReadyToRun demoInit 3 42 = Except.ok s1 ∧
      (s1.threads 3).status = ThreadStatus.READY ∧ (s1.threads 3).waiting = 42 :=
  ⟨rfl, ReadyToRun_sets_status demoInit 3 42 (by decide) (by decide) (by decide)⟩

/-- C20: a call of `ToYield` leaves the scheduler state (the three ready
lists, the current layer, the start tick, the pending reclaim and every thread
object) as it was, and a second call on the same state and tick returns the
same value.  The value depends only on the current layer, the start tick, L1,
whether L2 is empty, and the remaining burst times: two states that agree on
these give the same answer. -/
theorem ToYield_no_side_effect (s s2 : Scheduler) (now : Int) :
    (ToYieldCall s now).2 = s ∧
    (ToYieldCall (ToYieldCall s now).2 now).1 = (ToYieldCall s now).1 ∧
    (s2.currentLayer = s.currentLayer → s2.threadStartTick = s.threadStartTick →
      s2.currentThread = s.currentThread → s2.readyList_L1 = s.readyList_L1 →
      (s2.readyList_L2 = [] ↔ s.readyList_L2 = []) →
      (∀ t, (s2.threads t).remainingBurstTime = (s.threads t).remainingBurstTime) →
      (ToYieldCall s2 now).1 = (ToYieldCall s now).1) := by
  refine ⟨rfl, rfl, ?_⟩
  intro hl hs hc h1 h2 hb
  simp only [ToYieldCall, ToYield, RunTime, hl, hs, hc, h1, h2, hb]

theorem ToYield_no_side_effect_witness :
    (ToYieldCall (yieldState 1 4 2) 1).2.readyList_L1 = [1] ∧
    (ToYieldCall (yieldState 1 4 2) 1).1 = true ∧
    (ToYieldCall { yieldState 1 4 2 with readyList_L3 := [5], toBeDestroyed := some 9 } 1).1
      = true := by
  have h := ToYield_no_side_effect (yieldState 1 4 2)
    { yieldState 1 4 2 with readyList_L3 := [5], toBeDestroyed := some 9 } 1
  have hv : (ToYieldCall (yieldState 1 4 2) 1).1 = true := by decide!
  refine ⟨by rw [h.1]; rfl, hv, ?_⟩
  rw [h.2.2 rfl rfl rfl rfl Iff.rfl (fun _ => rfl)]
  exact hv

/-! ## Run up to the context switch -/

/-- C23: `Run` with `finishing` set and no thread pending records the outgoing
thread (the current thread at entry) in `toBeDestroyed`; with a thread already
pending it fails on its assertion and returns no state, so the pending thread
is never overwritten; with `finishing` unset it reaches the context switch with
`toBeDestroyed` as it was.  `CheckToBeDestroyed` empties the slot. -/
theorem RunToSwitch_toBeDestroyed (s : Scheduler) (nextThread : ThreadPtr) (now : Int) :
    (s.toBeDestroyed = none →
      ∃ s1, RunToSwitch s nextThread true now = some s1 ∧
        s1.toBeDestroyed = some s.currentThread) ∧
    (s.toBeDestroyed ≠ none → RunToSwitch s nextThread true now = none) ∧
    (∃ s1, RunToSwitch s nextThread false now = some s1 ∧
      s1.toBeDestroyed = s.toBeDestroyed) ∧
    (CheckToBeDestroyed s).toBeDestroyed = none := by
  refine ⟨fun h => ?_, fun h => ?_, ?_, ?_⟩
  · simp [RunToSwitch, h]
  · simp [RunToSwitch, h]
  · simp [RunToSwitch]
  · unfold CheckToBeDestroyed
    cases h : s.toBeDestroyed <;> simp [h]

theorem RunToSwitch_toBeDestroyed_witness :
    (∃ s1, RunToSwitch (idleState 3) 1 true 5 = some s1 ∧ s1.toBeDestroyed = some 0 ∧
      RunToSwitch s1 2 true 6 = none ∧
      ∃ s2, RunToSwitch s1 2 false 6 = some s2 ∧ s2.toBeDestroyed = some 0) := by
  obtain ⟨s1, h1, h2⟩ := (RunToSwitch_toBeDestroyed (idleState 3) 1 5).1 rfl
  have hne : s1.toBeDestroyed ≠ none := by rw [h2]; simp
  obtain ⟨s2, h3, h4⟩ := (RunToSwitch_toBeDestroyed s1 2 6).2.2.1
  exact ⟨s1, h1, h2, (RunToSwitch_toBeDestroyed s1 2 6).2.1 hne, s2, h3, by rw [h4, h2]; rfl⟩

/-- C24: whenever `Run` reaches the context switch (that is, unless
`finishing` is set while a thread is pending reclamation), at that moment the
current thread is `nextThread`, the status of `nextThread` is `RUNNING` and the
start tick is the current tick, so that `RunTime` is 0. -/
theorem RunToSwitch_bookkeeping (s : Scheduler) (nextThread : ThreadPtr) (finishing : Bool)
    (now : Int) (h : finishing = true → s.toBeDestroyed = none) :
    ∃ s1, RunToSwitch s nextThread finishing now = some s1 ∧
      s1.currentThread = nextThread ∧
      (s1.threads nextThread).status = ThreadStatus.RUNNING ∧
      s1.threadStartTick = now ∧ RunTime s1 now = 0 := by
  cases finishing with
  | false => simp [RunToSwitch, RunTime, setStatus]
  | true => simp [RunToSwitch, RunTime, setStatus, h rfl]

theorem RunToSwitch_bookkeeping_witness :
    ∃ s1, RunToSwitch demoReadied 3 false 7 = some s1 ∧ s1.currentThread = 3 ∧
      (s1.threads 3).status = ThreadStatus.RUNNING ∧ s1.threadStartTick = 7 ∧
      RunTime s1 7 = 0 :=
  RunToSwitch_bookkeeping demoReadied 3 false 7 (fun h => by cases h)

/-! ## Preemption and the next thread -/

/-- C28: when `ToYield` returns true with less than 100 ticks run,
`FindNextToRun` on the same state returns a thread, taken from a layer
strictly above the current one or from L1 when the current layer is 1; and
when `ToYield` returns true while the three ready lists are empty, the current
layer is 3 and at least 100 ticks have run. -/
theorem ToYield_next_thread (s : Scheduler) (now : Int) (hy : ToYield s now = true) :
    (RunTime s now < 100 →
      ∃ t rest, (FindNextToRun s).1 = some t ∧
        ((s.readyList_L1 = t :: rest ∧ (FindNextToRun s).2.currentLayer = 1 ∧
            1 ≤ s.currentLayer) ∨
         (s.readyList_L1 = [] ∧ s.readyList_L2 = t :: rest ∧
            (FindNextToRun s).2.currentLayer = 2 ∧ s.currentLayer = 3))) ∧
    (s.readyList_L1 = [] → s.readyList_L2 = [] → s.readyList_L3 = [] →
      s.currentLayer = 3 ∧ 100 ≤ RunTime s now) := by
  unfold ToYield at hy
  constructor
  · intro hrun
    rw [if_neg (by omega)] at hy
    cases h1 : s.readyList_L1 with
    | cons t rest =>
      refine ⟨t, rest, by simp [FindNextToRun, h1], Or.inl ⟨rfl, by simp [FindNextToRun, h1], ?_⟩⟩
      by_contra hlay
      rw [if_neg (by omega), if_neg (by omega), if_neg (by omega)] at hy
      cases hy
    | nil =>
      simp only [h1, not_true_eq_false, and_false, false_and, if_false, true_and] at hy
      cases h2 : s.readyList_L2 with
      | cons t rest =>
        refine ⟨t, rest, by simp [FindNextToRun, h1, h2],
          Or.inr ⟨rfl, rfl, by simp [FindNextToRun, h1, h2], ?_⟩⟩
        by_contra hlay
        rw [if_neg (fun h => hlay h.1)] at hy
        cases hy
      | nil =>
        simp [h2] at hy
  · intro h1 h2 h3
    by_contra hno
    have hno1 : ¬ (s.currentLayer = 3 ∧ RunTime s now ≥ 100) := fun h => hno ⟨h.1, h.2⟩
    rw [if_neg hno1] at hy
    simp [h1, h2] at hy

theorem ToYield_next_thread_witness :
    ToYield (yieldState 3 4 2) 1 = true ∧
    (∃ t, (FindNextToRun (yieldState 3 4 2)).1 = some t) ∧
    ToYield (idleState 3) 100 = true ∧ (FindNextToRun (idleState 3)).1 = none ∧
    (idleState 3).currentLayer = 3 ∧ 100 ≤ RunTime (idleState 3) 100 := by
  have h1 : ToYield (yieldState 3 4 2) 1 = true := by decide!
  obtain ⟨t, _, ht, _⟩ := (ToYield_next_thread (yieldState 3 4 2) 1 h1).1 (by decide!)
  have h2 : ToYield (idleState 3) 100 = true := by decide!
  exact ⟨h1, ⟨t, ht⟩, h2, rfl, (ToYield_next_thread (idleState 3) 100 h2).2 rfl rfl rfl⟩


/-! ## Insertion order -/

theorem FindNextToRun_ready_eq (s : Scheduler) :
    ((FindNextToRun s).1 = none ∧ s.ready = []) ∨
    ∃ t, (FindNextToRun s).1 = some t ∧ s.ready = t :: (FindNextToRun s).2.ready := by
  unfold FindNextToRun
  cases h1 : s.readyList_L1 with
  | cons a l1 =>
    right
    exact ⟨a, rfl, by simp [Scheduler.ready, h1]⟩
  | nil =>
    cases h2 : s.readyList_L2 with
    | cons a l2 =>
      right
      exact ⟨a, rfl, by simp [Scheduler.ready, h1, h2]⟩
    | nil =>
      cases h3 : s.readyList_L3 with
      | cons a l3 =>
        right
        exact ⟨a, rfl, by simp [Scheduler.ready, h1, h2, h3]⟩
      | nil =>
        left
        exact ⟨rfl, by simp [Scheduler.ready, h1, h2, h3]⟩

theorem dispatchSequence_eq (n : Nat) (s : Scheduler) :
    dispatchSequence n s = s.ready.take n := by
  induction n generalizing s with
  | zero => simp [dispatchSequence]
  | succ n ih =>
    rcases FindNextToRun_ready_eq s with ⟨h0, hr⟩ | ⟨t, ht, hr⟩
    · rw [hr]
      unfold dispatchSequence
      generalize hf : FindNextToRun s = r at h0
      obtain ⟨r1, r2⟩ := r
      simp only at h0
      subst h0
      simp
    · rw [hr]
      unfold dispatchSequence
      generalize hf : FindNextToRun s = r at ht hr
      obtain ⟨r1, r2⟩ := r
      simp only at ht hr
      subst ht
      simp [ih]

theorem dispatchSequence_all (s : Scheduler) :
    dispatchSequence s.ready.length s = s.ready := by
  rw [dispatchSequence_eq, List.take_length]

/-- Insertion of the newest thread into a list that is in order with ties by
serial number: the list is so again. -/
theorem insertSorted_stamped {α : Type} [LinearOrder α] (cmp : ThreadPtr → ThreadPtr → Int)
    (key : ThreadPtr → α) (hcmp : ∀ x y, cmp x y < 0 ↔ key x < key y)
    (stamp : ThreadPtr → Nat) (t : ThreadPtr) (l : List ThreadPtr)
    (hnew : ∀ x ∈ l, stamp x < stamp t)
    (h : l.Pairwise (fun a b => key a ≤ key b ∧ (key a = key b → stamp a < stamp b))) :
    (insertSorted cmp t l).Pairwise
      (fun a b => key a ≤ key b ∧ (key a = key b → stamp a < stamp b)) := by
  induction l with
  | nil => simp [insertSorted]
  | cons x xs ih =>
    rw [List.pairwise_cons] at h
    unfold insertSorted
    by_cases hlt : cmp t x < 0
    · rw [if_pos hlt]
      have hkx : key t < key x := (hcmp t x).mp hlt
      rw [List.pairwise_cons]
      refine ⟨fun b hb => ?_, List.pairwise_cons.mpr h⟩
      have hxb : key x ≤ key b := by
        rcases List.mem_cons.mp hb with e | e
        · rw [e]
        · exact (h.1 b e).1
      have hlt2 : key t < key b := lt_of_lt_of_le hkx hxb
      exact ⟨hlt2.le, fun e => absurd e (ne_of_lt hlt2)⟩
    · rw [if_neg hlt]
      have hkx : key x ≤ key t := not_lt.mp (fun hk => hlt ((hcmp t x).mpr hk))
      rw [List.pairwise_cons]
      refine ⟨fun b hb => ?_, ih (fun y hy => hnew y (List.mem_cons_of_mem _ hy)) h.2⟩
      rcases (mem_insertSorted cmp t b xs).mp hb with e | e
      · rw [e]
        exact ⟨hkx, fun _ => hnew x (List.mem_cons_self _ _)⟩
      · exact h.1 b e

theorem sublist_pair_of_pairwise {R : ThreadPtr → ThreadPtr → Prop} (l : List ThreadPtr)
    (a b : ThreadPtr) (h : l.Pairwise R) (ha : a ∈ l) (hb : b ∈ l) (hne : a ≠ b)
    (hR : ¬ R b a) : [a, b].Sublist l := by
  induction l with
  | nil => simp at ha
  | cons x xs ih =>
    rw [List.pairwise_cons] at h
    rcases List.mem_cons.mp ha with e | e
    · subst e
      rcases List.mem_cons.mp hb with e2 | e2
      · exact absurd e2.symm hne
      · exact (List.singleton_sublist.mpr e2).cons₂ a
    · rcases List.mem_cons.mp hb with e2 | e2
      · subst e2
        exact absurd (h.1 a e) hR
      · exact (ih h.2 e e2).cons x

theorem ReadyToRun_ok_ready (s s1 : Scheduler) (thread : ThreadPtr) (now : Int)
    (hok : ReadyToRun s thread now = Except.ok s1) : s1.ready.Perm (thread :: s.ready) := by
  revert hok
  unfold ReadyToRun Append Insert
  simp only
  split_ifs <;> intro hok <;> cases hok
  · simp only [Scheduler.ready]
    rw [← List.append_assoc]
    exact List.perm_append_singleton _ _
  · simp only [Scheduler.ready]
    rw [List.perm_iff_count]
    intro a
    have k := (insertSorted_perm (compare_L2 (setWaiting (setStatus s.threads thread
      ThreadStatus.READY) thread now)) thread s.readyList_L2).count_eq a
    simp only [List.count_append, List.count_cons] at k ⊢
    omega
  · simp only [Scheduler.ready]
    rw [List.perm_iff_count]
    intro a
    have k := (insertSorted_perm (compare_L1 (setWaiting (setStatus s.threads thread
      ThreadStatus.READY) thread now)) thread s.readyList_L1).count_eq a
    simp only [List.count_append, List.count_cons] at k ⊢
    omega

theorem init_tieInvariant (threads : ThreadPtr → Thread) (currentThread : ThreadPtr)
    (now : Int) : TieInvariant (Scheduler.init threads currentThread now) (fun _ => 0) 0 := by
  refine ⟨?_, ?_, ?_, ?_, ?_⟩ <;> simp [Scheduler.init, Scheduler.ready]

theorem ReadyToRun_tieInvariant (s s1 : Scheduler) (enq : ThreadPtr → Nat) (n : Nat)
    (thread : ThreadPtr) (now : Int) (hinv : TieInvariant s enq n)
    (hnot : thread ∉ s.ready) (hok : ReadyToRun s thread now = Except.ok s1) :
    TieInvariant s1 (Function.update enq thread (n + 1)) (n + 1) := by
  obtain ⟨hnd, hs1, hs2, hf3, hst⟩ := hinv
  have hn1 : thread ∉ s.readyList_L1 := fun h => hnot ((ready_mem s _).mpr (Or.inl h))
  have hn2 : thread ∉ s.readyList_L2 := fun h => hnot ((ready_mem s _).mpr (Or.inr (Or.inl h)))
  have hn3 : thread ∉ s.readyList_L3 := fun h => hnot ((ready_mem s _).mpr (Or.inr (Or.inr h)))
  -- the ready threads afterwards
  have hperm : s1.ready.Perm (thread :: s.ready) := ReadyToRun_ok_ready s s1 thread now hok
  have henq : ∀ u, u ≠ thread → Function.update enq thread (n + 1) u = enq u :=
    fun u hu => Function.update_noteq hu _ _
  have hnewer : ∀ u ∈ s.ready,
      Function.update enq thread (n + 1) u < Function.update enq thread (n + 1) thread := by
    intro u hu
    rw [Function.update_same, henq u (fun e => hnot (e ▸ hu))]
    exact Nat.lt_succ_of_le (hst u hu)
  have hp := setWaiting_setStatus_priority s.threads thread
  have hb := setWaiting_setStatus_burst s.threads thread
  generalize hTdef : setWaiting (setStatus s.threads thread ThreadStatus.READY) thread now = T
  have hpT : ∀ u, (T u).priority = (s.threads u).priority := fun u => by
    rw [← hTdef]; exact hp u _ _
  have hbT : ∀ u, (T u).remainingBurstTime = (s.threads u).remainingBurstTime := fun u => by
    rw [← hTdef]; exact hb u _ _
  have h1' : s.readyList_L1.Pairwise (fun a b =>
      (T a).remainingBurstTime ≤ (T b).remainingBurstTime ∧
      ((T a).remainingBurstTime = (T b).remainingBurstTime →
        Function.update enq thread (n + 1) a < Function.update enq thread (n + 1) b)) :=
    hs1.imp_of_mem (fun {a b} ha hb hab => by
      rw [hbT a, hbT b, henq a (fun e => hn1 (e ▸ ha)), henq b (fun e => hn1 (e ▸ hb))]
      exact hab)
  have h2' : s.readyList_L2.Pairwise (fun a b =>
      -(T a).priority ≤ -(T b).priority ∧
      (-(T a).priority = -(T b).priority →
        Function.update enq thread (n + 1) a < Function.update enq thread (n + 1) b)) :=
    hs2.imp_of_mem (fun {a b} ha hb hab => by
      rw [hpT a, hpT b, henq a (fun e => hn2 (e ▸ ha)), henq b (fun e => hn2 (e ▸ hb))]
      exact hab)
  have h3' : s.readyList_L3.Pairwise
      (fun a b => Function.update enq thread (n + 1) a < Function.update enq thread (n + 1) b) :=
    hf3.imp_of_mem (fun {a b} ha hb hab => by
      rw [henq a (fun e => hn3 (e ▸ ha)), henq b (fun e => hn3 (e ▸ hb))]; exact hab)
  have hstamp : ∀ u ∈ s1.ready, Function.update enq thread (n + 1) u ≤ n + 1 := by
    intro u hu
    rcases List.mem_cons.mp (hperm.mem_iff.mp hu) with e | e
    · rw [e, Function.update_same]
    · exact (hnewer u e).le.trans (by rw [Function.update_same])
  have hnodup : s1.ready.Nodup := hperm.nodup_iff.mpr (List.nodup_cons.mpr ⟨hnot, hnd⟩)
  refine ⟨hnodup, ?_, ?_, ?_, hstamp⟩
  · -- L1
    revert hok
    rw [ReadyToRun_of_fresh s thread now hnot]
    simp only [hTdef]
    split_ifs <;> intro hok <;> cases hok
    · exact h1'
    · exact h1'
    · exact insertSorted_stamped (compare_L1 T) (fun t => (T t).remainingBurstTime)
        (compare_L1_neg T) _ thread s.readyList_L1
        (fun x hx => hnewer x ((ready_mem s x).mpr (Or.inl hx))) h1'
  · -- L2
    revert hok
    rw [ReadyToRun_of_fresh s thread now hnot]
    simp only [hTdef]
    split_ifs <;> intro hok <;> cases hok
    · exact h2'
    · exact insertSorted_stamped (compare_L2 T) (fun t => -(T t).priority)
        (compare_L2_neg T) _ thread s.readyList_L2
        (fun x hx => hnewer x ((ready_mem s x).mpr (Or.inr (Or.inl hx)))) h2'
    · exact h2'
  · -- L3
    revert hok
    rw [ReadyToRun_of_fresh s thread now hnot]
    simp only [hTdef]
    split_ifs <;> intro hok <;> cases hok
    · show ((s.readyList_L3 ++ [thread])).Pairwise _
      rw [List.pairwise_append]
      refine ⟨h3', List.pairwise_singleton _ _, ?_⟩
      intro a ha b hb1
      rw [List.mem_singleton] at hb1
      rw [hb1]
      exact hnewer a ((ready_mem s a).mpr (Or.inr (Or.inr ha)))
    · exact h3'
    · exact h3'


theorem FindNextToRun_lists (s : Scheduler) :
    (FindNextToRun s).2.threads = s.threads ∧
    (FindNextToRun s).2.readyList_L1.Sublist s.readyList_L1 ∧
    (FindNextToRun s).2.readyList_L2.Sublist s.readyList_L2 ∧
    (FindNextToRun s).2.readyList_L3.Sublist s.readyList_L3 := by
  unfold FindNextToRun
  cases h1 : s.readyList_L1 with
  | cons a l1 =>
    exact ⟨rfl, List.sublist_cons_self _ _, List.Sublist.refl _, List.Sublist.refl _⟩
  | nil =>
    cases h2 : s.readyList_L2 with
    | cons a l2 =>
      exact ⟨rfl, by simp [h1], List.sublist_cons_self _ _, List.Sublist.refl _⟩
    | nil =>
      cases h3 : s.readyList_L3 with
      | cons a l3 =>
        exact ⟨rfl, by simp [h1], by simp [h2], List.sublist_cons_self _ _⟩
      | nil =>
        exact ⟨rfl, by simp [h1], by simp [h2], by simp [h3]⟩

theorem FindNextToRun_tieInvariant (s : Scheduler) (enq : ThreadPtr → Nat) (n : Nat)
    (hinv : TieInvariant s enq n) : TieInvariant (FindNextToRun s).2 enq n := by
  obtain ⟨hnd, hs1, hs2, hf3, hst⟩ := hinv
  obtain ⟨hth, l1, l2, l3⟩ := FindNextToRun_lists s
  have hsub : (FindNextToRun s).2.ready.Sublist s.ready := by
    rcases FindNextToRun_ready_eq s with ⟨_, h⟩ | ⟨t, _, h⟩
    · unfold Scheduler.ready at h ⊢
      exact (l1.append l2).append l3
    · rw [h]; exact List.sublist_cons_self _ _
  refine ⟨hnd.sublist hsub, ?_, ?_, hf3.sublist l3, fun t ht => hst t (hsub.subset ht)⟩
  · rw [hth]; exact hs1.sublist l1
  · rw [hth]; exact hs2.sublist l2

theorem kernel_tieInvariant (s s1 : Scheduler) (enq : ThreadPtr → Nat) (n : Nat)
    (hinv : TieInvariant s enq n)
    (h1 : s1.readyList_L1 = s.readyList_L1) (h2 : s1.readyList_L2 = s.readyList_L2)
    (h3 : s1.readyList_L3 = s.readyList_L3) (hth : ∀ t ∈ s.ready, s1.threads t = s.threads t) :
    TieInvariant s1 enq n := by
  obtain ⟨hnd, hs1, hs2, hf3, hst⟩ := hinv
  have hr : s1.ready = s.ready := by unfold Scheduler.ready; rw [h1, h2, h3]
  have m1 : ∀ t ∈ s.readyList_L1, s1.threads t = s.threads t := fun t ht =>
    hth t ((ready_mem s t).mpr (Or.inl ht))
  have m2 : ∀ t ∈ s.readyList_L2, s1.threads t = s.threads t := fun t ht =>
    hth t ((ready_mem s t).mpr (Or.inr (Or.inl ht)))
  refine ⟨by rw [hr]; exact hnd, ?_, ?_, by rw [h3]; exact hf3, by rw [hr]; exact hst⟩
  · rw [h1]
    exact hs1.imp_of_mem (fun {a b} ha hb hab => by rw [m1 a ha, m1 b hb]; exact hab)
  · rw [h2]
    exact hs2.imp_of_mem (fun {a b} ha hb hab => by rw [m2 a ha, m2 b hb]; exact hab)

theorem ReadiedAt_tieInvariant (s : Scheduler) (enq : ThreadPtr → Nat) (n : Nat)
    (hr : ReadiedAt s enq n) : TieInvariant s enq n := by
  induction hr with
  | init threads currentThread now => exact init_tieInvariant threads currentThread now
  | readyToRun thread now _ hnot hok ih =>
    exact ReadyToRun_tieInvariant _ _ _ _ thread now ih hnot hok
  | findNextToRun _ ih => exact FindNextToRun_tieInvariant _ _ _ ih
  | kernel _ h1 h2 h3 hth ih => exact kernel_tieInvariant _ _ _ _ ih h1 h2 h3 hth

theorem tieReadied_reachable : ReadiedAt tieReadied tieEnq 4 := by
  have r0 : ReadiedAt (Scheduler.init tieThreads 0 0) (fun _ => 0) 0 :=
    ReadiedAt.init tieThreads 0 0
  have r1 := ReadiedAt.readyToRun 3 0 r0 (by decide)
    (show ReadyToRun (Scheduler.init tieThreads 0 0) 3 0 =
      Except.ok (stateOf (readyAll [(3, 0)] (Scheduler.init tieThreads 0 0))) from rfl)
  have r2 := ReadiedAt.readyToRun 1 1 r1 (by decide)
    (show ReadyToRun _ 1 1 =
      Except.ok (stateOf (readyAll [(3, 0), (1, 1)] (Scheduler.init tieThreads 0 0))) from rfl)
  have r3 := ReadiedAt.readyToRun 4 2 r2 (by decide)
    (show ReadyToRun _ 4 2 =
      Except.ok (stateOf (readyAll [(3, 0), (1, 1), (4, 2)] (Scheduler.init tieThreads 0 0)))
      from rfl)
  exact ReadiedAt.readyToRun 2 3 r3 (by decide)
    (show ReadyToRun _ 2 3 = Except.ok tieReadied from rfl)

/-- C21: in every state reached from the empty scheduler by `ReadyToRun` calls
(of threads that are in no ready list) and `FindNextToRun` calls, let `a` and
`b` be two threads of L1 with equal remaining burst time, or two threads of L2
with equal priority, `a` readied before `b`.  Then successive `FindNextToRun`
calls return every ready thread once, and `a` before `b`. -/
theorem ties_in_insertion_order (s : Scheduler) (enq : ThreadPtr → Nat) (n : Nat)
    (hr : ReadiedAt s enq n) (a b : ThreadPtr) (hab : enq a < enq b)
    (htie : (a ∈ s.readyList_L1 ∧ b ∈ s.readyList_L1 ∧
        (s.threads a).remainingBurstTime = (s.threads b).remainingBurstTime) ∨
      (a ∈ s.readyList_L2 ∧ b ∈ s.readyList_L2 ∧
        (s.threads a).priority = (s.threads b).priority)) :
    (dispatchSequence s.ready.length s).Nodup ∧
    [a, b].Sublist (dispatchSequence s.ready.length s) := by
  have hinv := ReadiedAt_tieInvariant s enq n hr
  rw [dispatchSequence_all]
  refine ⟨hinv.nodup, ?_⟩
  have hne : a ≠ b := fun e => by rw [e] at hab; exact lt_irrefl _ hab
  rcases htie with ⟨ha, hb, hk⟩ | ⟨ha, hb, hk⟩
  · have h := sublist_pair_of_pairwise s.readyList_L1 a b hinv.tie1 ha hb hne
      (fun hR => by have := hR.2 hk.symm; omega)
    unfold Scheduler.ready
    exact (h.trans (List.sublist_append_left _ _)).trans (List.sublist_append_left _ _)
  · have h := sublist_pair_of_pairwise s.readyList_L2 a b hinv.tie2 ha hb hne
      (fun hR => by have := hR.2 (by rw [hk]); omega)
    unfold Scheduler.ready
    exact (h.trans (List.sublist_append_right _ _)).trans (List.sublist_append_left _ _)

theorem ties_in_insertion_order_witness :
    tieReadied.readyList_L1 = [1, 2] ∧ tieReadied.readyList_L2 = [3, 4] ∧
    dispatchSequence 4 tieReadied = [1, 2, 3, 4] ∧
    [1, 2].Sublist (dispatchSequence tieReadied.ready.length tieReadied) ∧
    [3, 4].Sublist (dispatchSequence tieReadied.ready.length tieReadied) :=
  ⟨by decide!, by decide!, by decide!,
    (ties_in_insertion_order tieReadied tieEnq 4 tieReadied_reachable 1 2 (by decide)
      (Or.inl ⟨by decide!, by decide!, by decide!⟩)).2,
    (ties_in_insertion_order tieReadied tieEnq 4 tieReadied_reachable 3 4 (by decide)
      (Or.inr ⟨by decide!, by decide!, by decide!⟩)).2⟩

theorem ReadyToRun_tier3 (s : Scheduler) (thread : ThreadPtr) (now : Int)
    (hnew : thread ∉ s.readyList_L3)
    (h0 : 0 ≤ (s.threads thread).priority) (h50 : (s.threads thread).priority < 50) :
    ∃ s1, ReadyToRun s thread now = Except.ok s1 ∧
      s1.readyList_L1 = s.readyList_L1 ∧ s1.readyList_L2 = s.readyList_L2 ∧
      s1.readyList_L3 = s.readyList_L3 ++ [thread] ∧
      ∀ u, (s1.threads u).priority = (s.threads u).priority := by
  have hp := setWaiting_setStatus_priority s.threads thread
  rw [ReadyToRun_of_not_mem s thread now (fun _ _ => hnew) (fun h _ => absurd h (by omega))
    (fun h _ => absurd h (by omega))]
  simp only [hp]
  rw [if_pos ⟨h0, h50⟩]
  exact ⟨_, rfl, rfl, rfl, rfl, fun u => hp u _ _⟩

/-- C22: let L1 and L2 be empty and let a sequence of `ReadyToRun` calls be
made on distinct threads, none of them in L3 already, with priority in
`[0,50)`, whatever their priorities and remaining burst times.  Every call
returns normally, L1 and L2 are still empty, L3 is the old L3 followed by the
threads in the order of the calls, and successive `FindNextToRun` calls return
exactly this list, in this order. -/
theorem tier3_strict_fifo (calls : List (ThreadPtr × Int)) (s : Scheduler)
    (h1 : s.readyList_L1 = []) (h2 : s.readyList_L2 = [])
    (hnd : (calls.map Prod.fst).Nodup) (hnew : ∀ c ∈ calls, c.1 ∉ s.readyList_L3)
    (hp : ∀ c ∈ calls, 0 ≤ (s.threads c.1).priority ∧ (s.threads c.1).priority < 50) :
    ∃ s1, readyAll calls s = Except.ok s1 ∧
      s1.readyList_L1 = [] ∧ s1.readyList_L2 = [] ∧
      s1.readyList_L3 = s.readyList_L3 ++ calls.map Prod.fst ∧
      dispatchSequence (s.readyList_L3.length + calls.length) s1 =
        s.readyList_L3 ++ calls.map Prod.fst := by
  induction calls generalizing s with
  | nil =>
    refine ⟨s, rfl, h1, h2, by simp, ?_⟩
    have := dispatchSequence_all s
    simp only [Scheduler.ready, h1, h2, List.nil_append] at this
    simpa using this
  | cons c rest ih =>
    obtain ⟨t, now⟩ := c
    have hc := hp (t, now) (List.mem_cons_self _ _)
    rw [List.map_cons, List.nodup_cons] at hnd
    obtain ⟨s1, hok, e1, e2, e3, epr⟩ := ReadyToRun_tier3 s t now
      (hnew (t, now) (List.mem_cons_self _ _)) hc.1 hc.2
    obtain ⟨s2, hall, f1, f2, f3, fd⟩ := ih s1 (by rw [e1, h1]) (by rw [e2, h2]) hnd.2
      (fun c hcm hmem => by
        rw [e3] at hmem
        rcases List.mem_append.mp hmem with h | h
        · exact hnew c (List.mem_cons_of_mem _ hcm) h
        · rw [List.mem_singleton] at h
          exact hnd.1 (List.mem_map.mpr ⟨c, hcm, h⟩))
      (fun c hcm => by
        rw [epr]; exact hp c (List.mem_cons_of_mem _ hcm))
    refine ⟨s2, by simp only [readyAll, hok, hall], f1, f2, ?_, ?_⟩
    · rw [f3, e3]; simp
    · rw [e3] at fd
      have hlen : s.readyList_L3.length + ((t, now) :: rest).length =
          (s.readyList_L3 ++ [t]).length + rest.length := by
        simp only [List.length_append, List.length_cons, List.length_nil]
        omega
      rw [hlen, fd]
      simp

theorem tier3_strict_fifo_witness :
    ∃ s1, readyAll [(7, 0), (1, 3), (9, 3)] jumpInit = Except.ok s1 ∧
      s1.readyList_L3 = [7, 1, 9] ∧ dispatchSequence 3 s1 = [7, 1, 9] := by
  obtain ⟨s1, h, _, _, h3, hd⟩ := tier3_strict_fifo [(7, 0), (1, 3), (9, 3)] jumpInit rfl rfl
    (by decide) (by decide) (by decide!)
  exact ⟨s1, h, h3, hd⟩


/-! ## The stub file system -/

theorem countP_update_fill (f : Fin 20 → Option OpenFile) (i : Fin 20) (x : OpenFile)
    (hi : f i = none) (l : List (Fin 20)) (hl : l.Nodup) :
    l.countP (fun j => (Function.update f i (some x) j).isSome) =
      l.countP (fun j => (f j).isSome) + (if i ∈ l then 1 else 0) := by
  induction l with
  | nil => simp
  | cons a rest ih =>
    rw [List.nodup_cons] at hl
    rw [List.countP_cons, List.countP_cons, ih hl.2]
    by_cases ha : a = i
    · subst ha
      have hnot : a ∉ rest := hl.1
      simp [hi, hnot]
    · have hne : i ≠ a := fun e => ha e.symm
      simp only [Function.update_noteq ha, List.mem_cons, hne, false_or]
      omega

theorem countP_update_clear (f : Fin 20 → Option OpenFile) (i : Fin 20)
    (hi : (f i).isSome = true) (l : List (Fin 20)) (hl : l.Nodup) :
    l.countP (fun j => (Function.update f i none j).isSome) + (if i ∈ l then 1 else 0) =
      l.countP (fun j => (f j).isSome) := by
  induction l with
  | nil => simp
  | cons a rest ih =>
    rw [List.nodup_cons] at hl
    rw [List.countP_cons, List.countP_cons, ← ih hl.2]
    by_cases ha : a = i
    · subst ha
      have hnot : a ∉ rest := hl.1
      simp [hi, hnot]
    · have hne : i ≠ a := fun e => ha e.symm
      simp only [Function.update_noteq ha, List.mem_cons, hne, false_or]
      omega

theorem usedEntries_le (fs : FileSystem) : usedEntries fs ≤ 20 := by
  unfold usedEntries
  have h := List.countP_le_length (fun i => (fs.OpenFileTable i).isSome) (l := List.finRange 20)
  simpa using h

theorem usedEntries_full (fs : FileSystem) :
    usedEntries fs = 20 ↔ ∀ i, fs.OpenFileTable i ≠ none := by
  unfold usedEntries
  have hlen : (List.finRange 20).length = 20 := by simp
  constructor
  · intro h i hi
    have h2 : (List.finRange 20).countP (fun i => (fs.OpenFileTable i).isSome) =
        (List.finRange 20).length := by rw [h, hlen]
    rw [List.countP_eq_length] at h2
    have := h2 i (List.mem_finRange i)
    rw [hi] at this
    simp at this
  · intro h
    have h2 : (List.finRange 20).countP (fun i => (fs.OpenFileTable i).isSome) =
        (List.finRange 20).length := by
      rw [List.countP_eq_length]
      intro i _
      cases hv : fs.OpenFileTable i with
      | none => exact absurd hv (h i)
      | some v => rfl
    rw [h2, hlen]

/-- The search loop of `OpenAFile`: what it finds is the first empty entry. -/
theorem find_empty_spec (f : Fin 20 → Option OpenFile) (i : Fin 20)
    (h : (List.finRange 20).find? (fun i => f i = none) = some i) :
    f i = none ∧ ∀ j, j < i → f j ≠ none := by
  rw [List.find?_eq_some] at h
  obtain ⟨hp, as1, bs, hl, has⟩ := h
  refine ⟨by simpa using hp, fun j hj hnone => ?_⟩
  have hpw := List.pairwise_lt_finRange 20
  rw [hl, List.pairwise_append] at hpw
  have hjmem : j ∈ as1 ++ i :: bs := by rw [← hl]; exact List.mem_finRange j
  rcases List.mem_append.mp hjmem with hm | hm
  · have := has j hm
    simp [hnone] at this
  · rcases List.mem_cons.mp hm with e | e
    · rw [e] at hj; exact lt_irrefl _ hj
    · have := (List.pairwise_cons.mp hpw.2.1).1 j e
      exact lt_asymm hj this

theorem find_empty_exists (f : Fin 20 → Option OpenFile) (i : Fin 20) (hi : f i = none) :
    ∃ k, (List.finRange 20).find? (fun i => f i = none) = some k := by
  cases h : (List.finRange 20).find? (fun i => f i = none) with
  | some k => exact ⟨k, rfl⟩
  | none =>
    rw [List.find?_eq_none] at h
    have := h i (List.mem_finRange i)
    simp [hi] at this

/-- What a call `OpenAFile` does when the table is not marked full and the
host opens the file: it takes the first empty entry if there is one. -/
theorem OpenAFile_success (fs : FileSystem) (host : String → Int) (name : String)
    (hsize : fs.OpenFileTableSize ≠ 20) (hfd : host name ≠ -1)
    (k : Fin 20) (hk : fs.OpenFileTable k = none) :
    ∃ i : Fin 20, fs.OpenFileTable i = none ∧ (∀ j, j < i → fs.OpenFileTable j ≠ none) ∧
      OpenAFile fs host name =
        (some (i.val : Int),
          { OpenFileTable := Function.update fs.OpenFileTable i (some ⟨host name⟩),
            OpenFileTableSize := fs.OpenFileTableSize + 1 }) := by
  obtain ⟨i, hi⟩ := find_empty_exists fs.OpenFileTable k hk
  obtain ⟨h1, h2⟩ := find_empty_spec fs.OpenFileTable i hi
  refine ⟨i, h1, h2, ?_⟩
  unfold OpenAFile
  rw [if_neg hsize]
  simp only [if_neg hfd, hi]

theorem FsReachable_invariant (fs : FileSystem) (h : FsReachable fs) :
    fs.OpenFileTableSize = (usedEntries fs : Int) := by
  induction h with
  | init => simp [FileSystem.init, usedEntries]
  | @openAFile fs host name _ ih =>
    by_cases hsize : fs.OpenFileTableSize = 20
    · simp only [OpenAFile, if_pos hsize]; exact ih
    · by_cases hfd : host name = -1
      · simp only [OpenAFile, if_neg hsize, if_pos hfd]; exact ih
      · have hlt : usedEntries fs ≠ 20 := fun e => hsize (by rw [ih, e]; rfl)
        have hex : ∃ k, fs.OpenFileTable k = none := by
          by_contra hno
          exact hlt ((usedEntries_full fs).mpr (fun i hi => hno ⟨i, hi⟩))
        obtain ⟨k, hk⟩ := hex
        obtain ⟨i, hi, _, heq⟩ := OpenAFile_success fs host name hsize hfd k hk
        rw [heq]
        simp only [usedEntries]
        rw [countP_update_fill fs.OpenFileTable i _ hi _ (List.nodup_finRange 20)]
        simp only [List.mem_finRange, if_true]
        rw [ih]
        simp [usedEntries]
  | @closeFile fs id _ ih =>
    unfold CloseFile
    split
    · exact ih
    · rename_i hid
      split
      · exact ih
      · rename_i v hv
        simp only [usedEntries]
        have hc := countP_update_clear fs.OpenFileTable ⟨id.toNat, by omega⟩
          (by rw [hv]; rfl) _ (List.nodup_finRange 20)
        simp only [List.mem_finRange, if_true] at hc
        rw [ih]
        simp only [usedEntries]
        omega

theorem openMany_reachable (host : String → Int) (name : String) (n : Nat) (fs : FileSystem)
    (h : FsReachable fs) : FsReachable (openMany host name n fs).2 := by
  induction n generalizing fs with
  | zero => exact h
  | succ n ih => exact ih _ (FsReachable.openAFile host name h)

theorem fsFull_reachable : FsReachable fsFull :=
  openMany_reachable demoHost "file2.test" 30 FileSystem.init FsReachable.init

theorem fsHoles_reachable : FsReachable fsHoles :=
  FsReachable.closeFile 10 (FsReachable.closeFile 5 fsFull_reachable)


/-- C25: in every state reachable from the constructor, `OpenAFile` returns -1
and leaves the table and its size as they were whenever the twenty entries are
all in use or the host cannot open the file. -/
theorem OpenAFile_fails (fs : FileSystem) (host : String → Int) (name : String)
    (hr : FsReachable fs)
    (h : (∀ i, fs.OpenFileTable i ≠ none) ∨ host name = -1) :
    OpenAFile fs host name = (some (-1), fs) := by
  unfold OpenAFile
  by_cases hsize : fs.OpenFileTableSize = 20
  · rw [if_pos hsize]
  · rw [if_neg hsize]
    rcases h with hfull | hfd
    · exfalso
      apply hsize
      rw [FsReachable_invariant fs hr, (usedEntries_full fs).mpr hfull]
      rfl
    · simp only [if_pos hfd]

theorem OpenAFile_fails_witness :
    (openMany demoHost "file2.test" 30 FileSystem.init).1 =
      (List.range 20).map (fun i => some (i : Int)) ++ List.replicate 10 (some (-1)) ∧
    OpenAFile fsFull demoHost "file2.test" = (some (-1), fsFull) ∧
    OpenAFile fsHoles demoHost "file7.test" = (some (-1), fsHoles) :=
  ⟨by decide!,
    OpenAFile_fails fsFull demoHost "file2.test" fsFull_reachable (Or.inl (by decide!)),
    OpenAFile_fails fsHoles demoHost "file7.test" fsHoles_reachable (Or.inr (by decide!))⟩

/-- C26: `CloseFile(id)` returns -1 and changes nothing when `id < 0`, when
`id ≥ 20`, and when entry `id` is empty; otherwise it returns 1, empties entry
`id`, leaves every other entry alone and takes one off the size. -/
theorem CloseFile_spec (fs : FileSystem) (id : Int) :
    ((id < 0 ∨ id ≥ 20) → CloseFile fs id = (-1, fs)) ∧
    (∀ i : Fin 20, id = (i.val : Int) → fs.OpenFileTable i = none →
      CloseFile fs id = (-1, fs)) ∧
    (∀ i : Fin 20, id = (i.val : Int) → fs.OpenFileTable i ≠ none →
      CloseFile fs id =
        (1, { OpenFileTable := Function.update fs.OpenFileTable i none,
              OpenFileTableSize := fs.OpenFileTableSize - 1 })) := by
  refine ⟨fun h => ?_, fun i hi hnone => ?_, fun i hi hsome => ?_⟩
  · unfold CloseFile
    rw [dif_pos h]
  · have hrange : ¬ (id < 0 ∨ id ≥ 20) := by have := i.isLt; omega
    have hidx : (⟨id.toNat, by omega⟩ : Fin 20) = i := Fin.ext (by simp [hi])
    unfold CloseFile
    rw [dif_neg hrange]
    simp only [hidx, hnone]
  · have hrange : ¬ (id < 0 ∨ id ≥ 20) := by have := i.isLt; omega
    have hidx : (⟨id.toNat, by omega⟩ : Fin 20) = i := Fin.ext (by simp [hi])
    unfold CloseFile
    rw [dif_neg hrange]
    simp only [hidx]
    cases hv : fs.OpenFileTable i with
    | none => exact absurd hv hsome
    | some v => rfl

theorem CloseFile_spec_witness :
    (CloseFile fsFull 5).1 = 1 ∧ (CloseFile fsFull 5).2.OpenFileTable 5 = none ∧
    CloseFile (CloseFile fsFull 5).2 5 = (-1, (CloseFile fsFull 5).2) ∧
    CloseFile fsFull 1000 = (-1, fsFull) := by
  have h1 := (CloseFile_spec fsFull 5).2.2 5 rfl (by decide!)
  have h2 := (CloseFile_spec (CloseFile fsFull 5).2 5).2.1 5 rfl (by rw [h1]; simp)
  have h3 := (CloseFile_spec fsFull 1000).1 (Or.inr (by decide))
  exact ⟨by rw [h1], by rw [h1]; simp, h2, h3⟩

/-- C27: a call `OpenAFile` that returns an identifier (a value other than -1)
returns the smallest index whose entry was empty, fills that entry with the
new open file, leaves every other entry alone and adds one to the size; and
such a call succeeds whenever the size is not 20, the host opens the file and
some entry is empty. -/
theorem OpenAFile_smallest_empty (fs : FileSystem) (host : String → Int) (name : String) :
    (∀ id fs1, OpenAFile fs host name = (some id, fs1) → id ≠ -1 →
      ∃ i : Fin 20, id = (i.val : Int) ∧ fs.OpenFileTable i = none ∧
        (∀ j, j < i → fs.OpenFileTable j ≠ none) ∧
        fs1.OpenFileTable i = some ⟨host name⟩ ∧
        (∀ j, j ≠ i → fs1.OpenFileTable j = fs.OpenFileTable j) ∧
        fs1.OpenFileTableSize = fs.OpenFileTableSize + 1) ∧
    (fs.OpenFileTableSize ≠ 20 → host name ≠ -1 → (∃ k, fs.OpenFileTable k = none) →
      ∃ i : Fin 20, (OpenAFile fs host name).1 = some (i.val : Int) ∧
        fs.OpenFileTable i = none ∧ ∀ j, j < i → fs.OpenFileTable j ≠ none) := by
  constructor
  · intro id fs1 h hid
    unfold OpenAFile at h
    by_cases hsize : fs.OpenFileTableSize = 20
    · rw [if_pos hsize] at h
      have := (Prod.mk.inj h).1
      simp only [Option.some.injEq] at this
      exact absurd this.symm hid
    · rw [if_neg hsize] at h
      by_cases hfd : host name = -1
      · simp only [if_pos hfd] at h
        have := (Prod.mk.inj h).1
        simp only [Option.some.injEq] at this
        exact absurd this.symm hid
      · simp only [if_neg hfd] at h
        cases hf : (List.finRange 20).find? (fun i => fs.OpenFileTable i = none) with
        | none =>
          rw [hf] at h
          have := (Prod.mk.inj h).1
          cases this
        | some i =>
          rw [hf] at h
          obtain ⟨h1, h2⟩ := find_empty_spec fs.OpenFileTable i hf
          have hid2 := (Prod.mk.inj h).1
          have hfs := (Prod.mk.inj h).2
          simp only [Option.some.injEq] at hid2
          subst hfs
          refine ⟨i, hid2.symm, h1, h2, by simp, fun j hj => ?_, rfl⟩
          simp [Function.update_noteq hj]
  · rintro hsize hfd ⟨k, hk⟩
    obtain ⟨i, hi, hmin, heq⟩ := OpenAFile_success fs host name hsize hfd k hk
    exact ⟨i, by rw [heq], hi, hmin⟩

theorem OpenAFile_smallest_empty_witness :
    fsHoles.OpenFileTable 5 = none ∧ fsHoles.OpenFileTable 10 = none ∧
    (OpenAFile fsHoles demoHost "file2.test").1 = some 5 ∧
    (OpenAFile (OpenAFile fsHoles demoHost "file2.test").2 demoHost "file2.test").1 =
      some 10 ∧
    ∃ i : Fin 20, (5 : Int) = (i.val : Int) ∧ ∀ j, j < i → fsHoles.OpenFileTable j ≠ none := by
  have h1 : (OpenAFile fsHoles demoHost "file2.test").1 = some 5 := by decide!
  obtain ⟨i, hi, _, hmin, _⟩ :=
    (OpenAFile_smallest_empty fsHoles demoHost "file2.test").1 5
      (OpenAFile fsHoles demoHost "file2.test").2 (by rw [← h1]) (by decide)
  exact ⟨by decide!, by decide!, h1, by decide!, i, hi, hmin⟩

/-- C29: in every state reachable from the constructor by `OpenAFile` and
`CloseFile`, `OpenFileTableSize` is the number of entries that are not `NULL`
and lies between 0 and 20; so when `OpenAFile` passes its size test and the
host opens the file, the search loop finds an empty entry, and `OpenAFile`
never ends without returning a value. -/
theorem FsReachable_table_invariant (fs : FileSystem) (hr : FsReachable fs) :
    fs.OpenFileTableSize = (usedEntries fs : Int) ∧
    0 ≤ fs.OpenFileTableSize ∧ fs.OpenFileTableSize ≤ 20 ∧
    (∀ (host : String → Int) (name : String),
      fs.OpenFileTableSize ≠ 20 → host name ≠ -1 →
      ∃ i : Fin 20, fs.OpenFileTable i = none ∧
        (OpenAFile fs host name).1 = some (i.val : Int)) ∧
    (∀ (host : String → Int) (name : String), (OpenAFile fs host name).1 ≠ none) := by
  have hinv := FsReachable_invariant fs hr
  have hle := usedEntries_le fs
  have hopen : ∀ (host : String → Int) (name : String),
      fs.OpenFileTableSize ≠ 20 → host name ≠ -1 →
      ∃ i : Fin 20, fs.OpenFileTable i = none ∧
        (OpenAFile fs host name).1 = some (i.val : Int) := by
    intro host name hsize hfd
    have hlt : usedEntries fs ≠ 20 := fun e => hsize (by rw [hinv, e]; rfl)
    have hex : ∃ k, fs.OpenFileTable k = none := by
      by_contra hno
      exact hlt ((usedEntries_full fs).mpr (fun i hi => hno ⟨i, hi⟩))
    obtain ⟨k, hk⟩ := hex
    obtain ⟨i, hi, _, heq⟩ := OpenAFile_success fs host name hsize hfd k hk
    exact ⟨i, hi, by rw [heq]⟩
  refine ⟨hinv, by omega, by omega, hopen, ?_⟩
  intro host name
  by_cases hsize : fs.OpenFileTableSize = 20
  · simp [OpenAFile, hsize]
  · by_cases hfd : host name = -1
    · simp [OpenAFile, hsize, hfd]
    · obtain ⟨i, _, h⟩ := hopen host name hsize hfd
      rw [h]; simp

theorem FsReachable_table_invariant_witness :
    fsHoles.OpenFileTableSize = 18 ∧ usedEntries fsHoles = 18 ∧
    fsHoles.OpenFileTableSize = (usedEntries fsHoles : Int) ∧
    ∃ i : Fin 20, fsHoles.OpenFileTable i = none ∧
      (OpenAFile fsHoles demoHost "file2.test").1 = some (i.val : Int) := by
  have h := FsReachable_table_invariant fsHoles fsHoles_reachable
  exact ⟨by decide!, by decide!, h.1, h.2.2.2.1 demoHost "file2.test" (by decide!) (by decide!)⟩


/-! ## The file header: Allocate and ByteToSector -/

theorem forLoop_inv {σ : Type} (body : Int → σ → Option σ) (P : Nat → σ → Prop)
    (n start : Nat) (st : σ) (h0 : P start st)
    (hstep : ∀ k st, start ≤ k → k < start + n → P k st →
      ∃ st1, body (k : Int) st = some st1 ∧ P (k + 1) st1) :
    ∃ st1, forLoop body n (start : Int) st = some st1 ∧ P (start + n) st1 := by
  induction n generalizing start st with
  | zero => exact ⟨st, rfl, h0⟩
  | succ n ih =>
    obtain ⟨st1, hb, hp⟩ := hstep start st (le_refl _) (by omega) h0
    obtain ⟨st2, hl, hp2⟩ := ih (start + 1) st1 hp
      (fun k st hk hk2 hP => hstep k st (by omega) (by omega) hP)
    refine ⟨st2, ?_, by rw [show start + (n + 1) = start + 1 + n by omega]; exact hp2⟩
    simp only [forLoop, hb]
    have hc : ((start : Int) + 1) = ((start + 1 : Nat) : Int) := by push_cast; rfl
    rw [hc]
    exact hl

theorem fillRow_filled {A : Type} (limit : Int) (write : Int → Int → A → A)
    (fm0 : List Nat) (hlen : limit.toNat ≤ fm0.length) (Q : Nat → A → Prop) (base : Nat)
    (hQ : ∀ (x c : Nat) (a : A) (v : Nat), x < 32 → c < limit.toNat → c = base + x →
      fm0.get? c = some v → Q c a → Q (c + 1) (write (x : Int) (v : Int) a))
    (st : A × List Nat × Int) (h : Filled limit.toNat fm0 Q base st) :
    ∃ st1, fillRow limit write 32 0 st = some st1 ∧
      Filled limit.toNat fm0 Q (base + 32) st1 := by
  have key : ∀ (fuel x : Nat) (st : A × List Nat × Int), x + fuel = 32 →
      Filled limit.toNat fm0 Q (base + x) st →
      ∃ st1, fillRow limit write fuel (x : Int) st = some st1 ∧
        Filled limit.toNat fm0 Q (base + 32) st1 := by
    intro fuel
    induction fuel with
    | zero =>
      intro x st hx hf
      have : x = 32 := by omega
      subst this
      exact ⟨st, rfl, hf⟩
    | succ fuel ih =>
      intro x st hx hf
      obtain ⟨a, fm, cnt⟩ := st
      obtain ⟨hcnt, hfm, hq⟩ := hf
      simp only at hcnt hfm hq
      by_cases hlt : cnt < limit
      · -- one more slot is filled
        have hp : base + x < limit.toNat := by
          by_contra hge
          rw [Nat.min_eq_right (by omega)] at hcnt
          omega
        have hmin : min (base + x) limit.toNat = base + x := Nat.min_eq_left (by omega)
        rw [hmin] at hcnt hfm hq
        have hinb : base + x < fm0.length := by omega
        have hget : fm0.get? (base + x) = some (fm0.get ⟨base + x, hinb⟩) :=
          List.get?_eq_get hinb
        have hdrop : fm = fm0.get ⟨base + x, hinb⟩ :: fm0.drop (base + x + 1) := by
          rw [hfm]
          exact List.drop_eq_getElem_cons hinb
        have hfs : FindAndSet fm =
            ((fm0.get ⟨base + x, hinb⟩ : Int), fm0.drop (base + x + 1)) := by
          rw [hdrop]; rfl
        have hmin2 : min (base + (x + 1)) limit.toNat = base + x + 1 :=
          Nat.min_eq_left (by omega)
        obtain ⟨st1, hrun, hfin⟩ := ih (x + 1)
          (write (x : Int) (fm0.get ⟨base + x, hinb⟩ : Int) a, fm0.drop (base + x + 1), cnt + 1)
          (by omega)
          ⟨by simp only [hmin2]; rw [hcnt]; push_cast; rfl,
           by simp only [hmin2],
           by simp only [hmin2]
              exact hQ x (base + x) a _ (by omega) hp rfl hget hq⟩
        refine ⟨st1, ?_, hfin⟩
        simp only [fillRow, if_pos hlt, hfs]
        rw [if_pos (by exact Int.ofNat_nonneg _)]
        have hc : ((x : Int) + 1) = ((x + 1 : Nat) : Int) := by push_cast; rfl
        rw [hc]
        exact hrun
      · -- the limit is reached: the loop ends
        have hp : limit.toNat ≤ base + x := by
          by_contra hge
          rw [Nat.min_eq_left (by omega)] at hcnt
          omega
        refine ⟨(a, fm, cnt), by simp only [fillRow, if_neg hlt], ?_⟩
        have hmin : min (base + x) limit.toNat = limit.toNat := Nat.min_eq_right hp
        have hmin2 : min (base + 32) limit.toNat = limit.toNat := Nat.min_eq_right (by omega)
        rw [hmin] at hcnt hfm hq
        exact ⟨by simp only [hmin2]; exact hcnt, by simp only [hmin2]; exact hfm,
          by simp only [hmin2]; exact hq⟩
  have := key 32 0 st (by omega) (by simpa using h)
  simpa using this

theorem forLoop_filled {A : Type} (L : Nat) (fm0 : List Nat) (Q : Nat → A → Prop)
    (body : Int → A × List Nat × Int → Option (A × List Nat × Int))
    (base w m : Nat)
    (hbody : ∀ (k : Nat) st, k < m → Filled L fm0 Q (base + k * w) st →
      ∃ st1, body (k : Int) st = some st1 ∧ Filled L fm0 Q (base + (k + 1) * w) st1)
    (st : A × List Nat × Int) (h : Filled L fm0 Q base st) :
    ∃ st1, forLoop body m 0 st = some st1 ∧ Filled L fm0 Q (base + m * w) st1 := by
  have := forLoop_inv body (fun k st => Filled L fm0 Q (base + k * w) st) m 0 st
    (by simpa using h)
    (fun k st _ hk hP => hbody k st (by omega) hP)
  simpa using this


theorem allocL1_loop (n : Nat) (a0 : Int → Int) (fm0 : List Nat) (hlen : n ≤ fm0.length) :
    ∃ a1, forLoop (fun i (st : (Int → Int) × List Nat) =>
        if (FindAndSet st.2).1 ≥ 0 then
          some (write1 st.1 i (FindAndSet st.2).1, (FindAndSet st.2).2)
        else none) n 0 (a0, fm0) = some (a1, fm0.drop n) := by
  obtain ⟨st1, h1, h2⟩ := forLoop_inv (fun i (st : (Int → Int) × List Nat) =>
        if (FindAndSet st.2).1 ≥ 0 then
          some (write1 st.1 i (FindAndSet st.2).1, (FindAndSet st.2).2)
        else none) (fun k st => st.2 = fm0.drop k) n 0 (a0, fm0) (by simp)
    (fun k st _ hk hP => by
      have hinb : k < fm0.length := by omega
      have hdrop : st.2 = fm0.get ⟨k, hinb⟩ :: fm0.drop (k + 1) := by
        rw [hP]; exact List.drop_eq_getElem_cons hinb
      have hfs : FindAndSet st.2 = ((fm0.get ⟨k, hinb⟩ : Int), fm0.drop (k + 1)) := by
        rw [hdrop]; rfl
      refine ⟨(write1 st.1 k (fm0.get ⟨k, hinb⟩ : Int), fm0.drop (k + 1)), ?_, rfl⟩
      simp only [hfs]
      rw [if_pos (Int.ofNat_nonneg _)])
  obtain ⟨a1, fm1⟩ := st1
  simp only [Nat.zero_add] at h2
  subst h2
  exact ⟨a1, by simpa using h1⟩

theorem allocL2_loop (limit : Int) (NumDirect : Nat) (a0 : Int → Int → Int)
    (fm0 : List Nat) (hlen : limit.toNat ≤ fm0.length) (hcap : limit.toNat ≤ NumDirect * 32) :
    ∃ a1 c, forLoop (fun i => fillRow limit (fun j v a => write2 a i j v) 32 0)
      NumDirect 0 (a0, fm0, 0) = some (a1, fm0.drop limit.toNat, c) := by
  obtain ⟨st1, h1, h2⟩ := forLoop_filled limit.toNat fm0 (fun _ (_ : Int → Int → Int) => True)
    (fun i => fillRow limit (fun j v a => write2 a i j v) 32 0) 0 32 NumDirect
    (fun i st _ hf => by
      have := fillRow_filled limit (fun j v a => write2 a (i : Int) j v) fm0 hlen
        (fun _ (_ : Int → Int → Int) => True) (0 + i * 32)
        (fun _ _ _ _ _ _ _ _ _ => trivial) st hf
      rw [show 0 + (i + 1) * 32 = 0 + i * 32 + 32 by omega]
      exact this)
    (a0, fm0, 0) ⟨by simp, by simp, trivial⟩
  obtain ⟨a1, fm1, c⟩ := st1
  obtain ⟨_, hfm, _⟩ := h2
  simp only at hfm
  rw [Nat.min_eq_right (by omega)] at hfm
  subst hfm
  exact ⟨a1, c, h1⟩

theorem allocL3_loop (limit : Int) (NumDirect : Nat) (a0 : Int → Int → Int → Int)
    (fm0 : List Nat) (hlen : limit.toNat ≤ fm0.length)
    (hcap : limit.toNat ≤ NumDirect * 1024) :
    ∃ a1 c, forLoop (fun i => forLoop (fun j =>
        fillRow limit (fun k v a => write3 a i j k v) 32 0) 32 0)
      NumDirect 0 (a0, fm0, 0) = some (a1, fm0.drop limit.toNat, c) := by
  obtain ⟨st1, h1, h2⟩ := forLoop_filled limit.toNat fm0
    (fun _ (_ : Int → Int → Int → Int) => True)
    (fun i => forLoop (fun j =>
        fillRow limit (fun k v a => write3 a i j k v) 32 0) 32 0) 0 1024 NumDirect
    (fun i st _ hf => by
      have := forLoop_filled limit.toNat fm0 (fun _ (_ : Int → Int → Int → Int) => True)
        (fun j => fillRow limit (fun k v a => write3 a (i : Int) j k v) 32 0)
        (0 + i * 1024) 32 32
        (fun j st _ hf => by
          have := fillRow_filled limit (fun k v a => write3 a (i : Int) (j : Int) k v) fm0 hlen
            (fun _ (_ : Int → Int → Int → Int) => True) (0 + i * 1024 + j * 32)
            (fun _ _ _ _ _ _ _ _ _ => trivial) st hf
          rw [show 0 + i * 1024 + (j + 1) * 32 = 0 + i * 1024 + j * 32 + 32 by omega]
          exact this)
        st hf
      rw [show 0 + (i + 1) * 1024 = 0 + i * 1024 + 32 * 32 by omega]
      exact this)
    (a0, fm0, 0) ⟨by simp, by simp, trivial⟩
  obtain ⟨a1, fm1, c⟩ := st1
  obtain ⟨_, hfm, _⟩ := h2
  simp only at hfm
  rw [Nat.min_eq_right (by omega)] at hfm
  subst hfm
  exact ⟨a1, c, h1⟩

theorem write4_read4 (fm0 : List Nat) (i j k x c : Nat) (a : Int → Int → Int → Int → Int)
    (v : Nat) (hj : j < 32) (hk : k < 32) (hx : x < 32)
    (hc : c = 0 + i * 32768 + j * 1024 + k * 32 + x) (hget : fm0.get? c = some v)
    (hq : ∀ n, n < c → ∃ w, fm0.get? n = some w ∧ read4 a n = (w : Int)) :
    ∀ n, n < c + 1 → ∃ w, fm0.get? n = some w ∧
      read4 (write4 a (i : Int) (j : Int) (k : Int) (x : Int) (v : Int)) n = (w : Int) := by
  intro n hn
  by_cases hnc : n = c
  · subst hnc
    refine ⟨v, hget, ?_⟩
    unfold read4 write4
    rw [if_pos]
    refine ⟨?_, ?_, ?_, ?_⟩ <;> (congr 1; omega)
  · obtain ⟨w, hw, hr⟩ := hq n (by omega)
    refine ⟨w, hw, ?_⟩
    rw [← hr]
    unfold read4 write4
    rw [if_neg]
    rintro ⟨e1, e2, e3, e4⟩
    have e1' : n / 32768 = i := by exact_mod_cast e1
    have e2' : n / 1024 % 32 = j := by exact_mod_cast e2
    have e3' : n / 32 % 32 = k := by exact_mod_cast e3
    have e4' : n % 32 = x := by exact_mod_cast e4
    omega

theorem allocData_loop (limit : Int) (NumDirect : Nat)
    (a0 : Int → Int → Int → Int → Int)
    (fm0 : List Nat) (hlen : limit.toNat ≤ fm0.length)
    (hcap : limit.toNat ≤ NumDirect * 32768) :
    ∃ a1 c, forLoop (fun i => forLoop (fun j => forLoop (fun k =>
        fillRow limit (fun l v a => write4 a i j k l v) 32 0) 32 0) 32 0)
      NumDirect 0 (a0, fm0, 0) = some (a1, fm0.drop limit.toNat, c) ∧
      ∀ n, n < limit.toNat → ∃ w, fm0.get? n = some w ∧ read4 a1 n = (w : Int) := by
  obtain ⟨st1, h1, h2⟩ := forLoop_filled limit.toNat fm0
    (fun c (a : Int → Int → Int → Int → Int) =>
      ∀ n, n < c → ∃ w, fm0.get? n = some w ∧ read4 a n = (w : Int))
    (fun i => forLoop (fun j => forLoop (fun k =>
        fillRow limit (fun l v a => write4 a i j k l v) 32 0) 32 0) 32 0) 0 32768 NumDirect
    (fun i st _ hf => by
      have := forLoop_filled limit.toNat fm0
        (fun c (a : Int → Int → Int → Int → Int) =>
          ∀ n, n < c → ∃ w, fm0.get? n = some w ∧ read4 a n = (w : Int))
        (fun j => forLoop (fun k =>
          fillRow limit (fun l v a => write4 a (i : Int) j k l v) 32 0) 32 0)
        (0 + i * 32768) 1024 32
        (fun j st hj hf => by
          have := forLoop_filled limit.toNat fm0
            (fun c (a : Int → Int → Int → Int → Int) =>
              ∀ n, n < c → ∃ w, fm0.get? n = some w ∧ read4 a n = (w : Int))
            (fun k => fillRow limit (fun l v a => write4 a (i : Int) (j : Int) k l v) 32 0)
            (0 + i * 32768 + j * 1024) 32 32
            (fun k st hk hf => by
              have := fillRow_filled limit
                (fun l v a => write4 a (i : Int) (j : Int) (k : Int) l v) fm0 hlen
                (fun c (a : Int → Int → Int → Int → Int) =>
                  ∀ n, n < c → ∃ w, fm0.get? n = some w ∧ read4 a n = (w : Int))
                (0 + i * 32768 + j * 1024 + k * 32)
                (fun x c a v hx _ hc hget hq =>
                  write4_read4 fm0 i j k x c a v hj hk hx hc hget hq) st hf
              rw [show 0 + i * 32768 + j * 1024 + (k + 1) * 32 =
                0 + i * 32768 + j * 1024 + k * 32 + 32 by omega]
              exact this)
            st hf
          rw [show 0 + i * 32768 + (j + 1) * 1024 = 0 + i * 32768 + j * 1024 + 32 * 32 by omega]
          exact this)
        st hf
      rw [show 0 + (i + 1) * 32768 = 0 + i * 32768 + 32 * 1024 by omega]
      exact this)
    (a0, fm0, 0) ⟨by simp, by simp, fun n hn => absurd hn (by simp)⟩
  obtain ⟨a1, fm1, c⟩ := st1
  obtain ⟨_, hfm, hq⟩ := h2
  simp only at hfm hq
  rw [Nat.min_eq_right (by omega)] at hfm hq
  subst hfm
  exact ⟨a1, c, h1, hq⟩


theorem divRoundUp_ceil (n s : Int) (hn : 0 ≤ n) (hs : 0 < s) :
    0 ≤ divRoundUp n s ∧ n ≤ s * divRoundUp n s ∧ s * divRoundUp n s < n + s := by
  unfold divRoundUp
  rw [Int.tdiv_eq_ediv hn hs.le, Int.tmod_eq_emod hn hs.le]
  have h1 := Int.ediv_add_emod n s
  have h2 := Int.emod_nonneg n (ne_of_gt hs)
  have h3 := Int.emod_lt_of_pos n hs
  have h4 := Int.ediv_nonneg hn hs.le
  split_ifs with h
  · rw [mul_add, mul_one]
    refine ⟨by omega, by omega, by omega⟩
  · rw [add_zero]
    refine ⟨h4, by omega, by omega⟩

theorem shiftRight_of_nonneg (m : Int) (hm : 0 ≤ m) (k : Nat) :
    m >>> (k : Int) = m / ((2 ^ k : Nat) : Int) := by
  obtain ⟨a, rfl⟩ := Int.eq_ofNat_of_zero_le hm
  rw [Int.shiftRight_coe_nat, Nat.shiftRight_eq_div_pow]
  norm_cast

theorem Allocate_success (NumDirect : Nat) (SectorSize : Int) (hdr : FileHeader)
    (freeMap : List Nat) (fileSize : Int) (hS : 0 < SectorSize) (hpos : 0 ≤ fileSize)
    (hassert : divRoundUp (divRoundUp (divRoundUp (divRoundUp fileSize SectorSize) 32) 32) 32
      ≤ (NumDirect : Int))
    (hspace : ¬ NumClear freeMap < divRoundUp fileSize SectorSize +
      divRoundUp (divRoundUp fileSize SectorSize) 32 +
      divRoundUp (divRoundUp (divRoundUp fileSize SectorSize) 32) 32 +
      divRoundUp (divRoundUp (divRoundUp (divRoundUp fileSize SectorSize) 32) 32) 32) :
    ∃ hdr1 freeMap1, Allocate NumDirect SectorSize hdr freeMap fileSize =
        some (true, hdr1, freeMap1) ∧
      ∀ n, n < (divRoundUp fileSize SectorSize).toNat →
        ∃ w, freeMap.get? ((headerSectorCount SectorSize fileSize).toNat + n) = some w ∧
          read4 hdr1.dataSectors n = (w : Int) := by
  obtain ⟨c0, _, _⟩ := divRoundUp_ceil fileSize SectorSize hpos hS
  generalize hNS : divRoundUp fileSize SectorSize = NS at *
  obtain ⟨c1, c1a, c1b⟩ := divRoundUp_ceil NS 32 c0 (by decide)
  generalize hL3 : divRoundUp NS 32 = L3 at *
  obtain ⟨c2, c2a, c2b⟩ := divRoundUp_ceil L3 32 c1 (by decide)
  generalize hL2 : divRoundUp L3 32 = L2 at *
  obtain ⟨c3, c3a, c3b⟩ := divRoundUp_ceil L2 32 c2 (by decide)
  generalize hL1 : divRoundUp L2 32 = L1 at *
  unfold NumClear at hspace
  have hH : headerSectorCount SectorSize fileSize = L1 + L2 + L3 := by
    unfold headerSectorCount
    simp only [hNS, hL3, hL2, hL1]
  -- the four loops
  obtain ⟨l1, e1⟩ := allocL1_loop L1.toNat hdr.headerSectorsL1 freeMap (by omega)
  obtain ⟨l2, k2, e2⟩ := allocL2_loop L2 NumDirect hdr.headerSectorsL2
    (freeMap.drop L1.toNat) (by rw [List.length_drop]; omega) (by omega)
  obtain ⟨l3, k3, e3⟩ := allocL3_loop L3 NumDirect hdr.headerSectorsL3
    ((freeMap.drop L1.toNat).drop L2.toNat)
    (by rw [List.length_drop, List.length_drop]; omega) (by omega)
  obtain ⟨d, k4, e4, hd⟩ := allocData_loop NS NumDirect hdr.dataSectors
    (((freeMap.drop L1.toNat).drop L2.toNat).drop L3.toNat)
    (by rw [List.length_drop, List.length_drop, List.length_drop]; omega) (by omega)
  refine ⟨⟨fileSize, NS, l1, l2, l3, d⟩,
    (((freeMap.drop L1.toNat).drop L2.toNat).drop L3.toNat).drop NS.toNat, ?_, ?_⟩
  · unfold Allocate
    simp only [hNS, hL3, hL2, hL1, NumClear]
    rw [if_neg (by omega), if_neg hspace]
    simp only [e1, e2, e3, e4]
  · intro n hn
    obtain ⟨w, hw, hr⟩ := hd n hn
    refine ⟨w, ?_, hr⟩
    rw [List.get?_eq_getElem?, List.getElem?_drop, List.getElem?_drop,
      List.getElem?_drop] at hw
    rw [List.get?_eq_getElem?, hH, ← hw]
    congr 1
    omega

/-- C30: after a successful `Allocate(freeMap, fileSize)`, for every offset
with `0 ≤ offset < fileSize` the assertion of `ByteToSector` holds and
`ByteToSector(offset)` returns the data sector number `n = offset /
SectorSize` in allocation order: the bit that `FindAndSet` handed out at its
call number `L1Num + L2Num + L3Num + n`, the header sectors being taken
first. -/
theorem ByteToSector_after_Allocate (NumDirect : Nat) (SectorSize : Int) (hS : 0 < SectorSize)
    (hdr : FileHeader) (freeMap : List Nat) (fileSize : Int)
    (hdr1 : FileHeader) (freeMap1 : List Nat)
    (h : Allocate NumDirect SectorSize hdr freeMap fileSize = some (true, hdr1, freeMap1))
    (offset : Int) (h0 : 0 ≤ offset) (hlt : offset < fileSize) :
    ∃ sector : Nat,
      freeMap.get? ((headerSectorCount SectorSize fileSize).toNat +
        (Int.tdiv offset SectorSize).toNat) = some sector ∧
      ByteToSector NumDirect SectorSize hdr1 offset = some (sector : Int) := by
  have hpos : 0 ≤ fileSize := by omega
  -- the assertion of Allocate held and there was room
  have hassert : divRoundUp (divRoundUp (divRoundUp (divRoundUp fileSize SectorSize) 32) 32) 32
      ≤ (NumDirect : Int) := by
    by_contra hno
    unfold Allocate at h
    simp only [if_pos hno] at h
    cases h
  have hspace : ¬ NumClear freeMap < divRoundUp fileSize SectorSize +
      divRoundUp (divRoundUp fileSize SectorSize) 32 +
      divRoundUp (divRoundUp (divRoundUp fileSize SectorSize) 32) 32 +
      divRoundUp (divRoundUp (divRoundUp (divRoundUp fileSize SectorSize) 32) 32) 32 := by
    intro hno
    unfold Allocate at h
    simp only [if_neg (not_not.mpr hassert), if_pos hno] at h
    have := (Prod.mk.inj (Option.some.inj h)).1
    cases this
  obtain ⟨hdr2, freeMap2, heq, hdata⟩ := Allocate_success NumDirect SectorSize hdr freeMap
    fileSize hS hpos hassert hspace
  rw [heq] at h
  have hh : hdr2 = hdr1 := (Prod.mk.inj (Prod.mk.inj (Option.some.inj h)).2).1
  subst hh
  -- the sector number of the offset
  obtain ⟨c0, c0a, _⟩ := divRoundUp_ceil fileSize SectorSize hpos hS
  have hn0 : 0 ≤ offset / SectorSize := Int.ediv_nonneg h0 hS.le
  have hnlt : offset / SectorSize < divRoundUp fileSize SectorSize :=
    Int.ediv_lt_of_lt_mul hS (by rw [mul_comm]; omega)
  obtain ⟨c1, c1a, c1b⟩ := divRoundUp_ceil _ 32 c0 (by decide)
  obtain ⟨c2, c2a, c2b⟩ := divRoundUp_ceil _ 32 c1 (by decide)
  obtain ⟨c3, c3a, c3b⟩ := divRoundUp_ceil _ 32 c2 (by decide)
  rw [Int.tdiv_eq_ediv h0 hS.le]
  generalize hm : offset / SectorSize = m at *
  obtain ⟨w, hw, hr⟩ := hdata m.toNat (by omega)
  refine ⟨w, hw, ?_⟩
  unfold ByteToSector
  rw [Int.tdiv_eq_ediv h0 hS.le, hm]
  have s15 : m >>> 15 = m / 32768 := shiftRight_of_nonneg m hn0 15
  have s10 : m >>> 10 = m / 1024 := shiftRight_of_nonneg m hn0 10
  have s5 : m >>> 5 = m / 32 := shiftRight_of_nonneg m hn0 5
  simp only [s15, s10, s5]
  have hm5 : 0 ≤ m / 32 := Int.ediv_nonneg hn0 (by norm_num)
  have hm10 : 0 ≤ m / 1024 := Int.ediv_nonneg hn0 (by norm_num)
  rw [Int.tmod_eq_emod hm5 (by norm_num), Int.tmod_eq_emod hm10 (by norm_num),
    Int.tmod_eq_emod hn0 (by norm_num)]
  rw [if_pos (by omega), ← hr]
  unfold read4
  congr 2 <;> omega

/-- Witness of C30: a file of 5000 bytes with sectors of 128 bytes takes 4
header sectors and 40 data sectors from the free sectors `100, 101, ...`;
the last byte, at offset 4999, lies in data sector number 39, which is
sector 143. -/
theorem ByteToSector_after_Allocate_witness :
    ∃ hdr1 freeMap1, demoAllocated = some (true, hdr1, freeMap1) ∧
      ByteToSector 1 128 hdr1 4999 = some 143 := by
  obtain ⟨hdr1, freeMap1, h, _⟩ := Allocate_success 1 128 FileHeader.init
    ((List.range 60).map (fun i => i + 100)) 5000 (by decide) (by decide) (by decide!)
    (by decide!)
  obtain ⟨sector, hs, hb⟩ := ByteToSector_after_Allocate 1 128 (by decide) FileHeader.init
    ((List.range 60).map (fun i => i + 100)) 5000 hdr1 freeMap1 h 4999 (by decide) (by decide)
  have h143 : ((List.range 60).map (fun i => i + 100)).get?
      ((headerSectorCount 128 5000).toNat + (Int.tdiv 4999 128).toNat) = some 143 := by decide!
  rw [h143] at hs
  cases hs
  exact ⟨hdr1, freeMap1, h, hb⟩


end NachOS
